import Mathlib

/-! Temporary file names (`unotools/source/ucbhelper/tempfile.cxx`) and the
guide list of a custom shape (`oox/source/drawingml/customshapeproperties.cxx`).

A shallow embedding of the temporary-name allocator: the two token streams
(`SequentialTokens`, `UniqueTokens`), the base-directory resolution
(`ConstructTempDir_Impl`), the allocation loop (`lcl_createName`) and its
callers.  Strings are lists of characters, machine integers are naturals
wrapped explicitly to 32 bits, and the operating-system layer (`osl`) is an
explicit record of operations acting on an environment state.  The second
part embeds `SetCustomShapeGuideValue` and `GetCustomShapeGuideValue` of
`CustomShapeProperties`.
-/

namespace utl

/-! ## Strings and 32-bit integers -/

/-- The string type of the source, as the list of the characters (code points)
of its text; the source stores the text in UTF-16 code units.  Cutting a
string before or after a character of the basic multilingual plane, such as
`/` or `:`, is the same cut whether positions count characters or code units,
so `lastIndexOf`, `copy` and `endsWith` for such characters are rendered with
positions in the list; a length that the source compares with a number is
`OUString.getLength`, in code units. -/
abbrev OUString := List Char

/-- The number of UTF-16 code units of a character: two for a character
outside the basic multilingual plane, one otherwise. -/
def utf16Units (c : Char) : Nat := if c.toNat < 65536 then 1 else 2

/-- The method `OUString::getLength`: the length in UTF-16 code units. -/
def OUString.getLength (s : OUString) : Nat := (s.map utf16Units).sum

/-- The largest `sal_uInt32`. -/
def SAL_MAX_UINT32 : Nat := 4294967295

/-- Truncation of a natural number to `sal_uInt32`. -/
def toUInt32 (n : Nat) : Nat := n % 4294967296

/-- The digit characters of `OUString::number`, in order of value. -/
def digitChars : List Char := "0123456789abcdefghijklmnopqrstuvwxyz".toList

/-- The character of the digit `d`. -/
def digitChar (d : Nat) : Char := digitChars.getD d '0'

/-- The value of a digit character (36 for a character that is no digit). -/
def digitValue (c : Char) : Nat := digitChars.indexOf c

/-- The digits of `v` in base `radix`, most significant first; the first
argument bounds the number of digits. -/
def numberDigits (radix : Nat) : Nat → Nat → OUString
  | 0, _ => []
  | fuel + 1, v =>
    if v < radix then [digitChar v]
    else numberDigits radix fuel (v / radix) ++ [digitChar (v % radix)]

/-- Modelled from the spec: `OUString::number(v, radix)` of the string library,
which is not among the sources: the text of `v` in base `radix` ("decimal
text" for radix 10, "base-36 encoding" for radix 36), digits `0`-`9` then
`a`-`z`, no leading zeros, `"0"` for zero. -/
def OUString.number (v : Nat) (radix : Nat) : OUString :=
  numberDigits radix (v + 1) v

/-- The number a digit string denotes in base `radix`. -/
def digitsValue (radix : Nat) (s : OUString) : Nat :=
  s.foldl (fun acc c => acc * radix + digitValue c) 0

/-- The call `OUString::endsWith` for a one-character argument. -/
def endsWithChar (s : OUString) (c : Char) : Bool := s.getLast? == some c

/-- The call `std::u16string_view::rfind(c)`: the index of the last occurrence of `c`,
or `none` for `npos`. -/
def rfind (c : Char) : OUString → Option Nat
  | [] => none
  | x :: xs =>
    match rfind c xs with
    | some i => some (i + 1)
    | none => if x = c then some 0 else none

/-! ## The token streams -/

/-- The class `SequentialTokens`: the next number and whether it is shown. -/
structure SequentialTokens where
  m_value : Nat
  m_show : Bool
  deriving DecidableEq, Repr

/-- The constructor `SequentialTokens(bool showZero)`. -/
def SequentialTokens.new (showZero : Bool) : SequentialTokens :=
  { m_value := 0, m_show := showZero }

/-- The method `SequentialTokens::next(OUString * token)`: the returned flag,
the object afterwards and the content of `*token` afterwards. -/
def SequentialTokens.next (self : SequentialTokens) (token : OUString) :
    Bool × SequentialTokens × OUString :=
  if self.m_value = SAL_MAX_UINT32 then
    (false, self, token)
  else
    (true,
     { m_value := toUInt32 (self.m_value + 1), m_show := true },
     if self.m_show then OUString.number self.m_value 10 else [])

/-- The class `UniqueTokens`: the number of tokens this instance has issued. -/
structure UniqueTokens where
  m_count : Nat
  deriving DecidableEq, Repr

/-- The constructor `UniqueTokens()`. -/
def UniqueTokens.new : UniqueTokens := { m_count := 0 }

/-- The local `max` of `UniqueTokens::next`: `radix` multiplied six times in
`sal_uInt32` arithmetic. -/
def UniqueTokens.max (radix : Nat) : Nat :=
  toUInt32 (toUInt32 (toUInt32 (toUInt32 (toUInt32 (radix * radix) * radix) * radix)
    * radix) * radix)

/-! ## The operating-system layer -/

/-- The result codes `osl::FileBase::RC`. -/
inductive RC where
  | E_None | E_PERM | E_NOENT | E_SRCH | E_INTR | E_IO | E_NXIO | E_2BIG
  | E_NOEXEC | E_BADF | E_CHILD | E_AGAIN | E_NOMEM | E_ACCES | E_FAULT
  | E_BUSY | E_EXIST | E_XDEV | E_NODEV | E_NOTDIR | E_ISDIR | E_INVAL
  | E_NFILE | E_MFILE | E_NOTTY | E_FBIG | E_NOSPC | E_SPIPE | E_ROFS
  | E_MLINK | E_PIPE | E_DOM | E_RANGE | E_DEADLK | E_NAMETOOLONG | E_NOLCK
  | E_NOSYS | E_NOTEMPTY | E_LOOP | E_ILSEQ | E_NOLINK | E_MULTIHOP
  | E_USERS | E_OVERFLOW | E_NOTREADY | E_invalidError | E_TIMEDOUT
  | E_NETWORK
  deriving DecidableEq, Repr

/-- The file types `osl::FileStatus::Type`. -/
inductive FileType where
  | Directory | Volume | Regular | Fifo | Socket | Link | Special | Unknown
  deriving DecidableEq, Repr

/-- The open flags `osl_File_OpenFlag_*`; a set of flags is a list. -/
inductive OpenFlag where
  | Read | Write | Create | NoLock | NoExcl | Private
  deriving DecidableEq, Repr

/-- The services of the operating-system layer that `tempfile.cxx` calls, over
an environment state `σ`.  An operation on the environment takes the state and
returns its answer with the state afterwards, so an environment may answer
the same call differently at different times. -/
structure Osl (σ : Type) where
  /-- The call `osl::Directory(path).open()` -/
  Directory_open : OUString → σ → RC × σ
  /-- The call `osl::Directory::close()` on the directory opened for `path` -/
  Directory_close : OUString → σ → σ
  /-- The call `osl::Directory::create(path, flags)` -/
  Directory_create : OUString → List OpenFlag → σ → RC × σ
  /-- The call `osl::Directory::createPath(path, &observer)` with a
  `TempDirCreatedObserver`, which gives each created directory owner-only
  attributes -/
  Directory_createPath : OUString → σ → RC × σ
  /-- The call `osl::Directory::remove(path)` -/
  Directory_remove : OUString → σ → RC × σ
  /-- The call `osl::File(path).open(flags)` -/
  File_open : OUString → List OpenFlag → σ → RC × σ
  /-- The call `osl::File::close()` on the file opened for `path` -/
  File_close : OUString → σ → σ
  /-- The call `osl::File::remove(path)` -/
  File_remove : OUString → σ → RC × σ
  /-- The call `osl::DirectoryItem::get(path, item)` -/
  DirectoryItem_get : OUString → σ → RC × σ
  /-- The call `item.getFileStatus(status)` with the type mask, and
  `status.getFileType()`, for the item obtained for `path` -/
  DirectoryItem_getFileStatus : OUString → σ → (RC × FileType) × σ
  /-- The call `comphelper::DirectoryHelper::deleteDirRecursively(path)` -/
  deleteDirRecursively : OUString → σ → Bool × σ
  /-- The call `osl::FileBase::getSystemPathFromFileURL` -/
  getSystemPathFromFileURL : OUString → RC × OUString
  /-- The call `osl::FileBase::getFileURLFromSystemPath` -/
  getFileURLFromSystemPath : OUString → RC × OUString
  /-- The call `osl::File::getTempDirURL` -/
  getTempDirURL : σ → (RC × OUString) × σ
  /-- The call `tools::Time::GetSystemTicks()` -/
  GetSystemTicks : σ → Nat × σ
  /-- The call `getpid()` -/
  getpid : Nat

/-- The process-wide variables of `tempfile.cxx` together with the state of
the environment. -/
structure World (σ : Type) where
  /-- The variable `gTempNameBase_Impl` -/
  gTempNameBase_Impl : OUString
  /-- The static member `UniqueTokens::globalValue` -/
  globalValue : Nat
  /-- The state of the environment. -/
  sys : σ

/-- The state at process start: `gTempNameBase_Impl` empty and
`UniqueTokens::globalValue = SAL_MAX_UINT32`. -/
def World.initial {σ : Type} (s : σ) : World σ :=
  { gTempNameBase_Impl := [], globalValue := SAL_MAX_UINT32, sys := s }

/-- The method `UniqueTokens::next(OUString * token)`: the returned flag, the
object afterwards, the content of `*token` afterwards and the world
afterwards.  The block under the global mutex is the update of
`globalValue`. -/
def UniqueTokens.next {σ : Type} (osl : Osl σ) (self : UniqueTokens) (token : OUString)
    (w : World σ) : Bool × UniqueTokens × OUString × World σ :=
  let radix : Nat := 36
  let max : Nat := UniqueTokens.max radix
  if self.m_count = max then
    (false, self, token, w)
  else
    let w1 : World σ :=
      if w.globalValue = SAL_MAX_UINT32 then
        let r := osl.GetSystemTicks w.sys
        { w with globalValue := toUInt32 (r.1 % max), sys := r.2 }
      else
        { w with globalValue := toUInt32 (toUInt32 (w.globalValue + 1) % max) }
    let v : Nat := w1.globalValue
    (true, { m_count := toUInt32 (self.m_count + 1) }, OUString.number v radix, w1)

/-- The abstract class `Tokens` with its two implementations. -/
inductive Tokens where
  | sequential (t : SequentialTokens)
  | unique (t : UniqueTokens)
  deriving DecidableEq, Repr

/-- The virtual call `tokens.next(&token)`. -/
def Tokens.next {σ : Type} (osl : Osl σ) (self : Tokens) (token : OUString) (w : World σ) :
    Bool × Tokens × OUString × World σ :=
  match self with
  | .sequential t =>
    let r := t.next token
    (r.1, .sequential r.2.1, r.2.2, w)
  | .unique t =>
    let r := t.next osl token w
    (r.1, .unique r.2.1, r.2.2.1, r.2.2.2)

/-! ## Base-directory resolution -/

/-- The default `flags` argument of `Directory::create`: read and write. -/
def defaultCreateFlags : List OpenFlag := [OpenFlag.Read, OpenFlag.Write]

/-- The method `OUString::equalsIgnoreAsciiCase`. -/
def equalsIgnoreAsciiCase (a b : OUString) : Bool :=
  a.map Char.toLower == b.map Char.toLower

/-- The function `getParentName`: the text before the last `/`, to which `/`
is appended when it ends with `:` and has six UTF-16 code units, and which is
replaced by `file:///` when it is `file://` in any letter case. -/
def getParentName (aFileName : OUString) : OUString :=
  match rfind '/' aFileName with
  | none => []
  | some lastIndex =>
    let aParent := aFileName.take lastIndex
    let aParent :=
      if endsWithChar aParent ':' && OUString.getLength aParent == 6 then
        aParent ++ "/".toList
      else aParent
    if equalsIgnoreAsciiCase aParent "file://".toList then "file:///".toList
    else aParent

/-- The body of `ensuredir`, with a bound on the depth of the recursion as
first argument. -/
def ensuredirAux {σ : Type} (osl : Osl σ) : Nat → OUString → σ → Bool × σ
  | 0, _, s => (false, s)
  | fuel + 1, rUnqPath, s =>
    if rUnqPath = [] then (false, s)
    else
      -- remove trailing slash
      let aPath : OUString :=
        if endsWithChar rUnqPath '/' then rUnqPath.take (rUnqPath.length - 1)
        else rUnqPath
      let o := osl.Directory_open aPath s
      let s1 := osl.Directory_close aPath o.2
      if o.1 = RC.E_None then (true, s1)
      else
        -- try to create the directory
        let c := osl.Directory_create aPath defaultCreateFlags s1
        let bSuccess : Bool := c.1 = RC.E_None || c.1 = RC.E_EXIST
        if !bSuccess then
          -- perhaps parent(s) don't exist
          let aParentDir := getParentName aPath
          if aParentDir ≠ aPath then
            let p := ensuredirAux osl fuel (getParentName aPath) c.2
            if p.1 then
              let c2 := osl.Directory_create aPath defaultCreateFlags p.2
              (c2.1 = RC.E_None || c2.1 = RC.E_EXIST, c2.2)
            else (false, p.2)
          else (false, c.2)
        else (true, c.2)

/-- The function `ensuredir`; every recursive call is on a strictly shorter
path once its trailing slash is removed, so the length of the path bounds the
depth. -/
def ensuredir {σ : Type} (osl : Osl σ) (rUnqPath : OUString) (s : σ) : Bool × σ :=
  ensuredirAux osl (rUnqPath.length + 1) rUnqPath s

/-- The first block of `ConstructTempDir_Impl` (compiled when `IOS` is not
defined): the test of the caller's parent.  The result is the local `aName`
after the block, empty unless the parent is accepted, and the world;
`pParent` is `none` for a null pointer. -/
def ConstructTempDir_parent {σ : Type} (osl : Osl σ) (pParent : Option OUString)
    (bCreateParentDirs : Bool) (w : World σ) : OUString × World σ :=
  match pParent with
  | none => ([], w)
  | some parent =>
    if parent = [] then ([], w)
    else
      -- test for valid filename
      let a := osl.getSystemPathFromFileURL parent
      if a.1 ≠ RC.E_None then ([], w)
      else
        let b := osl.getFileURLFromSystemPath a.2
        if b.1 ≠ RC.E_None then ([], w)
        else
          let aRet := b.2
          let i := if endsWithChar aRet '/' then aRet.length - 1 else aRet.length
          let g := osl.DirectoryItem_get (aRet.take i) w.sys
          if g.1 = RC.E_None || bCreateParentDirs then (aRet, { w with sys := g.2 })
          else ([], { w with sys := g.2 })

/-- The second block of `ConstructTempDir_Impl`, `if ( aName.isEmpty() )`: the
fall-back to the process-wide base, resolved from the platform temp directory
while `gTempNameBase_Impl` is empty. -/
def ConstructTempDir_base {σ : Type} (osl : Osl σ) (aName : OUString) (w : World σ) :
    OUString × World σ :=
  if aName = [] then
    let w2 : World σ :=
      if w.gTempNameBase_Impl = [] then
        let t := osl.getTempDirURL w.sys
        let w3 : World σ :=
          if t.1.1 = RC.E_None then { w with gTempNameBase_Impl := t.1.2, sys := t.2 }
          else { w with sys := t.2 }
        let e := ensuredir osl aName w3.sys
        { w3 with sys := e.2 }
      else w
    -- if no parent or invalid parent : use default directory
    (w2.gTempNameBase_Impl, w2)
  else (aName, w)

/-- The last block of `ConstructTempDir_Impl`: make sure that directory ends
with a separator. -/
def ConstructTempDir_separator (aName : OUString) : OUString :=
  if aName ≠ [] && !endsWithChar aName '/' then aName ++ "/".toList else aName

/-- The function `ConstructTempDir_Impl`: its three blocks in sequence. -/
def ConstructTempDir_Impl {σ : Type} (osl : Osl σ) (pParent : Option OUString)
    (bCreateParentDirs : Bool) (w : World σ) : OUString × World σ :=
  let r1 := ConstructTempDir_parent osl pParent bCreateParentDirs w
  let r2 := ConstructTempDir_base osl r1.1 r1.2
  (ConstructTempDir_separator r2.1, r2.2)

/-! ## Name generation -/

/-- What a call of `lcl_createName` leaves behind: the returned name (empty on
failure), the tokens the stream yielded during the call in the order drawn,
the caller's token object afterwards, and the world afterwards. -/
structure Created (σ : Type) where
  name : OUString
  drawn : List OUString
  tokens : Tokens
  world : World σ

/-- The extension a candidate gets: the caller's if it is not empty, `.tmp`
otherwise. -/
def extensionOrTmp (pExtension : OUString) : OUString :=
  if pExtension ≠ [] then pExtension else ".tmp".toList

/-- An upper bound on the number of tokens a stream can yield: both streams
count in a `sal_uInt32` and stop at a fixed value of it. -/
def tokenFuel : Nat := 8589934592

/-- How one pass through the `while (tokens.next(&token))` loop ends: the
function returns (a `return` statement is reached, or `next` reports failure
and the `return OUString()` after the loop is), or the body is left for the
next pass. -/
inductive LoopStep (σ : Type) where
  | ret (r : Created σ)
  | again (tokens : Tokens) (token : OUString) (drawn : List OUString) (w : World σ)

/-- One pass through the loop of `lcl_createName`: the call `tokens.next(&token)`
and, if it succeeds, the body.  Arguments after the flags: the token object,
the local `token`, the tokens drawn so far, the world. -/
def lcl_createName_body {σ : Type} (osl : Osl σ) (aName pExtension : OUString)
    (bDirectory bKeep bLock : Bool) (tokens : Tokens) (token : OUString)
    (drawn : List OUString) (w : World σ) : LoopStep σ :=
  let n := tokens.next osl token w
  if n.1 = false then
    .ret { name := [], drawn := drawn, tokens := n.2.1, world := n.2.2.2 }
  else
    let tokens1 := n.2.1
    let token1 := n.2.2.1
    let w1 := n.2.2.2
    let drawn1 := drawn ++ [token1]
    let aTmp : OUString := aName ++ token1 ++ extensionOrTmp pExtension
    if bDirectory then
      let c := osl.Directory_create aTmp
        [OpenFlag.Read, OpenFlag.Write, OpenFlag.Private] w1.sys
      if c.1 = RC.E_None then
        -- !bKeep: only for creating a name, not a file or directory
        if bKeep then
          .ret { name := aTmp, drawn := drawn1, tokens := tokens1,
                 world := { w1 with sys := c.2 } }
        else
          let d := osl.Directory_remove aTmp c.2
          if d.1 = RC.E_None then
            .ret { name := aTmp, drawn := drawn1, tokens := tokens1,
                   world := { w1 with sys := d.2 } }
          else
            .ret { name := [], drawn := drawn1, tokens := tokens1,
                   world := { w1 with sys := d.2 } }
      else if c.1 ≠ RC.E_EXIST then
        -- if f.e. name contains invalid chars stop trying to create dirs
        .ret { name := [], drawn := drawn1, tokens := tokens1,
               world := { w1 with sys := c.2 } }
      else
        .again tokens1 token1 drawn1 { w1 with sys := c.2 }
    else
      let o := osl.File_open aTmp
        ([OpenFlag.Create, OpenFlag.Private] ++ (if bLock then [] else [OpenFlag.NoLock]))
        w1.sys
      if o.1 = RC.E_None || (bLock && o.1 = RC.E_NOLCK) then
        .ret { name := aTmp, drawn := drawn1, tokens := tokens1,
               world := { w1 with sys := osl.File_close aTmp o.2 } }
      else if o.1 ≠ RC.E_EXIST then
        -- if f.e. name contains invalid chars stop trying to create dirs
        -- but if there is a folder with such name proceed further
        let g := osl.DirectoryItem_get aTmp o.2
        if g.1 ≠ RC.E_None then
          .ret { name := [], drawn := drawn1, tokens := tokens1,
                 world := { w1 with sys := g.2 } }
        else
          let st := osl.DirectoryItem_getFileStatus aTmp g.2
          if st.1.1 ≠ RC.E_None || st.1.2 ≠ FileType.Directory then
            .ret { name := [], drawn := drawn1, tokens := tokens1,
                   world := { w1 with sys := st.2 } }
          else
            .again tokens1 token1 drawn1 { w1 with sys := st.2 }
      else
        .again tokens1 token1 drawn1 { w1 with sys := o.2 }

/-- The `while (tokens.next(&token))` loop of `lcl_createName`, with a bound
on the number of passes as first argument after the flags. -/
def lcl_createName_loop {σ : Type} (osl : Osl σ) (aName pExtension : OUString)
    (bDirectory bKeep bLock : Bool) :
    Nat → Tokens → OUString → List OUString → World σ → Created σ
  | 0, tokens, _, drawn, w => { name := [], drawn := drawn, tokens := tokens, world := w }
  | fuel + 1, tokens, token, drawn, w =>
    match lcl_createName_body osl aName pExtension bDirectory bKeep bLock
        tokens token drawn w with
    | .ret r => r
    | .again tokens1 token1 drawn1 w1 =>
      lcl_createName_loop osl aName pExtension bDirectory bKeep bLock
        fuel tokens1 token1 drawn1 w1

/-- The function `lcl_createName`. -/
def lcl_createName {σ : Type} (osl : Osl σ) (rLeadingChars : OUString) (tokens : Tokens)
    (pExtension : OUString) (pParent : Option OUString)
    (bDirectory bKeep bLock bCreateParentDirs : Bool) (w : World σ) : Created σ :=
  let d := ConstructTempDir_Impl osl pParent bCreateParentDirs w
  let aName := d.1
  if bCreateParentDirs then
    let aDirName : OUString :=
      match rfind '/' rLeadingChars with
      | some nOffset => aName ++ rLeadingChars.take nOffset
      | none => aName
    let err := osl.Directory_createPath aDirName d.2.sys
    if err.1 ≠ RC.E_None && err.1 ≠ RC.E_EXIST then
      { name := [], drawn := [], tokens := tokens, world := { d.2 with sys := err.2 } }
    else
      lcl_createName_loop osl (aName ++ rLeadingChars) pExtension bDirectory bKeep bLock
        tokenFuel tokens [] [] { d.2 with sys := err.2 }
  else
    lcl_createName_loop osl (aName ++ rLeadingChars) pExtension bDirectory bKeep bLock
      tokenFuel tokens [] [] d.2

/-- The function `CreateTempName_Impl`, in the variant that appends the
process id to the eye catcher. -/
def CreateTempName_Impl {σ : Type} (osl : Osl σ) (pParent : Option OUString) (bKeep : Bool)
    (bDir : Bool) (w : World σ) : Created σ :=
  let aEyeCatcher : OUString := "lu".toList ++ OUString.number osl.getpid 10
  lcl_createName osl aEyeCatcher (Tokens.unique UniqueTokens.new) [] pParent bDir bKeep
    false false w

/-- The overload `CreateTempURL(pParent, bDirectory)`, which draws unique
tokens. -/
def CreateTempURL_unique {σ : Type} (osl : Osl σ) (pParent : Option OUString)
    (bDirectory : Bool) (w : World σ) : Created σ :=
  CreateTempName_Impl osl pParent true bDirectory w

/-- The function `CreateTempURL(rLeadingChars, _bStartWithZero, pExtension,
pParent, bCreateParentDirs)`. -/
def CreateTempURL {σ : Type} (osl : Osl σ) (rLeadingChars : OUString)
    (_bStartWithZero : Bool) (pExtension : OUString) (pParent : Option OUString)
    (bCreateParentDirs : Bool) (w : World σ) : Created σ :=
  lcl_createName osl rLeadingChars (Tokens.sequential (SequentialTokens.new _bStartWithZero))
    pExtension pParent false true true bCreateParentDirs w

/-- The stream a handle owns: an `SvFileStream` over a name, or an
`SvMemoryStream`. -/
inductive SvStream where
  | file (aName : OUString)
  | memory
  deriving DecidableEq, Repr

/-- The class `TempFileNamed`. -/
structure TempFileNamed where
  aName : OUString
  pStream : Option SvStream
  bIsDirectory : Bool
  bKillingFileEnabled : Bool
  deriving DecidableEq, Repr

/-- The constructor `TempFileNamed(pParent, bDirectory)`: the new handle and
the world afterwards. -/
def TempFileNamed.new {σ : Type} (osl : Osl σ) (pParent : Option OUString)
    (bDirectory : Bool) (w : World σ) : TempFileNamed × World σ :=
  let c := CreateTempName_Impl osl pParent true bDirectory w
  ({ aName := c.name, pStream := none, bIsDirectory := bDirectory,
     bKillingFileEnabled := false }, c.world)

/-- The constructor `TempFileNamed(rLeadingChars, _bStartWithZero, pExtension,
pParent, bCreateParentDirs)`: the new handle and the world afterwards. -/
def TempFileNamed.newNamed {σ : Type} (osl : Osl σ) (rLeadingChars : OUString)
    (_bStartWithZero : Bool) (pExtension : OUString) (pParent : Option OUString)
    (bCreateParentDirs : Bool) (w : World σ) : TempFileNamed × World σ :=
  let c := lcl_createName osl rLeadingChars
    (Tokens.sequential (SequentialTokens.new _bStartWithZero))
    pExtension pParent false true true bCreateParentDirs w
  ({ aName := c.name, pStream := none, bIsDirectory := false,
     bKillingFileEnabled := false }, c.world)

/-! ## A model of the filesystem -/

/-- The calls of the operating-system layer that can fail. -/
inductive OsCall where
  | Directory_open | Directory_create | Directory_createPath | Directory_remove
  | File_open | File_remove | DirectoryItem_get | getFileStatus | deleteDirRecursively
  deriving DecidableEq, Repr

/-- An error code with which the environment refuses a call. -/
structure Fault where
  rc : RC
  isError : rc ≠ RC.E_None

/-- Modelled from the spec: the filesystem abstraction the component consumes
(atomic "create directory/file exclusively, fail if exists", attribute query
for file versus directory, removal, the platform temp directory and a tick
source), none of which is among the sources.  A state records which names
exist and with which type; `fault` lists the calls the environment refuses
for another reason (permissions, invalid characters, a lock held elsewhere)
and the code it gives; `ticks n` is the answer to the `n`-th reading of the
tick source. -/
structure ModelFS where
  entries : OUString → Option FileType
  fault : OsCall → OUString → Option Fault
  tempDirURL : RC × OUString
  ticks : Nat → Nat
  tickReads : Nat

namespace ModelFS

/-- The state with `path` recorded as an entry of type `t`. -/
def insert (fs : ModelFS) (path : OUString) (t : FileType) : ModelFS :=
  { fs with entries := fun q => if q = path then some t else fs.entries q }

/-- The state without an entry for `path`. -/
def erase (fs : ModelFS) (path : OUString) : ModelFS :=
  { fs with entries := fun q => if q = path then none else fs.entries q }

/-- Exclusive creation of an entry of type `t` under the call `call`: it fails
if the name exists.  A refusal of the call leaves no entry, with one
exception: lock contention on the opening of a file (`E_NOLCK`) is met after
the exclusive creation, so the file is created if the name was free and the
answer is "already exists" if it was not. -/
def createExclusive (call : OsCall) (t : FileType) (path : OUString) (fs : ModelFS) :
    RC × ModelFS :=
  match fs.fault call path with
  | some e =>
    if call = OsCall.File_open ∧ e.rc = RC.E_NOLCK then
      match fs.entries path with
      | some _ => (RC.E_EXIST, fs)
      | none => (RC.E_NOLCK, fs.insert path t)
    else (e.rc, fs)
  | none =>
    match fs.entries path with
    | some _ => (RC.E_EXIST, fs)
    | none => (RC.E_None, fs.insert path t)

/-- Opening a directory for reading. -/
def openDirectory (path : OUString) (fs : ModelFS) : RC × ModelFS :=
  match fs.fault OsCall.Directory_open path with
  | some e => (e.rc, fs)
  | none =>
    match fs.entries path with
    | some FileType.Directory => (RC.E_None, fs)
    | some _ => (RC.E_NOTDIR, fs)
    | none => (RC.E_NOENT, fs)

/-- Removal of a directory. -/
def removeDirectory (path : OUString) (fs : ModelFS) : RC × ModelFS :=
  match fs.fault OsCall.Directory_remove path with
  | some e => (e.rc, fs)
  | none =>
    match fs.entries path with
    | some FileType.Directory => (RC.E_None, fs.erase path)
    | some _ => (RC.E_NOTDIR, fs)
    | none => (RC.E_NOENT, fs)

/-- Opening a file: exclusive creation with the create flag, otherwise the
file has to exist. -/
def openFile (path : OUString) (flags : List OpenFlag) (fs : ModelFS) : RC × ModelFS :=
  if OpenFlag.Create ∈ flags then createExclusive OsCall.File_open FileType.Regular path fs
  else
    match fs.fault OsCall.File_open path with
    | some e => (e.rc, fs)
    | none =>
      match fs.entries path with
      | some FileType.Directory => (RC.E_ISDIR, fs)
      | some _ => (RC.E_None, fs)
      | none => (RC.E_NOENT, fs)

/-- Removal of a file. -/
def removeFile (path : OUString) (fs : ModelFS) : RC × ModelFS :=
  match fs.fault OsCall.File_remove path with
  | some e => (e.rc, fs)
  | none =>
    match fs.entries path with
    | some FileType.Directory => (RC.E_ISDIR, fs)
    | some _ => (RC.E_None, fs.erase path)
    | none => (RC.E_NOENT, fs)

/-- Looking a name up. -/
def getItem (path : OUString) (fs : ModelFS) : RC × ModelFS :=
  match fs.fault OsCall.DirectoryItem_get path with
  | some e => (e.rc, fs)
  | none =>
    match fs.entries path with
    | some _ => (RC.E_None, fs)
    | none => (RC.E_NOENT, fs)

/-- The type of an entry. -/
def getStatus (path : OUString) (fs : ModelFS) : (RC × FileType) × ModelFS :=
  match fs.fault OsCall.getFileStatus path with
  | some e => ((e.rc, FileType.Unknown), fs)
  | none =>
    match fs.entries path with
    | some t => ((RC.E_None, t), fs)
    | none => ((RC.E_NOENT, FileType.Unknown), fs)

/-- Recursive removal of a directory: the directory and every entry whose
name continues `path ++ "/"`. -/
def removeRecursively (path : OUString) (fs : ModelFS) : Bool × ModelFS :=
  match fs.fault OsCall.deleteDirRecursively path with
  | some _ => (false, fs)
  | none =>
    match fs.entries path with
    | some FileType.Directory =>
      (true, { fs with entries := fun q =>
        if q = path ∨ (path ++ "/".toList).isPrefixOf q then none else fs.entries q })
    | _ => (false, fs)

/-- Reading the tick source. -/
def readTicks (fs : ModelFS) : Nat × ModelFS :=
  (fs.ticks fs.tickReads, { fs with tickReads := fs.tickReads + 1 })

end ModelFS

/-- The operating-system layer over the modelled filesystem.  The two path
conversions and the process id are those of the platform, given as
arguments. -/
def modelOsl (toSystemPath toFileURL : OUString → RC × OUString) (pid : Nat) : Osl ModelFS where
  Directory_open := ModelFS.openDirectory
  Directory_close := fun _ fs => fs
  Directory_create := fun path _ fs =>
    ModelFS.createExclusive OsCall.Directory_create FileType.Directory path fs
  Directory_createPath := fun path fs =>
    ModelFS.createExclusive OsCall.Directory_createPath FileType.Directory path fs
  Directory_remove := ModelFS.removeDirectory
  File_open := ModelFS.openFile
  File_close := fun _ fs => fs
  File_remove := ModelFS.removeFile
  DirectoryItem_get := ModelFS.getItem
  DirectoryItem_getFileStatus := ModelFS.getStatus
  deleteDirRecursively := ModelFS.removeRecursively
  getSystemPathFromFileURL := toSystemPath
  getFileURLFromSystemPath := toFileURL
  getTempDirURL := fun fs => (fs.tempDirURL, fs)
  GetSystemTicks := ModelFS.readTicks
  getpid := pid

/-- A platform on which a file URL and its system path are the same text. -/
def plainOsl : Osl ModelFS := modelOsl (fun p => (RC.E_None, p)) (fun p => (RC.E_None, p)) 4242

/-- An empty filesystem with temp directory `file:///tmp` and a tick source
that starts at 1000. -/
def emptyFS : ModelFS :=
  { entries := fun _ => none, fault := fun _ _ => none,
    tempDirURL := (RC.E_None, "file:///tmp".toList), ticks := fun n => 1000 + n,
    tickReads := 0 }

/-! ## Runs of the token streams -/

/-- The token object after `n` calls of `SequentialTokens::next`. -/
def SequentialTokens.after (t : SequentialTokens) : Nat → SequentialTokens
  | 0 => t
  | n + 1 => ((t.after n).next []).2.1

/-- The `k`-th token (counting from 0) of the stream `SequentialTokens(showZero)`:
empty for the first one unless zero is shown, the decimal text of `k`
otherwise. -/
def seqTokenOf (showZero : Bool) (k : Nat) : OUString :=
  if k = 0 ∧ showZero = false then [] else OUString.number k 10

/-- The object `SequentialTokens(showZero)` after `k` successful calls. -/
def seqState (showZero : Bool) (k : Nat) : SequentialTokens :=
  { m_value := k, m_show := showZero || decide (0 < k) }

/-- The `k`-th candidate of a sequential allocation: directory, leading
characters, `k`-th token, extension. -/
def candidate (aDir rLeadingChars pExtension : OUString) (showZero : Bool) (k : Nat) :
    OUString :=
  aDir ++ rLeadingChars ++ seqTokenOf showZero k ++ extensionOrTmp pExtension

/-- The token object after a series of calls of `UniqueTokens::next`, each
made with some content of `*token` and in some world. -/
def UniqueTokens.afterCalls {σ : Type} (osl : Osl σ) (t : UniqueTokens) :
    List (OUString × World σ) → UniqueTokens
  | [] => t
  | c :: rest => UniqueTokens.afterCalls osl (t.next osl c.1 c.2).2.1 rest

/-- A run of consecutive calls of `UniqueTokens::next` on the shared counter:
the `i`-th call is made through an instance in state `insts[i]`.  The result
lists the flag and token of each call and gives the world after the run. -/
def uniqueRun {σ : Type} (osl : Osl σ) :
    List UniqueTokens → World σ → List (Bool × OUString) × World σ
  | [], w => ([], w)
  | t :: rest, w =>
    let r := t.next osl [] w
    let q := uniqueRun osl rest r.2.2.2
    ((r.1, r.2.2.1) :: q.1, q.2)

/-! ## Scenarios -/

/-- The candidate the next pass of the loop forms: the name so far, the token
`next` yields now, and the extension. -/
def nextCandidate {σ : Type} (osl : Osl σ) (aName pExtension : OUString) (tokens : Tokens)
    (token : OUString) (w : World σ) : OUString :=
  aName ++ (tokens.next osl token w).2.2.1 ++ extensionOrTmp pExtension

/-- The answer of the directory creation the next pass of the loop makes in
directory mode. -/
def nextDirectoryCreate {σ : Type} (osl : Osl σ) (aName pExtension : OUString)
    (tokens : Tokens) (token : OUString) (w : World σ) : RC × σ :=
  osl.Directory_create (nextCandidate osl aName pExtension tokens token w)
    [OpenFlag.Read, OpenFlag.Write, OpenFlag.Private] (tokens.next osl token w).2.2.2.sys

/-- An empty filesystem in which every removal of a directory is refused. -/
def removeDeniedFS : ModelFS :=
  { emptyFS with
    fault := fun c _ =>
      if c = OsCall.Directory_remove then some ⟨RC.E_ACCES, by decide⟩ else none }

/-- A filesystem in which every name is taken by a regular file. -/
def fullFS : ModelFS := { emptyFS with entries := fun _ => some FileType.Regular }

/-- A filesystem holding `file:///tmp/myprefix_.tmp` and
`file:///tmp/myprefix_1.tmp`. -/
def populatedFS : ModelFS :=
  { emptyFS with
    entries := fun p =>
      if p = "file:///tmp/myprefix_.tmp".toList ∨ p = "file:///tmp/myprefix_1.tmp".toList
      then some FileType.Regular else none }

/-- An empty filesystem on which the lock on `file:///tmp/myprefix_.tmp` cannot
be obtained: opening that file fails with `E_NOLCK`. -/
def lockedFS : ModelFS :=
  { emptyFS with
    fault := fun c p =>
      if c = OsCall.File_open ∧ p = "file:///tmp/myprefix_.tmp".toList
      then some ⟨RC.E_NOLCK, by decide⟩ else none }

/-- A token object whose counter is a `sal_uInt32`. -/
def Tokens.valid : Tokens → Prop
  | .sequential t => t.m_value < 4294967296
  | .unique t => t.m_count < 4294967296

/-- The number of tokens a stream still yields before `next` reports failure:
a sequential stream counts up to `SAL_MAX_UINT32`; a unique stream counts up
to 36^6, wrapping at 2^32 first if it is beyond. -/
def Tokens.remaining : Tokens → Nat
  | .sequential t => SAL_MAX_UINT32 - t.m_value
  | .unique t =>
    if t.m_count ≤ UniqueTokens.max 36 then UniqueTokens.max 36 - t.m_count
    else 4294967296 - t.m_count + UniqueTokens.max 36

/-- The answer of the file opening the next pass of the loop makes in file
mode. -/
def nextFileOpen {σ : Type} (osl : Osl σ) (aName pExtension : OUString) (bLock : Bool)
    (tokens : Tokens) (token : OUString) (w : World σ) : RC × σ :=
  osl.File_open (nextCandidate osl aName pExtension tokens token w)
    ([OpenFlag.Create, OpenFlag.Private] ++ (if bLock then [] else [OpenFlag.NoLock]))
    (tokens.next osl token w).2.2.2.sys

/-- The answer of `DirectoryItem::get` for the candidate of the next pass,
asked after its file opening. -/
def nextItemGet {σ : Type} (osl : Osl σ) (aName pExtension : OUString) (bLock : Bool)
    (tokens : Tokens) (token : OUString) (w : World σ) : RC × σ :=
  osl.DirectoryItem_get (nextCandidate osl aName pExtension tokens token w)
    (nextFileOpen osl aName pExtension bLock tokens token w).2

/-- The answer of `getFileStatus` and `getFileType` for the candidate of the
next pass, asked after `DirectoryItem::get`. -/
def nextFileStatus {σ : Type} (osl : Osl σ) (aName pExtension : OUString) (bLock : Bool)
    (tokens : Tokens) (token : OUString) (w : World σ) : (RC × FileType) × σ :=
  osl.DirectoryItem_getFileStatus (nextCandidate osl aName pExtension tokens token w)
    (nextItemGet osl aName pExtension bLock tokens token w).2

/-- The function `CreateTempName`: the returned system path and the world
afterwards.  The second component of `getSystemPathFromFileURL` is the content
of its output string after the call. -/
def CreateTempName {σ : Type} (osl : Osl σ) (w : World σ) : OUString × World σ :=
  let c := CreateTempName_Impl osl none false true w
  -- convert to file URL
  let aTmp : OUString :=
    if c.name ≠ [] then (osl.getSystemPathFromFileURL c.name).2 else []
  (aTmp, c.world)

/-- The function `GetTempNameBaseDirectory`: the returned directory and the
world afterwards. -/
def GetTempNameBaseDirectory {σ : Type} (osl : Osl σ) (w : World σ) : OUString × World σ :=
  ConstructTempDir_Impl osl none false w

/-- The class `TempFileFast`: the stream it owns, if any. -/
structure TempFileFast where
  mxStream : Option SvStream
  deriving DecidableEq, Repr

/-- The constructor `TempFileFast()`. -/
def TempFileFast.new : TempFileFast := { mxStream := none }

/-- The method `TempFileFast::GetStream`: the handle afterwards (its
`mxStream` is what the method returns) and the world afterwards. -/
def TempFileFast.GetStream {σ : Type} (osl : Osl σ) (self : TempFileFast) (w : World σ) :
    TempFileFast × World σ :=
  match self.mxStream with
  | none =>
    let c := CreateTempName_Impl osl none true false w
    ({ mxStream := some (SvStream.file c.name) }, c.world)
  | some _ => (self, w)

/-- The method `TempFileFast::CloseStream`. -/
def TempFileFast.CloseStream (_self : TempFileFast) : TempFileFast := { mxStream := none }

/-- An empty filesystem in which every opening of a file fails with
`E_NOLCK`. -/
def noLockFS : ModelFS :=
  { emptyFS with
    fault := fun c _ =>
      if c = OsCall.File_open then some ⟨RC.E_NOLCK, by decide⟩ else none }

/-- A filesystem in which `file:///tmp/myprefix_.tmp` is a directory, so that
opening it as a file fails with `E_ISDIR`. -/
def directoryInTheWayFS : ModelFS :=
  { emptyFS with
    entries := fun p =>
      if p = "file:///tmp/myprefix_.tmp".toList then some FileType.Directory else none
    fault := fun c p =>
      if c = OsCall.File_open ∧ p = "file:///tmp/myprefix_.tmp".toList
      then some ⟨RC.E_ISDIR, by decide⟩ else none }

/-- An empty filesystem on a platform whose temp directory cannot be
resolved. -/
def noTempDirFS : ModelFS := { emptyFS with tempDirURL := (RC.E_NOENT, []) }

/-- The round-trip-normalised URL of the caller's parent: the system path of
the parent converted back to a file URL (empty for a null pointer). -/
def parentURL {σ : Type} (osl : Osl σ) (pParent : Option OUString) : OUString :=
  match pParent with
  | none => []
  | some parent =>
    (osl.getFileURLFromSystemPath (osl.getSystemPathFromFileURL parent).2).2

/-- The name under which the parent directory is looked up: its normalised URL
without a trailing `/`. -/
def parentLookupName {σ : Type} (osl : Osl σ) (pParent : Option OUString) : OUString :=
  (parentURL osl pParent).take
    (if endsWithChar (parentURL osl pParent) '/' then (parentURL osl pParent).length - 1
     else (parentURL osl pParent).length)

/-- The conditions under which the caller's parent is used: it is given and
not empty, both conversions succeed, and the directory exists or parent
directories are to be created. -/
def parentAccepted {σ : Type} (osl : Osl σ) (pParent : Option OUString)
    (bCreateParentDirs : Bool) (w : World σ) : Prop :=
  match pParent with
  | none => False
  | some parent =>
    parent ≠ [] ∧
    (osl.getSystemPathFromFileURL parent).1 = RC.E_None ∧
    (osl.getFileURLFromSystemPath (osl.getSystemPathFromFileURL parent).2).1 = RC.E_None ∧
    ((osl.DirectoryItem_get (parentLookupName osl pParent) w.sys).1 = RC.E_None ∨
      bCreateParentDirs = true)

/-- The same operating-system layer with another answer for the platform temp
directory. -/
def Osl.withTempDirURL {σ : Type} (osl : Osl σ) (g : σ → (RC × OUString) × σ) : Osl σ :=
  { osl with getTempDirURL := g }

instance parentAccepted.instDecidable {σ : Type} (osl : Osl σ) (pParent : Option OUString)
    (bCreateParentDirs : Bool) (w : World σ) :
    Decidable (parentAccepted osl pParent bCreateParentDirs w) :=
  match pParent with
  | none => isFalse (fun h => h)
  | some parent =>
    inferInstanceAs (Decidable
      (parent ≠ [] ∧
        (osl.getSystemPathFromFileURL parent).1 = RC.E_None ∧
        (osl.getFileURLFromSystemPath (osl.getSystemPathFromFileURL parent).2).1 = RC.E_None ∧
        ((osl.DirectoryItem_get (parentLookupName osl (some parent)) w.sys).1 = RC.E_None ∨
          bCreateParentDirs = true)))

/-- What an allocation may do to the modelled filesystem `fs` when it returns
`name` and leaves `fs1`: it never changes the refusals nor the platform temp
directory, and either
* the entries are unchanged, and the result is empty or a directory created
  and removed again (no keep); or
* the name was free and is now an entry of the mode's type (file mode, or
  directory mode with keep); in file mode the opening of the name was not
  refused, or met lock contention in an allocation that locks; or
* the result is empty and a directory created for a free name stays behind
  because its removal was refused (directory mode without keep); or
* the result is empty and a file created for a free name stays behind because
  its lock could not be obtained (file mode without locking). -/
def ModelFS.allocationEffect (bDirectory bKeep bLock : Bool) (fs : ModelFS) (name : OUString)
    (fs1 : ModelFS) : Prop :=
  fs1.fault = fs.fault ∧
  ((fs1.entries = fs.entries ∧
      (name = [] ∨ (bDirectory = true ∧ bKeep = false ∧ fs.entries name = none))) ∨
    (name ≠ [] ∧ fs.entries name = none ∧ (bDirectory = false ∨ bKeep = true) ∧
      fs1.entries = (fs.insert name
        (if bDirectory then FileType.Directory else FileType.Regular)).entries ∧
      (bDirectory = false →
        fs.fault OsCall.File_open name = none ∨
        (bLock = true ∧
          (fs.fault OsCall.File_open name).map Fault.rc = some RC.E_NOLCK))) ∨
    (name = [] ∧ bDirectory = true ∧ bKeep = false ∧
      ∃ p, fs.entries p = none ∧ fs.fault OsCall.Directory_remove p ≠ none ∧
        fs1.entries = (fs.insert p FileType.Directory).entries) ∨
    (name = [] ∧ bDirectory = false ∧ bLock = false ∧
      ∃ p, fs.entries p = none ∧
        (fs.fault OsCall.File_open p).map Fault.rc = some RC.E_NOLCK ∧
        fs1.entries = (fs.insert p FileType.Regular).entries)) ∧
  fs1.tempDirURL = fs.tempDirURL

/-! ## Handles: validity, move and destruction -/

/-- The method `TempFileNamed::IsValid`. -/
def TempFileNamed.IsValid (self : TempFileNamed) : Bool := !(self.aName == [])

/-- The move constructor `TempFileNamed(TempFileNamed && other)`: the new
handle and `other` afterwards.  Moving `aName` leaves an empty string in
`other` and moving `pStream` leaves it without a stream. -/
def TempFileNamed.move (other : TempFileNamed) : TempFileNamed × TempFileNamed :=
  ({ aName := other.aName, pStream := other.pStream, bIsDirectory := other.bIsDirectory,
     bKillingFileEnabled := other.bKillingFileEnabled },
   { aName := [], pStream := none, bIsDirectory := other.bIsDirectory,
     bKillingFileEnabled := false })

/-- What the body of the destructor `~TempFileNamed` does, in the order done:
releasing the stream the handle holds, and the two removals. -/
inductive DestructorCall where
  | streamReset (stream : SvStream)
  | deleteDirRecursively (aName : OUString)
  | File_remove (aName : OUString)
  deriving DecidableEq, Repr

/-- The destructor `~TempFileNamed`: the calls its body makes, in order, and
the environment afterwards.  The call `pStream.reset()` is recorded when the
handle holds a stream; the answers of the removals are discarded, as in the
source. -/
def TempFileNamed.destroy {σ : Type} (osl : Osl σ) (self : TempFileNamed) (s : σ) :
    List DestructorCall × σ :=
  if !self.bKillingFileEnabled then ([], s)
  else
    let reset : List DestructorCall :=
      match self.pStream with
      | some stream => [DestructorCall.streamReset stream]
      | none => []
    if self.bIsDirectory then
      (reset ++ [DestructorCall.deleteDirRecursively self.aName],
        (osl.deleteDirRecursively self.aName s).2)
    else
      (reset ++ [DestructorCall.File_remove self.aName], (osl.File_remove self.aName s).2)

/-! ## The override of the base directory -/

/-- The path without one trailing slash, as `ensuredir` and
`SetTempNameBaseDirectory` compute it: `copy(0, getLength() - 1)` when the path
ends with `/`, which drops the last code unit, the slash (one character). -/
def removeTrailingSlash (rUnqPath : OUString) : OUString :=
  if endsWithChar rUnqPath '/' then rUnqPath.take (rUnqPath.length - 1) else rUnqPath

/-- The block "try to create the directory" of `SetTempNameBaseDirectory`: the
local `bRet` after it and the environment. -/
def SetTempNameBaseDirectory_create {σ : Type} (osl : Osl σ) (rBaseName : OUString) (s : σ) :
    Bool × σ :=
  -- remove trailing slash
  let aUnqPath : OUString :=
    if endsWithChar rBaseName '/' then rBaseName.take (rBaseName.length - 1)
    else rBaseName
  -- try to create the directory
  let err := osl.Directory_create aUnqPath defaultCreateFlags s
  if err.1 ≠ RC.E_None && err.1 ≠ RC.E_EXIST then
    -- perhaps parent(s) don't exist
    ensuredir osl aUnqPath err.2
  else (true, err.2)

/-- The block "append own internal directory" of `SetTempNameBaseDirectory`,
entered when `bRet` is true: the world when the block is left.  The local
`aBase` is built by the constructor `TempFileNamed(pParent, bDirectory)` with a
null parent and is destroyed at the end of the block. -/
def SetTempNameBaseDirectory_internal {σ : Type} (osl : Osl σ) (rBaseName : OUString)
    (w : World σ) : World σ :=
  let w1 : World σ := { w with gTempNameBase_Impl := rBaseName ++ "/".toList }
  let aBase := TempFileNamed.new osl none true w1
  let w2 : World σ :=
    if aBase.1.IsValid then
      -- use it in case of success
      { aBase.2 with gTempNameBase_Impl := aBase.1.aName }
    else aBase.2
  { w2 with sys := (aBase.1.destroy osl w2.sys).2 }

/-- The function `SetTempNameBaseDirectory`: the returned system path and the
world afterwards. -/
def SetTempNameBaseDirectory {σ : Type} (osl : Osl σ) (rBaseName : OUString) (w : World σ) :
    OUString × World σ :=
  if rBaseName = [] then ([], w)
  else
    let bRet := SetTempNameBaseDirectory_create osl rBaseName w.sys
    -- failure to create base directory means returning an empty string
    if bRet.1 then
      let w2 := SetTempNameBaseDirectory_internal osl rBaseName { w with sys := bRet.2 }
      -- return system path of used directory
      ((osl.getSystemPathFromFileURL w2.gTempNameBase_Impl).2, w2)
    else ([], { w with sys := bRet.2 })

/-- The same operating-system layer with another `Directory::createPath`. -/
def Osl.withCreatePath {σ : Type} (osl : Osl σ) (g : OUString → σ → RC × σ) : Osl σ :=
  { osl with Directory_createPath := g }

/-- A filesystem in which the directory `file:///base` exists and the creation
of every other directory is refused. -/
def readOnlyBaseFS : ModelFS :=
  { emptyFS with
    entries := fun q => if q = "file:///base".toList then some FileType.Directory else none
    fault := fun c q =>
      if c = OsCall.Directory_create ∧ q ≠ "file:///base".toList then
        some ⟨RC.E_ACCES, by decide⟩
      else none }

/-- The local `aDirName` of `lcl_createName`: the directory that is created
when parent directories are asked for. -/
def lcl_createName_aDirName (aName rLeadingChars : OUString) : OUString :=
  match rfind '/' rLeadingChars with
  | some nOffset => aName ++ rLeadingChars.take nOffset
  | none => aName

/-- The filesystem `fs1` has the refusals of `fs` and at least its entries. -/
def ModelFS.grows (fs fs1 : ModelFS) : Prop :=
  fs1.fault = fs.fault ∧ ∀ q, fs1.entries q = none → fs.entries q = none

end utl

namespace oox.drawingml

/-! ## The guide list of a custom shape -/

/-- Modelled from the spec: the declaration of `CustomShapeGuide` is not among
the sources; its two members are those `customshapeproperties.cxx` reads, the
name of the guide and its formula. -/
structure CustomShapeGuide where
  maName : utl.OUString
  maFormula : utl.OUString
  deriving DecidableEq, Repr

/-- The conversion `static_cast< sal_Int32 >` of a size or index: the value
modulo 2^32, read in two's complement. -/
def toSalInt32 (n : Nat) : Int :=
  if n % 4294967296 < 2147483648 then ((n % 4294967296 : Nat) : Int)
  else ((n % 4294967296 : Nat) : Int) - 4294967296

/-- The `for` loop of `SetCustomShapeGuideValue`, entered with `nIndex`: the
value of `nIndex` when the loop is left.  The first argument bounds the
number of passes. -/
def CustomShapeProperties.SetCustomShapeGuideValue_loop
    (rGuideList : List CustomShapeGuide) (rGuide : CustomShapeGuide) : Nat → Nat → Nat
  | 0, nIndex => nIndex
  | fuel + 1, nIndex =>
    if h : nIndex < rGuideList.length then
      if rGuideList[nIndex].maName = rGuide.maName then nIndex
      else CustomShapeProperties.SetCustomShapeGuideValue_loop rGuideList rGuide fuel
        (nIndex + 1)
    else nIndex

/-- The function `CustomShapeProperties::SetCustomShapeGuideValue`: the
returned index and the guide list afterwards.  The loop makes at most
`rGuideList.size()` passes. -/
def CustomShapeProperties.SetCustomShapeGuideValue (rGuideList : List CustomShapeGuide)
    (rGuide : CustomShapeGuide) : Int × List CustomShapeGuide :=
  let nIndex :=
    CustomShapeProperties.SetCustomShapeGuideValue_loop rGuideList rGuide rGuideList.length 0
  let rGuideList1 :=
    if nIndex = rGuideList.length then rGuideList ++ [rGuide] else rGuideList
  (toSalInt32 nIndex, rGuideList1)

/-- The `for` loop of `GetCustomShapeGuideValue`, entered with a non-negative
`nIndex`, by recursion on `nIndex`: the value of `nIndex` when the loop is
left, or `none` if the loop reads the vector outside its bounds. -/
def CustomShapeProperties.GetCustomShapeGuideValue_loop
    (rGuideList : List CustomShapeGuide) (rFormulaName : utl.OUString) : Nat → Option Int
  | 0 =>
    match rGuideList[0]? with
    | none => none
    | some guide => if guide.maName = rFormulaName then some 0 else some (-1)
  | nIndex + 1 =>
    match rGuideList[nIndex + 1]? with
    | none => none
    | some guide =>
      if guide.maName = rFormulaName then some ((nIndex + 1 : Nat) : Int)
      else CustomShapeProperties.GetCustomShapeGuideValue_loop rGuideList rFormulaName nIndex

/-- The function `CustomShapeProperties::GetCustomShapeGuideValue`.  The result
is `none` where the source has no defined result: when the subtraction
`static_cast< sal_Int32 >( rGuideList.size() ) - 1` overflows, or the loop
reads outside the vector. -/
def CustomShapeProperties.GetCustomShapeGuideValue (rGuideList : List CustomShapeGuide)
    (rFormulaName : utl.OUString) : Option Int :=
  -- traverse the list from the end, because guide names can be reused
  -- and current is the last one
  if toSalInt32 rGuideList.length = -2147483648 then none
  else
    let nIndex : Int := toSalInt32 rGuideList.length - 1
    if nIndex ≥ 0 then
      CustomShapeProperties.GetCustomShapeGuideValue_loop rGuideList rFormulaName nIndex.toNat
    else some nIndex

/-- The guide list built from the empty list by `SetCustomShapeGuideValue`
alone, called for the guides of `guides` in turn. -/
def guidesSetInTurn (guides : List CustomShapeGuide) : List CustomShapeGuide :=
  guides.foldl (fun rGuideList rGuide =>
    (CustomShapeProperties.SetCustomShapeGuideValue rGuideList rGuide).2) []

/-- The guides named `0`, `1`, ... up to 2^32 - 1 in decimal, each with an empty
formula: 2^32 guides with pairwise distinct names. -/
def guidesNamedByNumber : List CustomShapeGuide :=
  (List.range 4294967296).map (fun i => CustomShapeGuide.mk (utl.OUString.number i 10) [])

end oox.drawingml

/-! # Theorems -/

namespace utl

/-! ## The text of a number -/

theorem digitValue_digitChar : ∀ d < 36, digitValue (digitChar d) = d := by decide

theorem digitChar_eq_natDigitChar : ∀ d < 10, digitChar d = Nat.digitChar d := by decide

theorem digitsValue_snoc (radix : Nat) (s : OUString) (c : Char) :
    digitsValue radix (s ++ [c]) = digitsValue radix s * radix + digitValue c := by
  simp [digitsValue, List.foldl_append]

/-- Reading back the digits of a number gives the number. -/
theorem digitsValue_numberDigits (radix : Nat) (h2 : 2 ≤ radix) (h36 : radix ≤ 36) :
    ∀ (fuel v : Nat), v < fuel → digitsValue radix (numberDigits radix fuel v) = v := by
  intro fuel
  induction fuel with
  | zero => intro v hv; omega
  | succ fuel ih =>
    intro v hv
    unfold numberDigits
    split
    · next hlt =>
      have : digitValue (digitChar v) = v := digitValue_digitChar v (by omega)
      simp [digitsValue, this]
    · next hge =>
      have hdiv : v / radix < fuel := by
        have : v / radix < v := Nat.div_lt_self (by omega) (by omega)
        omega
      have hmod : v % radix < 36 := by
        have := Nat.mod_lt v (show 0 < radix by omega)
        omega
      rw [digitsValue_snoc, ih _ hdiv, digitValue_digitChar _ hmod]
      exact Nat.div_add_mod' v radix

/-- The text of a number determines the number. -/
theorem number_injective (radix : Nat) (h2 : 2 ≤ radix) (h36 : radix ≤ 36) (a b : Nat)
    (h : OUString.number a radix = OUString.number b radix) : a = b := by
  have ha := digitsValue_numberDigits radix h2 h36 (a + 1) a (by omega)
  have hb := digitsValue_numberDigits radix h2 h36 (b + 1) b (by omega)
  unfold OUString.number at h
  rw [h] at ha
  omega

theorem number_ne_nil (v radix : Nat) : OUString.number v radix ≠ [] := by
  unfold OUString.number numberDigits
  split <;> simp

/-- A number below `radix ^ k` has at most `k` digits. -/
theorem numberDigits_length_le (radix : Nat) :
    ∀ (fuel v k : Nat), 1 ≤ k → v < radix ^ k → (numberDigits radix fuel v).length ≤ k := by
  intro fuel
  induction fuel with
  | zero => intro v k hk _; simp [numberDigits]
  | succ fuel ih =>
    intro v k hk hv
    unfold numberDigits
    split
    · simpa using hk
    · next hge =>
      have hk2 : 2 ≤ k := by
        by_contra hcon
        have : k = 1 := by omega
        subst this
        simp at hv
        omega
      have hdiv : v / radix < radix ^ (k - 1) := by
        apply Nat.div_lt_of_lt_mul
        have : radix ^ k = radix * radix ^ (k - 1) := by
          rw [← Nat.pow_succ']
          congr 1
          omega
        omega
      have := ih (v / radix) (k - 1) (by omega) hdiv
      simp
      omega

/-- The decimal text is the one `Nat.repr` gives. -/
theorem numberDigits_ten_eq (fuel v : Nat) (ds : List Char) :
    numberDigits 10 fuel v ++ ds = Nat.toDigitsCore 10 fuel v ds := by
  induction fuel generalizing v ds with
  | zero => simp [numberDigits, Nat.toDigitsCore]
  | succ fuel ih =>
    unfold numberDigits Nat.toDigitsCore
    by_cases hlt : v < 10
    · have h0 : v / 10 = 0 := by omega
      have hm : v % 10 = v := by omega
      simp [hlt, h0, hm, digitChar_eq_natDigitChar v hlt]
    · have h0 : v / 10 ≠ 0 := by omega
      have hm : v % 10 < 10 := by omega
      simp only [hlt, h0, if_false]
      rw [← ih, digitChar_eq_natDigitChar _ hm]
      simp

theorem number_ten_eq_repr (v : Nat) : OUString.number v 10 = (Nat.repr v).toList := by
  have := numberDigits_ten_eq (v + 1) v []
  simp only [List.append_nil] at this
  simp [OUString.number, this, Nat.repr, Nat.toDigits, List.asString]

/-! ## The sequential stream -/

theorem SequentialTokens.next_below_ceiling (t : SequentialTokens) (token : OUString)
    (h : t.m_value ≠ SAL_MAX_UINT32) :
    t.next token = (true, { m_value := toUInt32 (t.m_value + 1), m_show := true },
      if t.m_show then OUString.number t.m_value 10 else []) := by
  simp [SequentialTokens.next, h]

theorem SequentialTokens.next_at_ceiling (t : SequentialTokens) (token : OUString)
    (h : t.m_value = SAL_MAX_UINT32) : t.next token = (false, t, token) := by
  simp [SequentialTokens.next, h]

/-- After `n` calls, `1 ≤ n ≤ SAL_MAX_UINT32`, the object holds `n` and shows
its value. -/
theorem SequentialTokens.after_new (showZero : Bool) :
    ∀ n, 1 ≤ n → n ≤ SAL_MAX_UINT32 →
      (SequentialTokens.new showZero).after n = { m_value := n, m_show := true } := by
  intro n
  induction n with
  | zero => intro h; omega
  | succ n ih =>
    intro _ hle
    by_cases hn : n = 0
    · subst hn
      simp [SequentialTokens.after, SequentialTokens.new, SequentialTokens.next,
        SAL_MAX_UINT32, toUInt32]
    · have hprev := ih (by omega) (by omega)
      have hne : n ≠ SAL_MAX_UINT32 := by omega
      have hw : toUInt32 (n + 1) = n + 1 := by
        unfold toUInt32
        unfold SAL_MAX_UINT32 at hle
        omega
      simp [SequentialTokens.after, hprev, SequentialTokens.next, hne, hw]

/-- From `SAL_MAX_UINT32` calls on the object no longer changes. -/
theorem SequentialTokens.after_ge (showZero : Bool) :
    ∀ n, SAL_MAX_UINT32 ≤ n →
      (SequentialTokens.new showZero).after n =
        { m_value := SAL_MAX_UINT32, m_show := true } := by
  intro n hn
  induction n with
  | zero => simp [SAL_MAX_UINT32] at hn
  | succ n ih =>
    by_cases hlt : SAL_MAX_UINT32 ≤ n
    · simp [SequentialTokens.after, ih hlt, SequentialTokens.next]
    · have heq : n + 1 = SAL_MAX_UINT32 := by omega
      rw [heq]
      exact SequentialTokens.after_new showZero _ (by simp [SAL_MAX_UINT32]) (le_refl _)

/-- C3. The sequential token stream: the first call of `next` on
`SequentialTokens(showZero)` succeeds and yields the empty string when
`showZero` is false and `"0"` when it is true; for every `n ≥ 1` below the
ceiling `SAL_MAX_UINT32` the `(n+1)`-th call succeeds and yields the decimal
text of `n` (the text `Nat.repr` gives), whatever `showZero` is; from the
ceiling on every call reports failure and leaves `*token` as it was. -/
theorem SequentialTokens_stream (showZero : Bool) (token : OUString) :
    ((SequentialTokens.new showZero).next token).1 = true ∧
    ((SequentialTokens.new showZero).next token).2.2
      = (if showZero then "0".toList else []) ∧
    (∀ n, 1 ≤ n → n < SAL_MAX_UINT32 →
      (((SequentialTokens.new showZero).after n).next token).1 = true ∧
      (((SequentialTokens.new showZero).after n).next token).2.2 = OUString.number n 10 ∧
      OUString.number n 10 = (Nat.repr n).toList) ∧
    (∀ n, SAL_MAX_UINT32 ≤ n →
      (((SequentialTokens.new showZero).after n).next token).1 = false ∧
      (((SequentialTokens.new showZero).after n).next token).2.2 = token) := by
  refine ⟨?_, ?_, ?_, ?_⟩
  · simp [SequentialTokens.new, SequentialTokens.next, SAL_MAX_UINT32]
  · cases showZero <;>
      simp [SequentialTokens.new, SequentialTokens.next, SAL_MAX_UINT32, OUString.number,
        numberDigits, digitChar, digitChars]
  · intro n h1 hlt
    rw [SequentialTokens.after_new showZero n h1 (le_of_lt hlt)]
    rw [SequentialTokens.next_below_ceiling _ _ (by simpa using ne_of_lt hlt)]
    exact ⟨rfl, by simp, number_ten_eq_repr n⟩
  · intro n hn
    rw [SequentialTokens.after_ge showZero n hn, SequentialTokens.next_at_ceiling _ _ rfl]
    exact ⟨rfl, rfl⟩

/-! ## The unique stream -/

theorem UniqueTokens.max_eq : UniqueTokens.max 36 = 2176782336 := by decide

theorem UniqueTokens.next_exhausted {σ : Type} (osl : Osl σ) (t : UniqueTokens)
    (token : OUString) (w : World σ) (h : t.m_count = 2176782336) :
    t.next osl token w = (false, t, token, w) := by
  simp [UniqueTokens.next, UniqueTokens.max_eq, h]

/-- The counter after a successful call. -/
theorem UniqueTokens.next_globalValue {σ : Type} (osl : Osl σ) (t : UniqueTokens)
    (token : OUString) (w : World σ) (h : t.m_count ≠ 2176782336) :
    (t.next osl token w).1 = true ∧
    (t.next osl token w).2.1 = { m_count := toUInt32 (t.m_count + 1) } ∧
    (t.next osl token w).2.2.1 = OUString.number (t.next osl token w).2.2.2.globalValue 36 ∧
    (t.next osl token w).2.2.2.gTempNameBase_Impl = w.gTempNameBase_Impl ∧
    (w.globalValue = 4294967295 →
      (t.next osl token w).2.2.2.globalValue = (osl.GetSystemTicks w.sys).1 % 2176782336 ∧
      (t.next osl token w).2.2.2.sys = (osl.GetSystemTicks w.sys).2) ∧
    (w.globalValue ≠ 4294967295 →
      (t.next osl token w).2.2.2.globalValue = (w.globalValue + 1) % 4294967296 % 2176782336 ∧
      (t.next osl token w).2.2.2.sys = w.sys) := by
  have hmod : ∀ x : Nat, x % 2176782336 % 4294967296 = x % 2176782336 := by
    intro x; omega
  refine ⟨?_, ?_, ?_, ?_, ?_, ?_⟩
  · simp [UniqueTokens.next, UniqueTokens.max_eq, h]
  · simp [UniqueTokens.next, UniqueTokens.max_eq, h]
  · simp [UniqueTokens.next, UniqueTokens.max_eq, h]
  · simp only [UniqueTokens.next, UniqueTokens.max_eq, h, if_false]
    split <;> rfl
  · intro hg
    simp [UniqueTokens.next, UniqueTokens.max_eq, h, hg, SAL_MAX_UINT32, toUInt32, hmod]
  · intro hg
    simp [UniqueTokens.next, UniqueTokens.max_eq, h, hg, SAL_MAX_UINT32, toUInt32, hmod]

theorem UniqueTokens.next_globalValue_lt {σ : Type} (osl : Osl σ) (t : UniqueTokens)
    (token : OUString) (w : World σ) (h : t.m_count ≠ 2176782336) :
    (t.next osl token w).2.2.2.globalValue < 2176782336 := by
  obtain ⟨_, _, _, _, h1, h2⟩ := UniqueTokens.next_globalValue osl t token w h
  by_cases hg : w.globalValue = 4294967295
  · rw [(h1 hg).1]; omega
  · rw [(h2 hg).1]; omega

/-- The count of an instance after a series of calls. -/
theorem UniqueTokens.afterCalls_count {σ : Type} (osl : Osl σ) :
    ∀ (calls : List (OUString × World σ)) (t : UniqueTokens), t.m_count ≤ 2176782336 →
      (UniqueTokens.afterCalls osl t calls).m_count
        = min (t.m_count + calls.length) 2176782336 := by
  intro calls
  induction calls with
  | nil => intro t ht; simp [UniqueTokens.afterCalls, ht]
  | cons c rest ih =>
    intro t ht
    by_cases h : t.m_count = 2176782336
    · have hn := UniqueTokens.next_exhausted osl t c.1 c.2 h
      simp only [UniqueTokens.afterCalls, hn]
      rw [ih t ht, h]
      simp
    · have hn := (UniqueTokens.next_globalValue osl t c.1 c.2 h).2.1
      have hw : toUInt32 (t.m_count + 1) = t.m_count + 1 := by
        unfold toUInt32; omega
      simp only [UniqueTokens.afterCalls, hn, hw]
      rw [ih _ (by show t.m_count + 1 ≤ 2176782336; omega)]
      simp only [List.length_cons]
      congr 1
      omega

/-- C8. The retry budget of a unique stream: an instance created by
`UniqueTokens()` succeeds on each of its first 36^6 calls of `next` and fails
on every later one, whatever the worlds the calls are made in; the bound
`max` is 36^6 = 2176782336, computed in 32-bit arithmetic in which the
product never wraps (it is below 2^32); a failing call leaves the object,
`*token` and the world, the process-wide counter included, unchanged. -/
theorem UniqueTokens_budget {σ : Type} (osl : Osl σ) (calls : List (OUString × World σ))
    (token : OUString) (w : World σ) :
    UniqueTokens.max 36 = 36 ^ 6 ∧ (36 : Nat) ^ 6 = 2176782336 ∧
    36 * 36 * 36 * 36 * 36 * 36 < 4294967296 ∧
    (calls.length < 36 ^ 6 →
      ((UniqueTokens.afterCalls osl UniqueTokens.new calls).next osl token w).1 = true) ∧
    (36 ^ 6 ≤ calls.length →
      (UniqueTokens.afterCalls osl UniqueTokens.new calls).next osl token w
        = (false, UniqueTokens.afterCalls osl UniqueTokens.new calls, token, w) ∧
      ((UniqueTokens.afterCalls osl UniqueTokens.new calls).next osl token w).2.2.2.globalValue
        = w.globalValue) := by
  have hpow : (36 : Nat) ^ 6 = 2176782336 := by norm_num
  have hcount := UniqueTokens.afterCalls_count osl calls UniqueTokens.new
    (by simp [UniqueTokens.new])
  simp only [UniqueTokens.new, Nat.zero_add] at hcount
  refine ⟨by rw [UniqueTokens.max_eq, hpow], hpow, by norm_num, ?_, ?_⟩
  · intro hlt
    rw [hpow] at hlt
    exact (UniqueTokens.next_globalValue osl _ token w
      (by simp only [UniqueTokens.new]; rw [hcount]; omega)).1
  · intro hge
    rw [hpow] at hge
    have hfail := UniqueTokens.next_exhausted osl
      (UniqueTokens.afterCalls osl UniqueTokens.new calls) token w
      (by simp only [UniqueTokens.new]; rw [hcount]; omega)
    exact ⟨hfail, by rw [hfail]⟩

/-- A run that starts with the counter below 36^6 never reads the tick
source and keeps the counter below 36^6. -/
theorem uniqueRun_stable {σ : Type} (osl : Osl σ) :
    ∀ (insts : List UniqueTokens) (w : World σ), w.globalValue < 2176782336 →
      (uniqueRun osl insts w).2.sys = w.sys ∧
      (uniqueRun osl insts w).2.globalValue < 2176782336 := by
  intro insts
  induction insts with
  | nil => intro w hw; exact ⟨rfl, hw⟩
  | cons t rest ih =>
    intro w hw
    simp only [uniqueRun]
    by_cases h : t.m_count = 2176782336
    · rw [UniqueTokens.next_exhausted osl t [] w h]
      exact ih w hw
    · have hlt := UniqueTokens.next_globalValue_lt osl t [] w h
      have hsys := ((UniqueTokens.next_globalValue osl t [] w h).2.2.2.2.2
        (by omega)).2
      have := ih _ hlt
      exact ⟨by rw [this.1, hsys], this.2⟩

/-- A run that starts at the sentinel reads the tick source once if one of
its calls succeeds, and changes nothing otherwise. -/
theorem uniqueRun_sentinel {σ : Type} (osl : Osl σ) :
    ∀ (insts : List UniqueTokens) (w : World σ), w.globalValue = 4294967295 →
      ((∀ x ∈ (uniqueRun osl insts w).1, x.1 = false) → (uniqueRun osl insts w).2 = w) ∧
      ((∃ x ∈ (uniqueRun osl insts w).1, x.1 = true) →
        (uniqueRun osl insts w).2.sys = (osl.GetSystemTicks w.sys).2 ∧
        (uniqueRun osl insts w).2.globalValue < 2176782336) := by
  intro insts
  induction insts with
  | nil =>
    intro w _
    exact ⟨fun _ => rfl, fun h => by simp [uniqueRun] at h⟩
  | cons t rest ih =>
    intro w hw
    simp only [uniqueRun]
    by_cases h : t.m_count = 2176782336
    · rw [UniqueTokens.next_exhausted osl t [] w h]
      have := ih w hw
      refine ⟨fun hall => this.1 (fun x hx => hall x (List.mem_cons_of_mem _ hx)), ?_⟩
      intro hex
      apply this.2
      obtain ⟨x, hx, hx1⟩ := hex
      rcases List.mem_cons.mp hx with rfl | hx
      · simp at hx1
      · exact ⟨x, hx, hx1⟩
    · have hn := UniqueTokens.next_globalValue osl t [] w h
      have hlt := UniqueTokens.next_globalValue_lt osl t [] w h
      refine ⟨fun hall => ?_, fun _ => ?_⟩
      · have := hall _ (List.mem_cons_self _ _)
        rw [hn.1] at this
        simp at this
      · have hst := uniqueRun_stable osl rest _ hlt
        exact ⟨by rw [hst.1, (hn.2.2.2.2.1 hw).2], hst.2⟩

/-- C6. The step of the process-wide counter and its invariant.  The counter
starts at the sentinel 2^32-1.  A call of `UniqueTokens::next` on an instance
that is not exhausted succeeds; it sets the counter to `ticks mod 36^6` if it
held the sentinel and to `(old + 1) mod 36^6` if it held another 32-bit value,
in which case `old + 1` does not overflow 32 bits and the environment (the
tick source) is not touched; the token is the base-36 text of the new value,
which is below 36^6, is not the sentinel, and has at most 6 digits.  In a run
of calls from process start the tick source is read exactly once if a call
succeeds (the environment afterwards is the one after one reading) and the
world is unchanged if none does. -/
theorem UniqueTokens_counter {σ : Type} (osl : Osl σ) (s : σ) (t : UniqueTokens)
    (token : OUString) (w : World σ) (insts : List UniqueTokens) :
    (World.initial s).globalValue = 2 ^ 32 - 1 ∧
    (t.m_count ≠ UniqueTokens.max 36 →
      (t.next osl token w).1 = true ∧
      (w.globalValue = 2 ^ 32 - 1 →
        (t.next osl token w).2.2.2.globalValue = (osl.GetSystemTicks w.sys).1 % 36 ^ 6) ∧
      (w.globalValue < 2 ^ 32 - 1 →
        (t.next osl token w).2.2.2.globalValue = (w.globalValue + 1) % 36 ^ 6 ∧
        toUInt32 (w.globalValue + 1) = w.globalValue + 1 ∧
        (t.next osl token w).2.2.2.sys = w.sys) ∧
      (t.next osl token w).2.2.1
        = OUString.number (t.next osl token w).2.2.2.globalValue 36 ∧
      (t.next osl token w).2.2.2.globalValue < 36 ^ 6 ∧
      (t.next osl token w).2.2.2.globalValue ≠ 2 ^ 32 - 1 ∧
      (t.next osl token w).2.2.1.length ≤ 6) ∧
    ((∀ x ∈ (uniqueRun osl insts (World.initial s)).1, x.1 = false) →
      (uniqueRun osl insts (World.initial s)).2 = World.initial s) ∧
    ((∃ x ∈ (uniqueRun osl insts (World.initial s)).1, x.1 = true) →
      (uniqueRun osl insts (World.initial s)).2.sys = (osl.GetSystemTicks s).2 ∧
      (uniqueRun osl insts (World.initial s)).2.globalValue < 36 ^ 6) := by
  have hpow : (36 : Nat) ^ 6 = 2176782336 := by norm_num
  have h32 : (2 : Nat) ^ 32 - 1 = 4294967295 := by norm_num
  have hrun := uniqueRun_sentinel osl insts (World.initial s) rfl
  rw [hpow, h32, UniqueTokens.max_eq]
  refine ⟨rfl, ?_, hrun.1, hrun.2⟩
  intro hne
  obtain ⟨h1, _, h3, _, h5, h6⟩ := UniqueTokens.next_globalValue osl t token w hne
  have hlt := UniqueTokens.next_globalValue_lt osl t token w hne
  refine ⟨h1, fun hg => (h5 hg).1, ?_, h3, hlt, by omega, ?_⟩
  · intro hg
    have hw : toUInt32 (w.globalValue + 1) = w.globalValue + 1 := by
      unfold toUInt32; omega
    refine ⟨?_, hw, (h6 (by omega)).2⟩
    rw [(h6 (by omega)).1]
    unfold toUInt32 at hw
    rw [hw]
  · rw [h3]
    exact numberDigits_length_le 36 _ _ 6 (by norm_num) (by rw [hpow]; exact hlt)

/-- The tokens of a run whose calls all succeed, started with the counter
below 36^6: the texts of the following counter values. -/
theorem uniqueRun_tokens {σ : Type} (osl : Osl σ) :
    ∀ (insts : List UniqueTokens) (w : World σ), w.globalValue < 2176782336 →
      (∀ x ∈ (uniqueRun osl insts w).1, x.1 = true) →
      (uniqueRun osl insts w).1.map Prod.snd
        = (List.range insts.length).map
            (fun i => OUString.number ((w.globalValue + 1 + i) % 2176782336) 36) := by
  intro insts
  induction insts with
  | nil => intro w _ _; simp [uniqueRun]
  | cons t rest ih =>
    intro w hw hall
    simp only [uniqueRun] at hall ⊢
    have h : t.m_count ≠ 2176782336 := by
      intro heq
      have := hall _ (List.mem_cons_self _ _)
      rw [UniqueTokens.next_exhausted osl t [] w heq] at this
      simp at this
    have hn := UniqueTokens.next_globalValue osl t [] w h
    have hlt := UniqueTokens.next_globalValue_lt osl t [] w h
    have hval : (t.next osl [] w).2.2.2.globalValue = (w.globalValue + 1) % 2176782336 := by
      rw [(hn.2.2.2.2.2 (by omega)).1]; omega
    have hrest := ih _ hlt (fun x hx => hall x (List.mem_cons_of_mem _ hx))
    simp only [List.map_cons, List.length_cons, List.range_succ_eq_map, hrest, hn.2.2.1,
      List.map_map]
    refine congrArg₂ _ ?_ ?_
    · rw [hval]
    · apply List.map_congr_left
      intro i _
      simp only [Function.comp, hval]
      congr 1
      omega

/-- C4. Uniqueness within the wrap period: in a run of consecutive calls of
`UniqueTokens::next` that all succeed, made through instances in any states on
the shared counter, the tokens are the base-36 texts of consecutive counter
values modulo 36^6; they are pairwise distinct when the run has at most 36^6
calls, and some token repeats when it has more. -/
theorem UniqueTokens_distinct {σ : Type} (osl : Osl σ) (insts : List UniqueTokens)
    (w : World σ) (hall : ∀ x ∈ (uniqueRun osl insts w).1, x.1 = true) :
    (∃ v0, (uniqueRun osl insts w).1.map Prod.snd
      = (List.range insts.length).map (fun i => OUString.number ((v0 + i) % 36 ^ 6) 36)) ∧
    (insts.length ≤ 36 ^ 6 → ((uniqueRun osl insts w).1.map Prod.snd).Nodup) ∧
    (36 ^ 6 < insts.length → ¬ ((uniqueRun osl insts w).1.map Prod.snd).Nodup) := by
  have hpow : (36 : Nat) ^ 6 = 2176782336 := by norm_num
  rw [hpow]
  have hshape : ∃ v0, (uniqueRun osl insts w).1.map Prod.snd
      = (List.range insts.length).map
          (fun i => OUString.number ((v0 + i) % 2176782336) 36) := by
    cases insts with
    | nil => exact ⟨0, by simp [uniqueRun]⟩
    | cons t rest =>
      simp only [uniqueRun] at hall ⊢
      have h : t.m_count ≠ 2176782336 := by
        intro heq
        have := hall _ (List.mem_cons_self _ _)
        rw [UniqueTokens.next_exhausted osl t [] w heq] at this
        simp at this
      have hn := UniqueTokens.next_globalValue osl t [] w h
      have hlt := UniqueTokens.next_globalValue_lt osl t [] w h
      have hrest := uniqueRun_tokens osl rest _ hlt
        (fun x hx => hall x (List.mem_cons_of_mem _ hx))
      refine ⟨(t.next osl [] w).2.2.2.globalValue, ?_⟩
      simp only [List.map_cons, List.length_cons, List.range_succ_eq_map, hrest, hn.2.2.1,
        List.map_map]
      refine congrArg₂ _ ?_ ?_
      · congr 1
        omega
      · apply List.map_congr_left
        intro i _
        simp only [Function.comp]
        congr 1
        omega
  obtain ⟨v0, hv0⟩ := hshape
  refine ⟨⟨v0, hv0⟩, ?_, ?_⟩
  · intro hlen
    rw [hv0]
    apply List.Nodup.map_on _ (List.nodup_range _)
    intro x hx y hy hxy
    have hx := List.mem_range.mp hx
    have hy := List.mem_range.mp hy
    have := number_injective 36 (by norm_num) (by norm_num) _ _ hxy
    omega
  · intro hlen hnodup
    rw [hv0] at hnodup
    have h0 : (0 : Nat) ∈ List.range insts.length := List.mem_range.mpr (by omega)
    have hM : (2176782336 : Nat) ∈ List.range insts.length := List.mem_range.mpr hlen
    have := List.inj_on_of_nodup_map hnodup h0 hM (by simp)
    omega

/-- C4 at a concrete run: two calls through two fresh instances at process
start over the empty modelled filesystem give two different tokens. -/
theorem UniqueTokens_distinct_witness :
    ((uniqueRun plainOsl [UniqueTokens.new, UniqueTokens.new]
      (World.initial emptyFS)).1.map Prod.snd).Nodup :=
  (UniqueTokens_distinct plainOsl [UniqueTokens.new, UniqueTokens.new]
    (World.initial emptyFS) (by decide)).2.1 (by norm_num)

/-! ## The allocation loop over any environment -/

theorem Tokens.next_base {σ : Type} (osl : Osl σ) (tokens : Tokens) (token : OUString)
    (w : World σ) :
    (tokens.next osl token w).2.2.2.gTempNameBase_Impl = w.gTempNameBase_Impl := by
  cases tokens with
  | sequential t => rfl
  | unique t =>
    simp only [Tokens.next, UniqueTokens.next]
    split_ifs <;> rfl

/-- A pass that returns: the base directory is not written, and a non-empty
name is the candidate of the token just drawn. -/
theorem lcl_createName_body_ret {σ : Type} (osl : Osl σ) (aName pExtension : OUString)
    (bDirectory bKeep bLock : Bool) (tokens : Tokens) (token : OUString)
    (drawn : List OUString) (w : World σ) (r : Created σ)
    (h : lcl_createName_body osl aName pExtension bDirectory bKeep bLock tokens token drawn w
      = LoopStep.ret r) :
    r.world.gTempNameBase_Impl = w.gTempNameBase_Impl ∧
    (r.name ≠ [] →
      r.drawn = drawn ++ [(tokens.next osl token w).2.2.1] ∧
      r.name = aName ++ (tokens.next osl token w).2.2.1 ++ extensionOrTmp pExtension) := by
  have hb := Tokens.next_base osl tokens token w
  simp only [lcl_createName_body] at h
  split_ifs at h <;> simp only [LoopStep.ret.injEq] at h <;> subst h <;> simp [hb]

/-- A pass that leaves the body for the next pass: the token was drawn and
recorded, and the base directory is not written. -/
theorem lcl_createName_body_again {σ : Type} (osl : Osl σ) (aName pExtension : OUString)
    (bDirectory bKeep bLock : Bool) (tokens : Tokens) (token : OUString)
    (drawn : List OUString) (w : World σ) (tk : Tokens) (t1 : OUString)
    (d1 : List OUString) (w1 : World σ)
    (h : lcl_createName_body osl aName pExtension bDirectory bKeep bLock tokens token drawn w
      = LoopStep.again tk t1 d1 w1) :
    w1.gTempNameBase_Impl = w.gTempNameBase_Impl ∧
    (tokens.next osl token w).1 = true ∧
    tk = (tokens.next osl token w).2.1 ∧
    t1 = (tokens.next osl token w).2.2.1 ∧
    d1 = drawn ++ [t1] := by
  have hb := Tokens.next_base osl tokens token w
  simp only [lcl_createName_body] at h
  split_ifs at h <;> simp only [LoopStep.again.injEq, reduceCtorEq] at h <;>
    obtain ⟨rfl, rfl, rfl, rfl⟩ := h <;> simp_all

/-- Every name the loop returns is the candidate of the last token drawn, and
the tokens drawn before the loop stay in front. -/
theorem lcl_createName_loop_shape {σ : Type} (osl : Osl σ) (aName pExtension : OUString)
    (bDirectory bKeep bLock : Bool) :
    ∀ (fuel : Nat) (tokens : Tokens) (token : OUString) (drawn : List OUString)
      (w : World σ),
      (lcl_createName_loop osl aName pExtension bDirectory bKeep bLock
        fuel tokens token drawn w).name ≠ [] →
      ∃ t rest,
        (lcl_createName_loop osl aName pExtension bDirectory bKeep bLock
          fuel tokens token drawn w).drawn = drawn ++ rest ++ [t] ∧
        (lcl_createName_loop osl aName pExtension bDirectory bKeep bLock
          fuel tokens token drawn w).name = aName ++ t ++ extensionOrTmp pExtension := by
  intro fuel
  induction fuel with
  | zero => intro tokens token drawn w h; exact absurd rfl h
  | succ fuel ih =>
    intro tokens token drawn w
    rw [lcl_createName_loop]
    cases hb : lcl_createName_body osl aName pExtension bDirectory bKeep bLock
        tokens token drawn w with
    | ret r =>
      intro hne
      obtain ⟨hd, hn⟩ := (lcl_createName_body_ret osl aName pExtension bDirectory bKeep
        bLock tokens token drawn w r hb).2 hne
      exact ⟨_, [], by simpa using hd, hn⟩
    | again tk t1 d1 w1 =>
      intro hne
      obtain ⟨_, _, _, _, hd1⟩ := lcl_createName_body_again osl aName pExtension
        bDirectory bKeep bLock tokens token drawn w tk t1 d1 w1 hb
      obtain ⟨t, rest, hd, hn⟩ := ih tk t1 d1 w1 hne
      exact ⟨t, t1 :: rest, by simp only [] at hd ⊢; rw [hd, hd1]; simp, hn⟩

/-- The loop does not write the process-wide base directory. -/
theorem lcl_createName_loop_base {σ : Type} (osl : Osl σ) (aName pExtension : OUString)
    (bDirectory bKeep bLock : Bool) :
    ∀ (fuel : Nat) (tokens : Tokens) (token : OUString) (drawn : List OUString)
      (w : World σ),
      (lcl_createName_loop osl aName pExtension bDirectory bKeep bLock
        fuel tokens token drawn w).world.gTempNameBase_Impl = w.gTempNameBase_Impl := by
  intro fuel
  induction fuel with
  | zero => intro tokens token drawn w; rfl
  | succ fuel ih =>
    intro tokens token drawn w
    rw [lcl_createName_loop]
    cases hb : lcl_createName_body osl aName pExtension bDirectory bKeep bLock
        tokens token drawn w with
    | ret r =>
      exact (lcl_createName_body_ret osl aName pExtension bDirectory bKeep
        bLock tokens token drawn w r hb).1
    | again tk t1 d1 w1 =>
      have := (lcl_createName_body_again osl aName pExtension
        bDirectory bKeep bLock tokens token drawn w tk t1 d1 w1 hb).1
      simp only []
      rw [ih, this]

/-- C2. The shape of the result of `lcl_createName`: a non-empty result is
`D ++ rLeadingChars ++ t ++ e`, where `D` is what `ConstructTempDir_Impl`
returns for the same parent and flag in the same world, `t` is one of the
tokens the stream yielded during the call (the last one), and `e` is the
caller's extension if that is not empty and `.tmp` if it is. -/
theorem lcl_createName_shape {σ : Type} (osl : Osl σ) (rLeadingChars : OUString)
    (tokens : Tokens) (pExtension : OUString) (pParent : Option OUString)
    (bDirectory bKeep bLock bCreateParentDirs : Bool) (w : World σ)
    (h : (lcl_createName osl rLeadingChars tokens pExtension pParent bDirectory bKeep
      bLock bCreateParentDirs w).name ≠ []) :
    ∃ t, t ∈ (lcl_createName osl rLeadingChars tokens pExtension pParent bDirectory bKeep
        bLock bCreateParentDirs w).drawn ∧
      (lcl_createName osl rLeadingChars tokens pExtension pParent bDirectory bKeep
        bLock bCreateParentDirs w).drawn.getLast? = some t ∧
      (lcl_createName osl rLeadingChars tokens pExtension pParent bDirectory bKeep
        bLock bCreateParentDirs w).name
        = (ConstructTempDir_Impl osl pParent bCreateParentDirs w).1 ++ rLeadingChars ++ t
          ++ (if pExtension ≠ [] then pExtension else ".tmp".toList) := by
  suffices hs : ∃ t, t ∈ (lcl_createName osl rLeadingChars tokens pExtension pParent
        bDirectory bKeep bLock bCreateParentDirs w).drawn ∧
      (lcl_createName osl rLeadingChars tokens pExtension pParent bDirectory bKeep
        bLock bCreateParentDirs w).drawn.getLast? = some t ∧
      (lcl_createName osl rLeadingChars tokens pExtension pParent bDirectory bKeep
        bLock bCreateParentDirs w).name
        = (ConstructTempDir_Impl osl pParent bCreateParentDirs w).1 ++ rLeadingChars ++ t
          ++ extensionOrTmp pExtension from hs
  have key : ∀ (aName : OUString) (w2 : World σ),
      (lcl_createName_loop osl (aName ++ rLeadingChars)
        pExtension bDirectory bKeep bLock tokenFuel tokens [] [] w2).name ≠ [] →
      ∃ t, t ∈ (lcl_createName_loop osl (aName ++ rLeadingChars)
          pExtension bDirectory bKeep bLock tokenFuel tokens [] [] w2).drawn ∧
        (lcl_createName_loop osl (aName ++ rLeadingChars)
          pExtension bDirectory bKeep bLock tokenFuel tokens [] [] w2).drawn.getLast?
          = some t ∧
        (lcl_createName_loop osl (aName ++ rLeadingChars)
          pExtension bDirectory bKeep bLock tokenFuel tokens [] [] w2).name
          = aName ++ rLeadingChars ++ t ++ extensionOrTmp pExtension := by
    intro aName w2 h2
    obtain ⟨t, rest, hd, hn⟩ := lcl_createName_loop_shape osl _ pExtension bDirectory
      bKeep bLock tokenFuel tokens [] [] w2 h2
    exact ⟨t, by simp [hd], by simp [hd], hn⟩
  cases bCreateParentDirs with
  | false => exact key _ _ h
  | true =>
    unfold lcl_createName at h ⊢
    simp only [if_true] at h ⊢
    split_ifs at h ⊢ with herr
    · exact absurd rfl h
    · exact key _ _ h

/-- C2 at a concrete call: a named allocation at process start over the empty
modelled filesystem. -/
theorem lcl_createName_shape_witness :
    ∃ t, t ∈ (lcl_createName plainOsl "doc".toList
        (Tokens.sequential (SequentialTokens.new true)) [] none false true true false
        (World.initial emptyFS)).drawn ∧
      (lcl_createName plainOsl "doc".toList
        (Tokens.sequential (SequentialTokens.new true)) [] none false true true false
        (World.initial emptyFS)).drawn.getLast? = some t ∧
      (lcl_createName plainOsl "doc".toList
        (Tokens.sequential (SequentialTokens.new true)) [] none false true true false
        (World.initial emptyFS)).name
        = (ConstructTempDir_Impl plainOsl none false (World.initial emptyFS)).1
          ++ "doc".toList ++ t ++ (if ([] : OUString) ≠ [] then [] else ".tmp".toList) :=
  lcl_createName_shape plainOsl "doc".toList
    (Tokens.sequential (SequentialTokens.new true)) [] none false true true false
    (World.initial emptyFS) (by decide)

/-! ## Directory mode -/

/-- C10 (amended). Directory mode, creation succeeded: when `next` yields a
token and the exclusive creation of the directory for its candidate succeeds,
the loop returns at once.  With keep semantics it returns the candidate and
leaves the directory in place (the environment is the one right after the
creation).  Without keep semantics it removes the directory; it returns the
candidate if the removal succeeds and the empty string if the removal
fails. -/
theorem lcl_createName_directory_created {σ : Type} (osl : Osl σ)
    (aName pExtension : OUString) (bKeep bLock : Bool) (fuel : Nat) (tokens : Tokens)
    (token : OUString) (drawn : List OUString) (w : World σ)
    (hnext : (tokens.next osl token w).1 = true)
    (hcreate : (nextDirectoryCreate osl aName pExtension tokens token w).1 = RC.E_None) :
    (bKeep = true →
      (lcl_createName_loop osl aName pExtension true bKeep bLock
        (fuel + 1) tokens token drawn w).name
          = nextCandidate osl aName pExtension tokens token w ∧
      (lcl_createName_loop osl aName pExtension true bKeep bLock
        (fuel + 1) tokens token drawn w).world.sys
          = (nextDirectoryCreate osl aName pExtension tokens token w).2) ∧
    (bKeep = false →
      (lcl_createName_loop osl aName pExtension true bKeep bLock
        (fuel + 1) tokens token drawn w).world.sys
          = (osl.Directory_remove (nextCandidate osl aName pExtension tokens token w)
              (nextDirectoryCreate osl aName pExtension tokens token w).2).2 ∧
      ((osl.Directory_remove (nextCandidate osl aName pExtension tokens token w)
          (nextDirectoryCreate osl aName pExtension tokens token w).2).1 = RC.E_None →
        (lcl_createName_loop osl aName pExtension true bKeep bLock
          (fuel + 1) tokens token drawn w).name
            = nextCandidate osl aName pExtension tokens token w) ∧
      ((osl.Directory_remove (nextCandidate osl aName pExtension tokens token w)
          (nextDirectoryCreate osl aName pExtension tokens token w).2).1 ≠ RC.E_None →
        (lcl_createName_loop osl aName pExtension true bKeep bLock
          (fuel + 1) tokens token drawn w).name = [])) := by
  unfold nextDirectoryCreate nextCandidate at *
  refine ⟨?_, ?_⟩
  · intro hk
    subst hk
    simp only [lcl_createName_loop, lcl_createName_body, hnext, hcreate, ↓reduceIte,
      Bool.true_eq_false, and_self]
  · intro hk
    subst hk
    refine ⟨?_, ?_, ?_⟩
    · simp only [lcl_createName_loop, lcl_createName_body, hnext, hcreate, ↓reduceIte,
        Bool.true_eq_false, Bool.false_eq_true]
      split_ifs <;> rfl
    · intro hr
      simp only [lcl_createName_loop, lcl_createName_body, hnext, hcreate, hr, ↓reduceIte,
        Bool.true_eq_false, Bool.false_eq_true]
    · intro hr
      simp only [lcl_createName_loop, lcl_createName_body, hnext, hcreate, hr, ↓reduceIte,
        Bool.true_eq_false, Bool.false_eq_true]

/-- C10 (amended) at a concrete pass: the first pass of a name-only
allocation in directory mode at process start over the empty modelled
filesystem. -/
theorem lcl_createName_directory_created_witness :
    (lcl_createName_loop plainOsl "file:///tmp/lu".toList [] true false false
      (0 + 1) (Tokens.unique UniqueTokens.new) [] []
      { World.initial emptyFS with gTempNameBase_Impl := "file:///tmp".toList }).name
        = "file:///tmp/lurs.tmp".toList :=
  ((lcl_createName_directory_created plainOsl "file:///tmp/lu".toList [] false false 0
    (Tokens.unique UniqueTokens.new) [] []
    { World.initial emptyFS with gTempNameBase_Impl := "file:///tmp".toList }
    (by decide) (by decide)).2 rfl).2.1 (by decide)

/-- C10 as stated fails: over a filesystem that refuses to remove directories,
the name-only allocation in directory mode draws the token `rs`, the creation
of the directory for its candidate succeeds (the directory is there
afterwards), and `lcl_createName` returns the empty string. -/
theorem lcl_createName_directory_created_counterexample :
    (Tokens.next plainOsl (Tokens.unique UniqueTokens.new) []
      (ConstructTempDir_Impl plainOsl none false (World.initial removeDeniedFS)).2).1 = true ∧
    (nextDirectoryCreate plainOsl "file:///tmp/lu".toList []
      (Tokens.unique UniqueTokens.new) []
      (ConstructTempDir_Impl plainOsl none false (World.initial removeDeniedFS)).2).1
        = RC.E_None ∧
    nextCandidate plainOsl "file:///tmp/lu".toList []
      (Tokens.unique UniqueTokens.new) []
      (ConstructTempDir_Impl plainOsl none false (World.initial removeDeniedFS)).2
        = "file:///tmp/lurs.tmp".toList ∧
    (lcl_createName plainOsl "lu".toList (Tokens.unique UniqueTokens.new) [] none
      true false false false (World.initial removeDeniedFS)).drawn = ["rs".toList] ∧
    (lcl_createName plainOsl "lu".toList (Tokens.unique UniqueTokens.new) [] none
      true false false false (World.initial removeDeniedFS)).world.sys.entries
        "file:///tmp/lurs.tmp".toList = some FileType.Directory ∧
    (lcl_createName plainOsl "lu".toList (Tokens.unique UniqueTokens.new) [] none
      true false false false (World.initial removeDeniedFS)).name = [] := by
  decide

/-! ## The sequential stream inside the loop -/

theorem seqState_zero (showZero : Bool) : seqState showZero 0 = SequentialTokens.new showZero := by
  simp [seqState, SequentialTokens.new]

theorem seqState_next (showZero : Bool) (k : Nat) (token : OUString)
    (hk : k < SAL_MAX_UINT32) :
    (seqState showZero k).next token
      = (true, seqState showZero (k + 1), seqTokenOf showZero k) := by
  have hne : k ≠ SAL_MAX_UINT32 := by omega
  have hw : toUInt32 (k + 1) = k + 1 := by
    unfold toUInt32
    unfold SAL_MAX_UINT32 at hk
    omega
  rw [SequentialTokens.next_below_ceiling _ _ (by simpa [seqState] using hne)]
  cases showZero <;> by_cases h0 : k = 0
  · subst h0; simp [seqState, seqTokenOf, toUInt32]
  · simp [seqState, seqTokenOf, hw, h0, Nat.pos_of_ne_zero]
  · subst h0; simp [seqState, seqTokenOf, toUInt32]
  · simp [seqState, seqTokenOf, hw, h0, Nat.pos_of_ne_zero]

theorem seqState_next_ceiling (showZero : Bool) (token : OUString) :
    (seqState showZero SAL_MAX_UINT32).next token
      = (false, seqState showZero SAL_MAX_UINT32, token) :=
  SequentialTokens.next_at_ceiling _ _ rfl

theorem seqTokenOf_injective (showZero : Bool) (i j : Nat)
    (h : seqTokenOf showZero i = seqTokenOf showZero j) : i = j := by
  unfold seqTokenOf at h
  split_ifs at h with hi hj hj
  · omega
  · exact absurd h.symm (number_ne_nil _ _)
  · exact absurd h (number_ne_nil _ _)
  · exact number_injective 10 (by norm_num) (by norm_num) _ _ h

theorem candidate_injective (aDir rLeadingChars pExtension : OUString) (showZero : Bool)
    (i j : Nat)
    (h : candidate aDir rLeadingChars pExtension showZero i
      = candidate aDir rLeadingChars pExtension showZero j) : i = j := by
  unfold candidate at h
  have h1 := List.append_cancel_right h
  have h2 := List.append_cancel_left h1
  exact seqTokenOf_injective showZero i j h2

theorem extensionOrTmp_ne_nil (pExtension : OUString) : extensionOrTmp pExtension ≠ [] := by
  unfold extensionOrTmp
  split_ifs with h
  · exact h
  · decide

theorem candidate_ne_nil (aDir rLeadingChars pExtension : OUString) (showZero : Bool)
    (k : Nat) : candidate aDir rLeadingChars pExtension showZero k ≠ [] := by
  unfold candidate
  intro h
  have := List.append_eq_nil.mp h
  exact extensionOrTmp_ne_nil pExtension this.2

/-! ## The modelled filesystem -/

theorem ModelFS.createExclusive_ok_iff (call : OsCall) (t : FileType) (path : OUString)
    (fs : ModelFS) :
    (ModelFS.createExclusive call t path fs).1 = RC.E_None
      ↔ fs.fault call path = none ∧ fs.entries path = none := by
  unfold ModelFS.createExclusive
  cases hf : fs.fault call path with
  | some e =>
    simp only [reduceCtorEq, false_and, iff_false]
    split_ifs with hc
    · cases he : fs.entries path with
      | some x => exact fun h => RC.noConfusion h
      | none => exact fun h => RC.noConfusion h
    · exact e.isError
  | none =>
    cases he : fs.entries path with
    | some x => simp
    | none => simp

theorem ModelFS.createExclusive_ok (call : OsCall) (t : FileType) (path : OUString)
    (fs : ModelFS) (hf : fs.fault call path = none) (he : fs.entries path = none) :
    ModelFS.createExclusive call t path fs = (RC.E_None, fs.insert path t) := by
  simp [ModelFS.createExclusive, hf, he]

/-- A creation that answers neither success nor lock contention leaves the
filesystem as it is. -/
theorem ModelFS.createExclusive_failed (call : OsCall) (t : FileType) (path : OUString)
    (fs : ModelFS) (h : (ModelFS.createExclusive call t path fs).1 ≠ RC.E_None)
    (hl : (ModelFS.createExclusive call t path fs).1 ≠ RC.E_NOLCK) :
    (ModelFS.createExclusive call t path fs).2 = fs := by
  unfold ModelFS.createExclusive at h hl ⊢
  cases hf : fs.fault call path with
  | some e =>
    rw [hf] at hl
    simp only [] at hl ⊢
    split_ifs at hl ⊢ with hc
    · cases he : fs.entries path with
      | some x => rfl
      | none =>
        rw [he] at hl
        exact absurd rfl hl
    · rfl
  | none =>
    cases he : fs.entries path with
    | some x => rfl
    | none =>
      rw [hf, he] at h
      exact absurd rfl h

theorem ModelFS.createExclusive_nolck (call : OsCall) (t : FileType) (path : OUString)
    (fs : ModelFS) (h : (ModelFS.createExclusive call t path fs).1 = RC.E_NOLCK) :
    (fs.fault call path).map Fault.rc = some RC.E_NOLCK := by
  unfold ModelFS.createExclusive at h
  cases hf : fs.fault call path with
  | some e =>
    rw [hf] at h
    simp only [] at h
    split_ifs at h with hc
    · simp only [Option.map_some', hc.2]
    · simp only [Option.map_some']
      exact congrArg some h
  | none =>
    cases he : fs.entries path with
    | some x => simp [hf, he] at h
    | none => simp [hf, he] at h

/-- The opening of a file that meets lock contention has created the file:
the name was free and is a regular file afterwards. -/
theorem ModelFS.createExclusive_lock_contention (t : FileType) (path : OUString)
    (fs : ModelFS)
    (h : (ModelFS.createExclusive OsCall.File_open t path fs).1 = RC.E_NOLCK) :
    fs.entries path = none ∧
    (ModelFS.createExclusive OsCall.File_open t path fs).2 = fs.insert path t := by
  have hfault := ModelFS.createExclusive_nolck OsCall.File_open t path fs h
  unfold ModelFS.createExclusive at h ⊢
  cases hf : fs.fault OsCall.File_open path with
  | none =>
    rw [hf] at hfault
    exact Option.noConfusion hfault
  | some e =>
    rw [hf] at hfault h
    simp only [Option.map_some', Option.some.injEq] at hfault
    simp only [hfault, and_self, if_true] at h ⊢
    cases he : fs.entries path with
    | some x =>
      rw [he] at h
      exact RC.noConfusion h
    | none => exact ⟨rfl, rfl⟩

/-- A creation of a directory leaves the filesystem as it is unless it
succeeds. -/
theorem ModelFS.createExclusive_directory_failed (call : OsCall) (t : FileType)
    (path : OUString) (fs : ModelFS) (hcall : call ≠ OsCall.File_open)
    (h : (ModelFS.createExclusive call t path fs).1 ≠ RC.E_None) :
    (ModelFS.createExclusive call t path fs).2 = fs := by
  unfold ModelFS.createExclusive at h ⊢
  cases hf : fs.fault call path with
  | some e =>
    simp only []
    rw [if_neg (fun hc => hcall hc.1)]
  | none =>
    cases he : fs.entries path with
    | some x => rfl
    | none =>
      rw [hf, he] at h
      exact absurd rfl h

theorem ModelFS.getItem_state (path : OUString) (fs : ModelFS) :
    (ModelFS.getItem path fs).2 = fs := by
  unfold ModelFS.getItem
  cases fs.fault OsCall.DirectoryItem_get path <;> cases fs.entries path <;> rfl

theorem ModelFS.getStatus_state (path : OUString) (fs : ModelFS) :
    (ModelFS.getStatus path fs).2 = fs := by
  unfold ModelFS.getStatus
  cases fs.fault OsCall.getFileStatus path <;> cases fs.entries path <;> rfl

theorem modelOsl_File_open (a b : OUString → RC × OUString) (pid : Nat) (path : OUString)
    (bLock : Bool) (fs : ModelFS) :
    (modelOsl a b pid).File_open path
      ([OpenFlag.Create, OpenFlag.Private] ++ (if bLock then [] else [OpenFlag.NoLock])) fs
      = ModelFS.createExclusive OsCall.File_open FileType.Regular path fs := by
  simp [modelOsl, ModelFS.openFile]

/-! ## One pass of the loop over the modelled filesystem, file mode -/

/-- A pass whose candidate is free and not refused creates the file and
returns the candidate. -/
theorem model_body_created (a b : OUString → RC × OUString) (pid : Nat)
    (aName pExtension : OUString) (bKeep bLock showZero : Bool) (k : Nat)
    (token : OUString) (drawn : List OUString) (w : World ModelFS)
    (hk : k < SAL_MAX_UINT32)
    (hf : w.sys.fault OsCall.File_open
      (aName ++ seqTokenOf showZero k ++ extensionOrTmp pExtension) = none)
    (he : w.sys.entries (aName ++ seqTokenOf showZero k ++ extensionOrTmp pExtension) = none) :
    lcl_createName_body (modelOsl a b pid) aName pExtension false bKeep bLock
      (Tokens.sequential (seqState showZero k)) token drawn w
      = LoopStep.ret
        { name := aName ++ seqTokenOf showZero k ++ extensionOrTmp pExtension,
          drawn := drawn ++ [seqTokenOf showZero k],
          tokens := Tokens.sequential (seqState showZero (k + 1)),
          world :=
            { w with
              sys := ModelFS.insert w.sys
                (aName ++ seqTokenOf showZero k ++ extensionOrTmp pExtension)
                FileType.Regular } } := by
  simp only [lcl_createName_body, Tokens.next, seqState_next showZero k token hk,
    modelOsl_File_open, ModelFS.createExclusive_ok _ _ _ _ hf he]
  simp [modelOsl]

/-- A pass whose candidate collides goes on to the next pass and leaves the
world as it is. -/
theorem model_body_collision (a b : OUString → RC × OUString) (pid : Nat)
    (aName pExtension : OUString) (bKeep bLock showZero : Bool) (k : Nat)
    (token : OUString) (drawn : List OUString) (w : World ModelFS)
    (hk : k < SAL_MAX_UINT32)
    (hc : (ModelFS.createExclusive OsCall.File_open FileType.Regular
      (aName ++ seqTokenOf showZero k ++ extensionOrTmp pExtension) w.sys).1 = RC.E_EXIST) :
    lcl_createName_body (modelOsl a b pid) aName pExtension false bKeep bLock
      (Tokens.sequential (seqState showZero k)) token drawn w
      = LoopStep.again (Tokens.sequential (seqState showZero (k + 1)))
          (seqTokenOf showZero k) (drawn ++ [seqTokenOf showZero k]) w := by
  have hs := ModelFS.createExclusive_failed OsCall.File_open FileType.Regular
    (aName ++ seqTokenOf showZero k ++ extensionOrTmp pExtension) w.sys (by rw [hc]; decide)
    (by rw [hc]; decide)
  simp only [lcl_createName_body, Tokens.next, seqState_next showZero k token hk,
    modelOsl_File_open, hc, hs]
  simp

/-- A pass at the ceiling ends the loop with the empty result. -/
theorem model_body_exhausted (a b : OUString → RC × OUString) (pid : Nat)
    (aName pExtension : OUString) (bKeep bLock showZero : Bool)
    (token : OUString) (drawn : List OUString) (w : World ModelFS) :
    lcl_createName_body (modelOsl a b pid) aName pExtension false bKeep bLock
      (Tokens.sequential (seqState showZero SAL_MAX_UINT32)) token drawn w
      = LoopStep.ret
        { name := [], drawn := drawn,
          tokens := Tokens.sequential (seqState showZero SAL_MAX_UINT32), world := w } := by
  simp only [lcl_createName_body, Tokens.next, seqState_next_ceiling]
  simp

/-- After `n` collisions in a row the loop is where it would be had it been
started `n` tokens later. -/
theorem model_loop_skip (a b : OUString → RC × OUString) (pid : Nat)
    (aName pExtension : OUString) (bKeep bLock showZero : Bool) (w : World ModelFS) :
    ∀ (n fuel k : Nat) (token : OUString) (drawn : List OUString),
      k + n ≤ SAL_MAX_UINT32 → n ≤ fuel →
      (∀ i, k ≤ i → i < k + n →
        (ModelFS.createExclusive OsCall.File_open FileType.Regular
          (aName ++ seqTokenOf showZero i ++ extensionOrTmp pExtension) w.sys).1
            = RC.E_EXIST) →
      ∃ token1,
        lcl_createName_loop (modelOsl a b pid) aName pExtension false bKeep bLock
          fuel (Tokens.sequential (seqState showZero k)) token drawn w
        = lcl_createName_loop (modelOsl a b pid) aName pExtension false bKeep bLock
          (fuel - n) (Tokens.sequential (seqState showZero (k + n))) token1
          (drawn ++ (List.range' k n).map (seqTokenOf showZero)) w := by
  intro n
  induction n with
  | zero => intro fuel k token drawn _ _ _; exact ⟨token, by simp⟩
  | succ n ih =>
    intro fuel k token drawn hk hfuel hc
    obtain ⟨f, rfl⟩ : ∃ f, fuel = f + 1 := ⟨fuel - 1, by omega⟩
    have hbody := model_body_collision a b pid aName pExtension bKeep bLock showZero k token
      drawn w (by omega) (hc k (le_refl _) (by omega))
    obtain ⟨token1, h1⟩ := ih f (k + 1) (seqTokenOf showZero k)
      (drawn ++ [seqTokenOf showZero k]) (by omega) (by omega)
      (fun i hi1 hi2 => hc i (by omega) (by omega))
    refine ⟨token1, ?_⟩
    rw [lcl_createName_loop, hbody]
    simp only []
    rw [h1]
    have e1 : f + 1 - (n + 1) = f - n := by omega
    have e2 : k + 1 + n = k + (n + 1) := by omega
    rw [e1, e2, List.range'_succ]
    simp

/-! ## The whole loop over the modelled filesystem, file mode -/

/-- First fit: if the candidates before the `k`-th collide and the `k`-th is
free and not refused, the loop creates and returns the `k`-th candidate after
drawing `k + 1` tokens. -/
theorem model_loop_found (a b : OUString → RC × OUString) (pid : Nat)
    (aName pExtension : OUString) (bKeep bLock showZero : Bool) (w : World ModelFS)
    (k : Nat) (hk : k < SAL_MAX_UINT32)
    (hc : ∀ i, i < k →
      (ModelFS.createExclusive OsCall.File_open FileType.Regular
        (aName ++ seqTokenOf showZero i ++ extensionOrTmp pExtension) w.sys).1 = RC.E_EXIST)
    (hf : w.sys.fault OsCall.File_open
      (aName ++ seqTokenOf showZero k ++ extensionOrTmp pExtension) = none)
    (he : w.sys.entries (aName ++ seqTokenOf showZero k ++ extensionOrTmp pExtension) = none) :
    lcl_createName_loop (modelOsl a b pid) aName pExtension false bKeep bLock tokenFuel
      (Tokens.sequential (SequentialTokens.new showZero)) [] [] w
      = { name := aName ++ seqTokenOf showZero k ++ extensionOrTmp pExtension,
          drawn := (List.range (k + 1)).map (seqTokenOf showZero),
          tokens := Tokens.sequential (seqState showZero (k + 1)),
          world :=
            { w with
              sys := ModelFS.insert w.sys
                (aName ++ seqTokenOf showZero k ++ extensionOrTmp pExtension)
                FileType.Regular } } := by
  have hfuel : k ≤ tokenFuel := by
    unfold tokenFuel; unfold SAL_MAX_UINT32 at hk; omega
  obtain ⟨token1, h1⟩ := model_loop_skip a b pid aName pExtension bKeep bLock showZero w
    k tokenFuel 0 [] [] (by omega) hfuel (fun i _ hi => hc i (by omega))
  rw [← seqState_zero, h1]
  obtain ⟨f, hf1⟩ : ∃ f, tokenFuel - k = f + 1 :=
    ⟨tokenFuel - k - 1, by unfold tokenFuel; unfold SAL_MAX_UINT32 at hk; omega⟩
  rw [hf1, lcl_createName_loop, Nat.zero_add,
    model_body_created a b pid aName pExtension bKeep bLock showZero k token1 _ w hk hf he]
  simp [List.range_eq_range', List.range'_concat]

/-- The opening of a free name that meets lock contention creates the file
and answers `E_NOLCK`. -/
theorem ModelFS.createExclusive_locked (t : FileType) (path : OUString) (fs : ModelFS)
    (hf : (fs.fault OsCall.File_open path).map Fault.rc = some RC.E_NOLCK)
    (he : fs.entries path = none) :
    ModelFS.createExclusive OsCall.File_open t path fs = (RC.E_NOLCK, fs.insert path t) := by
  unfold ModelFS.createExclusive
  cases hfault : fs.fault OsCall.File_open path with
  | none =>
    rw [hfault] at hf
    exact Option.noConfusion hf
  | some e =>
    rw [hfault] at hf
    simp only [Option.map_some', Option.some.injEq] at hf
    simp only [hf, and_self, if_true, he]

/-- A pass of an allocation that locks, whose candidate is free and whose
opening meets lock contention, creates the file and returns the candidate. -/
theorem model_body_locked (a b : OUString → RC × OUString) (pid : Nat)
    (aName pExtension : OUString) (bKeep bLock showZero : Bool) (k : Nat)
    (token : OUString) (drawn : List OUString) (w : World ModelFS)
    (hk : k < SAL_MAX_UINT32) (hl : bLock = true)
    (hf : (w.sys.fault OsCall.File_open
      (aName ++ seqTokenOf showZero k ++ extensionOrTmp pExtension)).map Fault.rc
        = some RC.E_NOLCK)
    (he : w.sys.entries (aName ++ seqTokenOf showZero k ++ extensionOrTmp pExtension) = none) :
    lcl_createName_body (modelOsl a b pid) aName pExtension false bKeep bLock
      (Tokens.sequential (seqState showZero k)) token drawn w
      = LoopStep.ret
        { name := aName ++ seqTokenOf showZero k ++ extensionOrTmp pExtension,
          drawn := drawn ++ [seqTokenOf showZero k],
          tokens := Tokens.sequential (seqState showZero (k + 1)),
          world :=
            { w with
              sys := ModelFS.insert w.sys
                (aName ++ seqTokenOf showZero k ++ extensionOrTmp pExtension)
                FileType.Regular } } := by
  simp only [lcl_createName_body, Tokens.next, seqState_next showZero k token hk,
    modelOsl_File_open, ModelFS.createExclusive_locked _ _ _ hf he]
  simp [modelOsl, hl]

/-- First fit under lock contention: if the candidates before the `k`-th
collide and the `k`-th is free and its opening meets lock contention, the loop
of an allocation that locks creates and returns the `k`-th candidate. -/
theorem model_loop_locked (a b : OUString → RC × OUString) (pid : Nat)
    (aName pExtension : OUString) (bKeep bLock showZero : Bool) (w : World ModelFS)
    (k : Nat) (hk : k < SAL_MAX_UINT32) (hl : bLock = true)
    (hc : ∀ i, i < k →
      (ModelFS.createExclusive OsCall.File_open FileType.Regular
        (aName ++ seqTokenOf showZero i ++ extensionOrTmp pExtension) w.sys).1 = RC.E_EXIST)
    (hf : (w.sys.fault OsCall.File_open
      (aName ++ seqTokenOf showZero k ++ extensionOrTmp pExtension)).map Fault.rc
        = some RC.E_NOLCK)
    (he : w.sys.entries (aName ++ seqTokenOf showZero k ++ extensionOrTmp pExtension) = none) :
    lcl_createName_loop (modelOsl a b pid) aName pExtension false bKeep bLock tokenFuel
      (Tokens.sequential (SequentialTokens.new showZero)) [] [] w
      = { name := aName ++ seqTokenOf showZero k ++ extensionOrTmp pExtension,
          drawn := (List.range (k + 1)).map (seqTokenOf showZero),
          tokens := Tokens.sequential (seqState showZero (k + 1)),
          world :=
            { w with
              sys := ModelFS.insert w.sys
                (aName ++ seqTokenOf showZero k ++ extensionOrTmp pExtension)
                FileType.Regular } } := by
  have hfuel : k ≤ tokenFuel := by
    unfold tokenFuel; unfold SAL_MAX_UINT32 at hk; omega
  obtain ⟨token1, h1⟩ := model_loop_skip a b pid aName pExtension bKeep bLock showZero w
    k tokenFuel 0 [] [] (by omega) hfuel (fun i _ hi => hc i (by omega))
  rw [← seqState_zero, h1]
  obtain ⟨f, hf1⟩ : ∃ f, tokenFuel - k = f + 1 :=
    ⟨tokenFuel - k - 1, by unfold tokenFuel; unfold SAL_MAX_UINT32 at hk; omega⟩
  rw [hf1, lcl_createName_loop, Nat.zero_add,
    model_body_locked a b pid aName pExtension bKeep bLock showZero k token1 _ w hk hl hf he]
  simp [List.range_eq_range', List.range'_concat]

/-- Exhaustion: if every candidate of the stream collides, the loop draws all
`SAL_MAX_UINT32` tokens and returns the empty string, leaving the world as it
is. -/
theorem model_loop_exhausted (a b : OUString → RC × OUString) (pid : Nat)
    (aName pExtension : OUString) (bKeep bLock showZero : Bool) (w : World ModelFS)
    (hc : ∀ i, i < SAL_MAX_UINT32 →
      (ModelFS.createExclusive OsCall.File_open FileType.Regular
        (aName ++ seqTokenOf showZero i ++ extensionOrTmp pExtension) w.sys).1 = RC.E_EXIST) :
    lcl_createName_loop (modelOsl a b pid) aName pExtension false bKeep bLock tokenFuel
      (Tokens.sequential (SequentialTokens.new showZero)) [] [] w
      = { name := [],
          drawn := (List.range SAL_MAX_UINT32).map (seqTokenOf showZero),
          tokens := Tokens.sequential (seqState showZero SAL_MAX_UINT32),
          world := w } := by
  obtain ⟨token1, h1⟩ := model_loop_skip a b pid aName pExtension bKeep bLock showZero w
    SAL_MAX_UINT32 tokenFuel 0 [] [] (by omega) (by decide) (fun i _ hi => hc i (by omega))
  rw [← seqState_zero, h1]
  obtain ⟨f, hf1⟩ : ∃ f, tokenFuel - SAL_MAX_UINT32 = f + 1 :=
    ⟨tokenFuel - SAL_MAX_UINT32 - 1, by decide⟩
  rw [hf1, lcl_createName_loop, Nat.zero_add,
    model_body_exhausted a b pid aName pExtension bKeep bLock showZero token1 _ w]
  simp [List.range_eq_range']

/-! ## Base-directory resolution over the modelled filesystem -/

theorem ensuredir_nil {σ : Type} (osl : Osl σ) (s : σ) : ensuredir osl [] s = (false, s) := by
  simp [ensuredir, ensuredirAux]

/-- Resolving the directory does not change the modelled filesystem nor the
counter. -/
theorem model_ConstructTempDir_frame (a b : OUString → RC × OUString) (pid : Nat)
    (pParent : Option OUString) (bCreateParentDirs : Bool) (w : World ModelFS) :
    (ConstructTempDir_Impl (modelOsl a b pid) pParent bCreateParentDirs w).2.sys = w.sys ∧
    (ConstructTempDir_Impl (modelOsl a b pid) pParent bCreateParentDirs w).2.globalValue
      = w.globalValue := by
  have hparent :
      (ConstructTempDir_parent (modelOsl a b pid) pParent bCreateParentDirs w).2.sys = w.sys ∧
      (ConstructTempDir_parent (modelOsl a b pid) pParent bCreateParentDirs w).2.globalValue
        = w.globalValue := by
    unfold ConstructTempDir_parent
    cases pParent with
    | none => exact ⟨rfl, rfl⟩
    | some parent =>
      simp only []
      split_ifs <;> simp [modelOsl, ModelFS.getItem_state]
  have hbase : ∀ (aName : OUString) (w1 : World ModelFS),
      (ConstructTempDir_base (modelOsl a b pid) aName w1).2.sys = w1.sys ∧
      (ConstructTempDir_base (modelOsl a b pid) aName w1).2.globalValue = w1.globalValue := by
    intro aName w1
    unfold ConstructTempDir_base
    by_cases h : aName = []
    · subst h
      simp only [if_true, ensuredir_nil]
      split_ifs <;> simp [modelOsl]
    · simp [h]
  unfold ConstructTempDir_Impl
  simp only []
  exact ⟨by rw [(hbase _ _).1, hparent.1], by rw [(hbase _ _).2, hparent.2]⟩

theorem ModelFS.createExclusive_exists (call : OsCall) (t : FileType) (path : OUString)
    (fs : ModelFS) (hf : fs.fault call path = none) (he : fs.entries path ≠ none) :
    (ModelFS.createExclusive call t path fs).1 = RC.E_EXIST := by
  unfold ModelFS.createExclusive
  rw [hf]
  cases h : fs.entries path with
  | some x => rfl
  | none => exact absurd h he

/-- The directory resolved without a parent is the same in a later world with
the same cached base and the same platform temp directory. -/
theorem model_ConstructTempDir_stable (a b : OUString → RC × OUString) (pid : Nat)
    (bCreateParentDirs : Bool) (w w1 : World ModelFS)
    (hbase : w1.gTempNameBase_Impl
      = (ConstructTempDir_Impl (modelOsl a b pid) none bCreateParentDirs w).2.gTempNameBase_Impl)
    (htemp : w1.sys.tempDirURL = w.sys.tempDirURL) :
    (ConstructTempDir_Impl (modelOsl a b pid) none bCreateParentDirs w1).1
      = (ConstructTempDir_Impl (modelOsl a b pid) none bCreateParentDirs w).1 := by
  simp only [ConstructTempDir_Impl, ConstructTempDir_parent, ConstructTempDir_base,
    ensuredir_nil, if_true] at hbase ⊢
  congr 1
  by_cases h1 : w.gTempNameBase_Impl = []
  · simp only [h1, if_true] at hbase ⊢
    by_cases h2 : w.sys.tempDirURL.1 = RC.E_None
    · simp only [modelOsl, h2, if_true] at hbase ⊢
      by_cases h3 : w1.gTempNameBase_Impl = []
      · simp only [h3, if_true, htemp, h2]
      · simp only [h3, if_false]
        exact hbase
    · simp only [modelOsl, h2, if_false] at hbase ⊢
      simp [hbase, h1, htemp, h2]
  · simp only [h1, if_false] at hbase ⊢
    simp [hbase, h1]

/-- The result of the named allocation over the modelled filesystem when file
creation is never refused: the first free candidate, or exhaustion. -/
theorem model_CreateTempURL_result (a b : OUString → RC × OUString) (pid : Nat)
    (rLeadingChars pExtension : OUString) (pParent : Option OUString) (showZero : Bool)
    (w : World ModelFS) (hf : ∀ p, w.sys.fault OsCall.File_open p = none) :
    (∀ k, k < SAL_MAX_UINT32 →
      (∀ j, j < k → w.sys.entries (candidate
        (ConstructTempDir_Impl (modelOsl a b pid) pParent false w).1
        rLeadingChars pExtension showZero j) ≠ none) →
      w.sys.entries (candidate (ConstructTempDir_Impl (modelOsl a b pid) pParent false w).1
        rLeadingChars pExtension showZero k) = none →
      CreateTempURL (modelOsl a b pid) rLeadingChars showZero pExtension pParent false w
        = { name := candidate (ConstructTempDir_Impl (modelOsl a b pid) pParent false w).1
              rLeadingChars pExtension showZero k,
            drawn := (List.range (k + 1)).map (seqTokenOf showZero),
            tokens := Tokens.sequential (seqState showZero (k + 1)),
            world :=
              { (ConstructTempDir_Impl (modelOsl a b pid) pParent false w).2 with
                sys := ModelFS.insert w.sys
                  (candidate (ConstructTempDir_Impl (modelOsl a b pid) pParent false w).1
                    rLeadingChars pExtension showZero k) FileType.Regular } }) ∧
    ((∀ k, k < SAL_MAX_UINT32 → w.sys.entries (candidate
        (ConstructTempDir_Impl (modelOsl a b pid) pParent false w).1
        rLeadingChars pExtension showZero k) ≠ none) →
      CreateTempURL (modelOsl a b pid) rLeadingChars showZero pExtension pParent false w
        = { name := [],
            drawn := (List.range SAL_MAX_UINT32).map (seqTokenOf showZero),
            tokens := Tokens.sequential (seqState showZero SAL_MAX_UINT32),
            world := (ConstructTempDir_Impl (modelOsl a b pid) pParent false w).2 }) := by
  have hsys := (model_ConstructTempDir_frame a b pid pParent false w).1
  have hR : CreateTempURL (modelOsl a b pid) rLeadingChars showZero pExtension pParent false w
      = lcl_createName_loop (modelOsl a b pid)
          ((ConstructTempDir_Impl (modelOsl a b pid) pParent false w).1 ++ rLeadingChars)
          pExtension false true true tokenFuel
          (Tokens.sequential (SequentialTokens.new showZero)) [] []
          (ConstructTempDir_Impl (modelOsl a b pid) pParent false w).2 := by
    simp [CreateTempURL, lcl_createName]
  refine ⟨?_, ?_⟩
  · intro k hk hbefore hfree
    rw [hR, model_loop_found a b pid _ pExtension true true showZero _ k hk
      (fun i hi => ModelFS.createExclusive_exists _ _ _ _ (by rw [hsys]; exact hf _)
        (by rw [hsys]; exact hbefore i hi))
      (by rw [hsys]; exact hf _) (by rw [hsys]; exact hfree)]
    simp only [candidate, hsys]
  · intro hall
    rw [hR, model_loop_exhausted a b pid _ pExtension true true showZero _
      (fun i hi => ModelFS.createExclusive_exists _ _ _ _ (by rw [hsys]; exact hf _)
        (by rw [hsys]; exact hall i hi))]

/-- The named allocation over the modelled filesystem either finds a first
free candidate or exhausts the stream. -/
theorem model_CreateTempURL_cases (a b : OUString → RC × OUString) (pid : Nat)
    (rLeadingChars pExtension : OUString) (pParent : Option OUString) (showZero : Bool)
    (w : World ModelFS) (hf : ∀ p, w.sys.fault OsCall.File_open p = none) :
    (∃ k, k < SAL_MAX_UINT32 ∧
      (∀ j, j < k → w.sys.entries (candidate
        (ConstructTempDir_Impl (modelOsl a b pid) pParent false w).1
        rLeadingChars pExtension showZero j) ≠ none) ∧
      w.sys.entries (candidate (ConstructTempDir_Impl (modelOsl a b pid) pParent false w).1
        rLeadingChars pExtension showZero k) = none ∧
      (CreateTempURL (modelOsl a b pid) rLeadingChars showZero pExtension pParent false w).name
        = candidate (ConstructTempDir_Impl (modelOsl a b pid) pParent false w).1
            rLeadingChars pExtension showZero k ∧
      (CreateTempURL (modelOsl a b pid) rLeadingChars showZero pExtension pParent false
        w).world.sys
        = ModelFS.insert w.sys
            (candidate (ConstructTempDir_Impl (modelOsl a b pid) pParent false w).1
              rLeadingChars pExtension showZero k) FileType.Regular) ∨
    ((∀ k, k < SAL_MAX_UINT32 → w.sys.entries (candidate
        (ConstructTempDir_Impl (modelOsl a b pid) pParent false w).1
        rLeadingChars pExtension showZero k) ≠ none) ∧
      (CreateTempURL (modelOsl a b pid) rLeadingChars showZero pExtension pParent false w).name
        = []) := by
  classical
  obtain ⟨hfound, hnone⟩ := model_CreateTempURL_result a b pid rLeadingChars pExtension
    pParent showZero w hf
  by_cases hex : ∃ k, k < SAL_MAX_UINT32 ∧ w.sys.entries (candidate
      (ConstructTempDir_Impl (modelOsl a b pid) pParent false w).1
      rLeadingChars pExtension showZero k) = none
  · left
    have hspec := Nat.find_spec hex
    have hmin : ∀ j, j < Nat.find hex → w.sys.entries (candidate
        (ConstructTempDir_Impl (modelOsl a b pid) pParent false w).1
        rLeadingChars pExtension showZero j) ≠ none := by
      intro j hj hfree
      exact Nat.find_min hex hj ⟨by omega, hfree⟩
    have hres := hfound (Nat.find hex) hspec.1 hmin hspec.2
    exact ⟨Nat.find hex, hspec.1, hmin, hspec.2, by rw [hres], by rw [hres]⟩
  · right
    have hall : ∀ k, k < SAL_MAX_UINT32 → w.sys.entries (candidate
        (ConstructTempDir_Impl (modelOsl a b pid) pParent false w).1
        rLeadingChars pExtension showZero k) ≠ none := by
      intro k hk hfree
      exact hex ⟨k, hk, hfree⟩
    exact ⟨hall, by rw [hnone hall]⟩

/-- C1. First fit in token order, over the modelled filesystem when file
creation is never refused (it fails only with "already exists").  With `D` the
directory `ConstructTempDir_Impl` resolves and the `k`-th candidate
`D ++ leadingChars ++ token k ++ (ext or .tmp)`, tokens `""`, `"1"`, `"2"`, ...:
`CreateTempURL(leadingChars, false, ext, parent, false)` returns the earliest
candidate not present, after drawing exactly the tokens up to it, and creates
it; it returns the empty string exactly when every candidate of the stream is
present; and a second call with the same arguments in the world the first one
left, resolving the same directory, returns a candidate with a strictly larger
token number (the directory is the same whenever no parent is given). -/
theorem CreateTempURL_first_fit (a b : OUString → RC × OUString) (pid : Nat)
    (rLeadingChars pExtension : OUString) (pParent : Option OUString)
    (w : World ModelFS) (hf : ∀ p, w.sys.fault OsCall.File_open p = none) :
    (∀ k, k < SAL_MAX_UINT32 →
      (∀ j, j < k → w.sys.entries (candidate
        (ConstructTempDir_Impl (modelOsl a b pid) pParent false w).1
        rLeadingChars pExtension false j) ≠ none) →
      w.sys.entries (candidate (ConstructTempDir_Impl (modelOsl a b pid) pParent false w).1
        rLeadingChars pExtension false k) = none →
      (CreateTempURL (modelOsl a b pid) rLeadingChars false pExtension pParent false w).name
        = candidate (ConstructTempDir_Impl (modelOsl a b pid) pParent false w).1
            rLeadingChars pExtension false k ∧
      (CreateTempURL (modelOsl a b pid) rLeadingChars false pExtension pParent false w).drawn
        = (List.range (k + 1)).map (seqTokenOf false) ∧
      (CreateTempURL (modelOsl a b pid) rLeadingChars false pExtension pParent false
        w).world.sys
        = ModelFS.insert w.sys
            (candidate (ConstructTempDir_Impl (modelOsl a b pid) pParent false w).1
              rLeadingChars pExtension false k) FileType.Regular) ∧
    ((CreateTempURL (modelOsl a b pid) rLeadingChars false pExtension pParent false w).name
        = [] ↔
      ∀ k, k < SAL_MAX_UINT32 → w.sys.entries (candidate
        (ConstructTempDir_Impl (modelOsl a b pid) pParent false w).1
        rLeadingChars pExtension false k) ≠ none) ∧
    (∀ k1 k2,
      (ConstructTempDir_Impl (modelOsl a b pid) pParent false
        (CreateTempURL (modelOsl a b pid) rLeadingChars false pExtension pParent false
          w).world).1
        = (ConstructTempDir_Impl (modelOsl a b pid) pParent false w).1 →
      (CreateTempURL (modelOsl a b pid) rLeadingChars false pExtension pParent false w).name
        = candidate (ConstructTempDir_Impl (modelOsl a b pid) pParent false w).1
            rLeadingChars pExtension false k1 →
      (CreateTempURL (modelOsl a b pid) rLeadingChars false pExtension pParent false
        (CreateTempURL (modelOsl a b pid) rLeadingChars false pExtension pParent false
          w).world).name
        = candidate (ConstructTempDir_Impl (modelOsl a b pid) pParent false w).1
            rLeadingChars pExtension false k2 →
      k1 < k2) ∧
    (pParent = none →
      (ConstructTempDir_Impl (modelOsl a b pid) pParent false
        (CreateTempURL (modelOsl a b pid) rLeadingChars false pExtension pParent false
          w).world).1
        = (ConstructTempDir_Impl (modelOsl a b pid) pParent false w).1) := by
  obtain ⟨hfound, hnone⟩ := model_CreateTempURL_result a b pid rLeadingChars pExtension
    pParent false w hf
  have hcases := model_CreateTempURL_cases a b pid rLeadingChars pExtension pParent false w hf
  refine ⟨?_, ?_, ?_, ?_⟩
  · intro k hk hbefore hfree
    have hres := hfound k hk hbefore hfree
    refine ⟨by rw [hres], by rw [hres], by rw [hres]⟩
  · constructor
    · intro hname
      rcases hcases with ⟨k, _, _, _, hn, _⟩ | ⟨hall, _⟩
      · rw [hn] at hname
        exact absurd hname (candidate_ne_nil _ _ _ _ _)
      · exact hall
    · intro hall
      rw [hnone hall]
  · intro k1 k2 hD hn1 hn2
    rcases hcases with ⟨k, hk, hbefore, hfree, hn, hsys⟩ | ⟨_, hempty⟩
    · have hk1 : k1 = k := candidate_injective _ _ _ _ _ _ (hn1.symm.trans hn)
      subst hk1
      have hf2 : ∀ p, (CreateTempURL (modelOsl a b pid) rLeadingChars false pExtension
          pParent false w).world.sys.fault OsCall.File_open p = none := by
        intro p; rw [hsys]; exact hf p
      have hpresent : ∀ j, j ≤ k1 →
          (CreateTempURL (modelOsl a b pid) rLeadingChars false pExtension
            pParent false w).world.sys.entries
            (candidate (ConstructTempDir_Impl (modelOsl a b pid) pParent false w).1
              rLeadingChars pExtension false j) ≠ none := by
        intro j hj
        rw [hsys]
        simp only [ModelFS.insert]
        split_ifs with heq
        · simp
        · exact hbefore j (by
            rcases Nat.lt_or_ge j k1 with h | h
            · exact h
            · exact absurd (by rw [show j = k1 by omega]) heq)
      have hcases2 := model_CreateTempURL_cases a b pid rLeadingChars pExtension pParent
        false _ hf2
      rw [hD] at hcases2
      rcases hcases2 with ⟨k', _, _, hfree', hn', _⟩ | ⟨_, hempty'⟩
      · have hk2 : k2 = k' := candidate_injective _ _ _ _ _ _ (hn2.symm.trans hn')
        subst hk2
        by_contra hle
        exact hpresent k2 (by omega) hfree'
      · rw [hempty'] at hn2
        exact absurd hn2.symm (candidate_ne_nil _ _ _ _ _)
    · rw [hempty] at hn1
      exact absurd hn1.symm (candidate_ne_nil _ _ _ _ _)
  · intro hp
    subst hp
    apply model_ConstructTempDir_stable
    · have hR : CreateTempURL (modelOsl a b pid) rLeadingChars false pExtension none false w
          = lcl_createName_loop (modelOsl a b pid)
              ((ConstructTempDir_Impl (modelOsl a b pid) none false w).1 ++ rLeadingChars)
              pExtension false true true tokenFuel
              (Tokens.sequential (SequentialTokens.new false)) [] []
              (ConstructTempDir_Impl (modelOsl a b pid) none false w).2 := by
        simp [CreateTempURL, lcl_createName]
      rw [hR, lcl_createName_loop_base]
    · rcases hcases with ⟨k, _, _, _, _, hsys⟩ | ⟨hall, _⟩
      · rw [hsys]; rfl
      · rw [hnone hall, (model_ConstructTempDir_frame a b pid none false w).1]

/-! ## The named allocation over the modelled filesystem -/

theorem model_CreateTempURL_eq_loop (a b : OUString → RC × OUString) (pid : Nat)
    (rLeadingChars pExtension : OUString) (pParent : Option OUString) (showZero : Bool)
    (w : World ModelFS) :
    lcl_createName (modelOsl a b pid) rLeadingChars
        (Tokens.sequential (SequentialTokens.new showZero)) pExtension pParent
        false true true false w
      = lcl_createName_loop (modelOsl a b pid)
          ((ConstructTempDir_Impl (modelOsl a b pid) pParent false w).1 ++ rLeadingChars)
          pExtension false true true tokenFuel
          (Tokens.sequential (SequentialTokens.new showZero)) [] []
          (ConstructTempDir_Impl (modelOsl a b pid) pParent false w).2 := by
  simp [lcl_createName]

theorem TempFileNamed.newNamed_eq {σ : Type} (osl : Osl σ) (rLeadingChars : OUString)
    (showZero : Bool) (pExtension : OUString) (pParent : Option OUString)
    (bCreateParentDirs : Bool) (w : World σ) :
    (TempFileNamed.newNamed osl rLeadingChars showZero pExtension pParent
        bCreateParentDirs w).1.aName
      = (lcl_createName osl rLeadingChars
          (Tokens.sequential (SequentialTokens.new showZero)) pExtension pParent
          false true true bCreateParentDirs w).name ∧
    (TempFileNamed.newNamed osl rLeadingChars showZero pExtension pParent
        bCreateParentDirs w).2
      = (lcl_createName osl rLeadingChars
          (Tokens.sequential (SequentialTokens.new showZero)) pExtension pParent
          false true true bCreateParentDirs w).world :=
  ⟨rfl, rfl⟩

/-- C1 at a concrete call: with `myprefix_.tmp` and `myprefix_1.tmp` present
under `file:///tmp/`, the allocation returns the candidate of token `2`. -/
theorem CreateTempURL_first_fit_witness :
    (CreateTempURL plainOsl "myprefix_".toList false ".tmp".toList none false
      (World.initial populatedFS)).name
      = candidate (ConstructTempDir_Impl plainOsl none false (World.initial populatedFS)).1
          "myprefix_".toList ".tmp".toList false 2 :=
  ((CreateTempURL_first_fit (fun p => (RC.E_None, p)) (fun p => (RC.E_None, p)) 4242
    "myprefix_".toList ".tmp".toList none (World.initial populatedFS) (fun _ => rfl)).1 2
    (by decide) (by intro j hj; interval_cases j <;> decide) (by decide)).1

/-! ## The retry budget of a sequential allocation -/

theorem ModelFS.createExclusive_exist_insert (call : OsCall) (t t1 : FileType)
    (path q : OUString) (fs : ModelFS)
    (h : (ModelFS.createExclusive call t path fs).1 = RC.E_EXIST) :
    (ModelFS.createExclusive call t path (fs.insert q t1)).1 = RC.E_EXIST := by
  unfold ModelFS.createExclusive at h ⊢
  simp only [ModelFS.insert]
  cases hf : fs.fault call path with
  | some e =>
    rw [hf] at h
    simp only [] at h ⊢
    by_cases hc : call = OsCall.File_open ∧ e.rc = RC.E_NOLCK
    · rw [if_pos hc] at h ⊢
      cases he : fs.entries path with
      | some x => split_ifs <;> simp [he]
      | none => rw [he] at h; simp at h
    · rw [if_neg hc] at h ⊢
      exact h
  | none =>
    cases he : fs.entries path with
    | some x => split_ifs <;> simp [he]
    | none => simp [hf, he] at h

theorem ModelFS.createExclusive_state (call : OsCall) (t : FileType) (path : OUString)
    (fs : ModelFS) :
    (ModelFS.createExclusive call t path fs).2 = fs ∨
    (ModelFS.createExclusive call t path fs).2 = fs.insert path t := by
  unfold ModelFS.createExclusive
  cases fs.fault call path <;> cases fs.entries path <;> simp <;> split_ifs <;> simp

/-- A sequential allocation in which every candidate collides draws every
token of the stream and returns the empty string. -/
theorem model_CreateTempURL_exhausted (a b : OUString → RC × OUString) (pid : Nat)
    (rLeadingChars pExtension : OUString) (pParent : Option OUString)
    (showZero bCreateParentDirs : Bool) (w : World ModelFS)
    (hp : bCreateParentDirs = true → ∀ p, w.sys.fault OsCall.Directory_createPath p = none)
    (hc : ∀ k, k < SAL_MAX_UINT32 →
      (ModelFS.createExclusive OsCall.File_open FileType.Regular
        (candidate (ConstructTempDir_Impl (modelOsl a b pid) pParent bCreateParentDirs w).1
          rLeadingChars pExtension showZero k) w.sys).1 = RC.E_EXIST) :
    (CreateTempURL (modelOsl a b pid) rLeadingChars showZero pExtension pParent
      bCreateParentDirs w).name = [] ∧
    (CreateTempURL (modelOsl a b pid) rLeadingChars showZero pExtension pParent
      bCreateParentDirs w).drawn = (List.range SAL_MAX_UINT32).map (seqTokenOf showZero) := by
  have hsys := (model_ConstructTempDir_frame a b pid pParent bCreateParentDirs w).1
  cases bCreateParentDirs with
  | false =>
    have := model_loop_exhausted a b pid
      ((ConstructTempDir_Impl (modelOsl a b pid) pParent false w).1 ++ rLeadingChars)
      pExtension true true showZero (ConstructTempDir_Impl (modelOsl a b pid) pParent false w).2
      (fun i hi => by rw [hsys]; exact hc i hi)
    simp only [CreateTempURL, lcl_createName, Bool.false_eq_true, if_false]
    rw [this]
    constructor <;> simp only []
  | true =>
    have hfault := hp rfl
    have hcp : ∀ d, (modelOsl a b pid).Directory_createPath d
        (ConstructTempDir_Impl (modelOsl a b pid) pParent true w).2.sys
        = ModelFS.createExclusive OsCall.Directory_createPath FileType.Directory d w.sys := by
      intro d; rw [hsys]; rfl
    have hrc : ∀ d, (ModelFS.createExclusive OsCall.Directory_createPath FileType.Directory
        d w.sys).1 = RC.E_None ∨
        (ModelFS.createExclusive OsCall.Directory_createPath FileType.Directory
          d w.sys).1 = RC.E_EXIST := by
      intro d
      unfold ModelFS.createExclusive
      rw [hfault d]
      cases w.sys.entries d <;> simp
    have hcond : ∀ d, ((ModelFS.createExclusive OsCall.Directory_createPath FileType.Directory
        d w.sys).1 ≠ RC.E_None &&
        (ModelFS.createExclusive OsCall.Directory_createPath FileType.Directory
          d w.sys).1 ≠ RC.E_EXIST) = false := by
      intro d
      rcases hrc d with h | h <;> simp [h]
    have hcoll : ∀ d i, i < SAL_MAX_UINT32 →
        (ModelFS.createExclusive OsCall.File_open FileType.Regular
          ((ConstructTempDir_Impl (modelOsl a b pid) pParent true w).1 ++ rLeadingChars
            ++ seqTokenOf showZero i ++ extensionOrTmp pExtension)
          (ModelFS.createExclusive OsCall.Directory_createPath FileType.Directory
            d w.sys).2).1 = RC.E_EXIST := by
      intro d i hi
      rcases ModelFS.createExclusive_state OsCall.Directory_createPath FileType.Directory
        d w.sys with h | h
      · rw [h]; exact hc i hi
      · rw [h]; exact ModelFS.createExclusive_exist_insert _ _ _ _ _ _ (hc i hi)
    have hloop := fun d => model_loop_exhausted a b pid
      ((ConstructTempDir_Impl (modelOsl a b pid) pParent true w).1 ++ rLeadingChars)
      pExtension true true showZero
      { (ConstructTempDir_Impl (modelOsl a b pid) pParent true w).2 with
          sys := (ModelFS.createExclusive OsCall.Directory_createPath FileType.Directory
            d w.sys).2 }
      (hcoll d)
    simp only [CreateTempURL, lcl_createName, if_true, hcp, hcond, Bool.false_eq_true,
      if_false, hloop]
    exact ⟨trivial, trivial⟩

/-- C7 (amended). The retry budget of a sequential allocation: the stream
`SequentialTokens(showZero)` yields exactly 2^32 - 1 tokens (every call up to
the `(2^32 - 1)`-th succeeds, every later one fails), so a sequential-token
allocation over the modelled filesystem in which every candidate collides (and
whose parent-directory creation, if requested, is not refused) makes exactly
2^32 - 1 attempts, one for each token drawn, and returns the empty result. -/
theorem SequentialTokens_budget (showZero : Bool) (token : OUString)
    (a b : OUString → RC × OUString) (pid : Nat)
    (rLeadingChars pExtension : OUString) (pParent : Option OUString)
    (bCreateParentDirs : Bool) (w : World ModelFS)
    (hp : bCreateParentDirs = true → ∀ p, w.sys.fault OsCall.Directory_createPath p = none)
    (hc : ∀ k, k < SAL_MAX_UINT32 →
      (ModelFS.createExclusive OsCall.File_open FileType.Regular
        (candidate (ConstructTempDir_Impl (modelOsl a b pid) pParent bCreateParentDirs w).1
          rLeadingChars pExtension showZero k) w.sys).1 = RC.E_EXIST) :
    (∀ n, n < 2 ^ 32 - 1 →
      (((SequentialTokens.new showZero).after n).next token).1 = true) ∧
    (∀ n, 2 ^ 32 - 1 ≤ n →
      (((SequentialTokens.new showZero).after n).next token).1 = false) ∧
    (CreateTempURL (modelOsl a b pid) rLeadingChars showZero pExtension pParent
      bCreateParentDirs w).name = [] ∧
    (CreateTempURL (modelOsl a b pid) rLeadingChars showZero pExtension pParent
      bCreateParentDirs w).drawn.length = 2 ^ 32 - 1 := by
  have h32 : (2 : Nat) ^ 32 - 1 = SAL_MAX_UINT32 := by norm_num [SAL_MAX_UINT32]
  rw [h32]
  obtain ⟨hname, hdrawn⟩ := model_CreateTempURL_exhausted a b pid rLeadingChars pExtension
    pParent showZero bCreateParentDirs w hp hc
  refine ⟨?_, ?_, hname, ?_⟩
  · intro n hn
    by_cases h0 : n = 0
    · subst h0
      simp [SequentialTokens.after, SequentialTokens.new, SequentialTokens.next,
        SAL_MAX_UINT32]
    · rw [SequentialTokens.after_new showZero n (by omega) (by omega),
        SequentialTokens.next_below_ceiling _ _ (by simpa using ne_of_lt hn)]
  · intro n hn
    rw [SequentialTokens.after_ge showZero n hn, SequentialTokens.next_at_ceiling _ _ rfl]
  · rw [hdrawn]
    simp

/-- C7 (amended) at a concrete input: an allocation that shows zero and
creates parent directories, over a filesystem in which every name is taken. -/
theorem SequentialTokens_budget_witness :
    (CreateTempURL plainOsl "doc".toList true [] none true (World.initial fullFS)).name = [] ∧
    (CreateTempURL plainOsl "doc".toList true [] none true
      (World.initial fullFS)).drawn.length = 2 ^ 32 - 1 :=
  (SequentialTokens_budget true [] (fun p => (RC.E_None, p)) (fun p => (RC.E_None, p)) 4242
    "doc".toList [] none true (World.initial fullFS) (fun _ _ => rfl)
    (fun _ _ => rfl)).2.2

/-- C7 as stated fails: after 2^32 - 1 calls the stream is exhausted, so the
2^32-th call of `next` reports failure, and an allocation in which every
candidate collides has drawn 4294967295 = 2^32 - 1 tokens, not 2^32, when it
returns the empty result. -/
theorem SequentialTokens_budget_counterexample :
    (((SequentialTokens.new false).after 4294967295).next []).1 = false ∧
    (CreateTempURL plainOsl "myprefix_".toList false ".tmp".toList none false
      (World.initial fullFS)).name = [] ∧
    (CreateTempURL plainOsl "myprefix_".toList false ".tmp".toList none false
      (World.initial fullFS)).drawn.length = 4294967295 := by
  have hx := model_CreateTempURL_exhausted (fun p => (RC.E_None, p)) (fun p => (RC.E_None, p))
    4242 "myprefix_".toList ".tmp".toList none false false (World.initial fullFS)
    (fun h => absurd h (by decide)) (fun _ _ => rfl)
  refine ⟨?_, hx.1, ?_⟩
  · rw [SequentialTokens.after_ge false 4294967295 (le_refl _),
      SequentialTokens.next_at_ceiling _ _ rfl]
  · have hd : (CreateTempURL plainOsl "myprefix_".toList false ".tmp".toList none false
        (World.initial fullFS)).drawn
        = (List.range SAL_MAX_UINT32).map (seqTokenOf false) := hx.2
    rw [hd]
    simp [SAL_MAX_UINT32]

/-! ## The bound on the number of passes is never reached -/

/-- A successful call of `next` uses up one of the remaining tokens. -/
theorem Tokens.next_remaining {σ : Type} (osl : Osl σ) (tokens : Tokens) (token : OUString)
    (w : World σ) (hv : tokens.valid) (h : (tokens.next osl token w).1 = true) :
    (tokens.next osl token w).2.1.valid ∧
    (tokens.next osl token w).2.1.remaining + 1 = tokens.remaining := by
  cases tokens with
  | sequential t =>
    simp only [Tokens.valid] at hv
    by_cases hm : t.m_value = SAL_MAX_UINT32
    · simp [Tokens.next, SequentialTokens.next_at_ceiling _ _ hm] at h
    · simp only [Tokens.next, SequentialTokens.next_below_ceiling _ _ hm, Tokens.valid,
        Tokens.remaining, toUInt32]
      unfold SAL_MAX_UINT32 at hm ⊢
      omega
  | unique t =>
    simp only [Tokens.valid] at hv
    by_cases hm : t.m_count = 2176782336
    · simp [Tokens.next, UniqueTokens.next_exhausted osl t token w hm] at h
    · have hn := (UniqueTokens.next_globalValue osl t token w hm).2.1
      simp only [Tokens.next, hn, Tokens.valid, Tokens.remaining, toUInt32,
        UniqueTokens.max_eq]
      constructor
      · omega
      · split_ifs <;> omega

/-- The result of the loop does not depend on the bound once the bound
exceeds the number of remaining tokens. -/
theorem lcl_createName_loop_fuel {σ : Type} (osl : Osl σ) (aName pExtension : OUString)
    (bDirectory bKeep bLock : Bool) :
    ∀ (n f1 f2 : Nat) (tokens : Tokens) (token : OUString) (drawn : List OUString)
      (w : World σ), tokens.valid → tokens.remaining ≤ n → n < f1 → n < f2 →
      lcl_createName_loop osl aName pExtension bDirectory bKeep bLock f1 tokens token drawn w
        = lcl_createName_loop osl aName pExtension bDirectory bKeep bLock f2 tokens token
            drawn w := by
  intro n
  induction n with
  | zero =>
    intro f1 f2 tokens token drawn w hv hr h1 h2
    obtain ⟨g1, rfl⟩ : ∃ g, f1 = g + 1 := ⟨f1 - 1, by omega⟩
    obtain ⟨g2, rfl⟩ : ∃ g, f2 = g + 1 := ⟨f2 - 1, by omega⟩
    rw [lcl_createName_loop, lcl_createName_loop]
    cases hb : lcl_createName_body osl aName pExtension bDirectory bKeep bLock
        tokens token drawn w with
    | ret r => rfl
    | again tk t1 d1 w1 =>
      obtain ⟨_, hnext, _, _, _⟩ := lcl_createName_body_again osl aName pExtension
        bDirectory bKeep bLock tokens token drawn w tk t1 d1 w1 hb
      have := (Tokens.next_remaining osl tokens token w hv hnext).2
      omega
  | succ n ih =>
    intro f1 f2 tokens token drawn w hv hr h1 h2
    obtain ⟨g1, rfl⟩ : ∃ g, f1 = g + 1 := ⟨f1 - 1, by omega⟩
    obtain ⟨g2, rfl⟩ : ∃ g, f2 = g + 1 := ⟨f2 - 1, by omega⟩
    rw [lcl_createName_loop, lcl_createName_loop]
    cases hb : lcl_createName_body osl aName pExtension bDirectory bKeep bLock
        tokens token drawn w with
    | ret r => rfl
    | again tk t1 d1 w1 =>
      obtain ⟨_, hnext, htk, _, _⟩ := lcl_createName_body_again osl aName pExtension
        bDirectory bKeep bLock tokens token drawn w tk t1 d1 w1 hb
      have hrem := Tokens.next_remaining osl tokens token w hv hnext
      rw [← htk] at hrem
      exact ih g1 g2 tk t1 d1 w1 hrem.1 (by omega) (by omega) (by omega)

/-- The bound `tokenFuel` of `lcl_createName` exceeds the number of tokens any
stream yields, so the loop of `lcl_createName` ends as the loop of the source
does, by a `return` or by `next` reporting failure: a larger bound gives the
same result. -/
theorem lcl_createName_loop_bound {σ : Type} (osl : Osl σ) (aName pExtension : OUString)
    (bDirectory bKeep bLock : Bool) (fuel : Nat) (tokens : Tokens) (token : OUString)
    (drawn : List OUString) (w : World σ) (hv : tokens.valid) (hfuel : tokenFuel ≤ fuel) :
    lcl_createName_loop osl aName pExtension bDirectory bKeep bLock fuel tokens token drawn w
      = lcl_createName_loop osl aName pExtension bDirectory bKeep bLock tokenFuel tokens
          token drawn w := by
  have hrem : tokens.remaining < tokenFuel := by
    cases tokens with
    | sequential t =>
      simp only [Tokens.remaining, SAL_MAX_UINT32, tokenFuel]
      omega
    | unique t =>
      simp only [Tokens.valid] at hv
      simp only [Tokens.remaining, UniqueTokens.max_eq, tokenFuel]
      split_ifs <;> omega
  exact lcl_createName_loop_fuel osl aName pExtension bDirectory bKeep bLock
    tokens.remaining fuel tokenFuel tokens token drawn w hv (le_refl _)
    (by omega) hrem

/-! ## The passes of the loop, case by case -/

/-- C11. Directory mode, creation failed: when `next` yields a token and the
creation of the directory for its candidate fails with an error other than
"already exists", the loop returns the empty string at once, having drawn this
one token and no further one; when it fails with "already exists", nothing is
returned for this candidate and the loop goes on with the next pass, in the
environment the failed creation left. -/
theorem lcl_createName_directory_failed {σ : Type} (osl : Osl σ)
    (aName pExtension : OUString) (bKeep bLock : Bool) (fuel : Nat) (tokens : Tokens)
    (token : OUString) (drawn : List OUString) (w : World σ)
    (hnext : (tokens.next osl token w).1 = true) :
    (((nextDirectoryCreate osl aName pExtension tokens token w).1 ≠ RC.E_None ∧
      (nextDirectoryCreate osl aName pExtension tokens token w).1 ≠ RC.E_EXIST) →
      lcl_createName_loop osl aName pExtension true bKeep bLock
        (fuel + 1) tokens token drawn w
        = { name := [],
            drawn := drawn ++ [(tokens.next osl token w).2.2.1],
            tokens := (tokens.next osl token w).2.1,
            world :=
              { (tokens.next osl token w).2.2.2 with
                sys := (nextDirectoryCreate osl aName pExtension tokens token w).2 } }) ∧
    ((nextDirectoryCreate osl aName pExtension tokens token w).1 = RC.E_EXIST →
      lcl_createName_loop osl aName pExtension true bKeep bLock
        (fuel + 1) tokens token drawn w
        = lcl_createName_loop osl aName pExtension true bKeep bLock fuel
            (tokens.next osl token w).2.1 (tokens.next osl token w).2.2.1
            (drawn ++ [(tokens.next osl token w).2.2.1])
            { (tokens.next osl token w).2.2.2 with
              sys := (nextDirectoryCreate osl aName pExtension tokens token w).2 }) := by
  unfold nextDirectoryCreate nextCandidate
  refine ⟨?_, ?_⟩
  · intro ⟨h1, h2⟩
    simp only [lcl_createName_loop, lcl_createName_body, hnext, h1, h2, ↓reduceIte,
      Bool.true_eq_false, ne_eq, not_false_eq_true]
  · intro h
    simp only [lcl_createName_loop, lcl_createName_body, hnext, h, ↓reduceIte,
      Bool.true_eq_false, ne_eq, reduceCtorEq, not_true_eq_false]

/-- C11 at a concrete pass: over a filesystem in which every name is taken,
the first pass of an allocation in directory mode goes on to the second. -/
theorem lcl_createName_directory_failed_witness :
    lcl_createName_loop plainOsl "file:///tmp/lu".toList [] true true false
      (1 + 1) (Tokens.sequential (SequentialTokens.new false)) [] [] (World.initial fullFS)
      = lcl_createName_loop plainOsl "file:///tmp/lu".toList [] true true false 1
          (Tokens.sequential { m_value := 1, m_show := true }) [] [[]]
          (World.initial fullFS) :=
  (lcl_createName_directory_failed plainOsl "file:///tmp/lu".toList [] true false 1
    (Tokens.sequential (SequentialTokens.new false)) [] [] (World.initial fullFS)
    (by decide)).2 (by decide)

/-- C12 (amended). File mode, lock contention: in a pass of an allocation that
locks (`bLock` true: the named handle and `CreateTempURL` with leading
characters), a candidate whose open fails with `E_NOLCK` is returned exactly
as a candidate whose open succeeds: same name, same tokens drawn, the opened
file closed.  In an allocation that does not lock (`bLock` false:
`CreateTempName_Impl`, hence the fast handle and the handles and URLs named by
a parent only) `E_NOLCK` is a failure like any other: the result is empty, or
the loop goes on if the candidate names a directory. -/
theorem lcl_createName_lock_contention {σ : Type} (osl : Osl σ)
    (aName pExtension : OUString) (bKeep bLock : Bool) (fuel : Nat) (tokens : Tokens)
    (token : OUString) (drawn : List OUString) (w : World σ)
    (hnext : (tokens.next osl token w).1 = true) :
    ((nextFileOpen osl aName pExtension bLock tokens token w).1 = RC.E_None ∨
      (bLock = true ∧ (nextFileOpen osl aName pExtension bLock tokens token w).1 = RC.E_NOLCK) →
      lcl_createName_loop osl aName pExtension false bKeep bLock
        (fuel + 1) tokens token drawn w
        = { name := nextCandidate osl aName pExtension tokens token w,
            drawn := drawn ++ [(tokens.next osl token w).2.2.1],
            tokens := (tokens.next osl token w).2.1,
            world :=
              { (tokens.next osl token w).2.2.2 with
                sys := osl.File_close (nextCandidate osl aName pExtension tokens token w)
                  (nextFileOpen osl aName pExtension bLock tokens token w).2 } }) ∧
    (bLock = false ∧ (nextFileOpen osl aName pExtension bLock tokens token w).1 = RC.E_NOLCK →
      lcl_createName_loop osl aName pExtension false bKeep bLock
        (fuel + 1) tokens token drawn w
        = if (nextItemGet osl aName pExtension bLock tokens token w).1 ≠ RC.E_None then
            { name := [],
              drawn := drawn ++ [(tokens.next osl token w).2.2.1],
              tokens := (tokens.next osl token w).2.1,
              world :=
                { (tokens.next osl token w).2.2.2 with
                  sys := (nextItemGet osl aName pExtension bLock tokens token w).2 } }
          else if (nextFileStatus osl aName pExtension bLock tokens token w).1.1 ≠ RC.E_None
              ∨ (nextFileStatus osl aName pExtension bLock tokens token w).1.2
                ≠ FileType.Directory then
            { name := [],
              drawn := drawn ++ [(tokens.next osl token w).2.2.1],
              tokens := (tokens.next osl token w).2.1,
              world :=
                { (tokens.next osl token w).2.2.2 with
                  sys := (nextFileStatus osl aName pExtension bLock tokens token w).2 } }
          else
            lcl_createName_loop osl aName pExtension false bKeep bLock fuel
              (tokens.next osl token w).2.1 (tokens.next osl token w).2.2.1
              (drawn ++ [(tokens.next osl token w).2.2.1])
              { (tokens.next osl token w).2.2.2 with
                sys := (nextFileStatus osl aName pExtension bLock tokens token w).2 }) ∧
    (∀ (rLeadingChars pExt : OUString) (showZero : Bool) (pParent : Option OUString)
        (bCreateParentDirs : Bool),
      CreateTempURL osl rLeadingChars showZero pExt pParent bCreateParentDirs w
        = lcl_createName osl rLeadingChars
            (Tokens.sequential (SequentialTokens.new showZero)) pExt pParent
            false true true bCreateParentDirs w ∧
      (TempFileNamed.newNamed osl rLeadingChars showZero pExt pParent bCreateParentDirs
          w).1.aName
        = (lcl_createName osl rLeadingChars
            (Tokens.sequential (SequentialTokens.new showZero)) pExt pParent
            false true true bCreateParentDirs w).name) ∧
    (∀ (pParent : Option OUString) (bKeep1 bDir : Bool),
      CreateTempName_Impl osl pParent bKeep1 bDir w
        = lcl_createName osl ("lu".toList ++ OUString.number osl.getpid 10)
            (Tokens.unique UniqueTokens.new) [] pParent bDir bKeep1 false false w) ∧
    (TempFileFast.GetStream osl TempFileFast.new w).1.mxStream
      = some (SvStream.file (CreateTempName_Impl osl none true false w).name) := by
  unfold nextFileStatus nextItemGet nextFileOpen nextCandidate
  refine ⟨?_, ?_, fun _ _ _ _ _ => ⟨rfl, rfl⟩, fun _ _ _ => rfl, rfl⟩
  · intro h
    have hc : (decide ((osl.File_open
        (aName ++ (tokens.next osl token w).2.2.1 ++ extensionOrTmp pExtension)
        ([OpenFlag.Create, OpenFlag.Private] ++ (if bLock then [] else [OpenFlag.NoLock]))
        (tokens.next osl token w).2.2.2.sys).1 = RC.E_None) ||
        (bLock && decide ((osl.File_open
          (aName ++ (tokens.next osl token w).2.2.1 ++ extensionOrTmp pExtension)
          ([OpenFlag.Create, OpenFlag.Private] ++ (if bLock then [] else [OpenFlag.NoLock]))
          (tokens.next osl token w).2.2.2.sys).1 = RC.E_NOLCK))) = true := by
      rcases h with h | ⟨hb, h⟩
      · rw [h]; rfl
      · rw [h, hb]; rfl
    simp only [lcl_createName_loop, lcl_createName_body, hnext, hc, ↓reduceIte,
      Bool.true_eq_false, Bool.false_eq_true]
  · intro ⟨hb, h⟩
    subst hb
    simp only [Bool.false_eq_true, ↓reduceIte] at h ⊢
    simp only [lcl_createName_loop, lcl_createName_body, hnext, h, ↓reduceIte,
      Bool.true_eq_false, Bool.false_eq_true, Bool.false_and, Bool.or_false,
      decide_eq_true_eq, reduceCtorEq, ne_eq, not_false_eq_true]
    by_cases hg : (osl.DirectoryItem_get
        (aName ++ (tokens.next osl token w).2.2.1 ++ extensionOrTmp pExtension)
        (osl.File_open
          (aName ++ (tokens.next osl token w).2.2.1 ++ extensionOrTmp pExtension)
          ([OpenFlag.Create, OpenFlag.Private] ++ [OpenFlag.NoLock])
          (tokens.next osl token w).2.2.2.sys).2).1 = RC.E_None
    · simp only [hg, not_true_eq_false, ↓reduceIte, Bool.or_eq_true, decide_eq_true_eq,
        decide_not, Bool.not_eq_true', decide_eq_false_iff_not]
      split_ifs <;> rfl
    · simp only [hg, not_false_eq_true, ↓reduceIte]

/-- C12 (amended) at a concrete pass: the named allocation over a filesystem
in which `myprefix_.tmp` is locked returns that name. -/
theorem lcl_createName_lock_contention_witness :
    (lcl_createName_loop plainOsl "file:///tmp/myprefix_".toList ".tmp".toList false true true
      (0 + 1) (Tokens.sequential (SequentialTokens.new false)) [] []
      (World.initial lockedFS)).name = "file:///tmp/myprefix_.tmp".toList := by
  rw [(lcl_createName_lock_contention plainOsl "file:///tmp/myprefix_".toList ".tmp".toList
    true true 0 (Tokens.sequential (SequentialTokens.new false)) [] []
    (World.initial lockedFS) (by decide)).1 (Or.inr ⟨rfl, by decide⟩)]
  decide

/-- C12 as stated fails for the fast handle: over a filesystem in which every
open fails with `E_NOLCK`, `GetStream` draws the token `rs`, the open of its
candidate fails with `E_NOLCK`, and the allocation returns the empty name
instead of the candidate. -/
theorem lcl_createName_lock_contention_counterexample :
    nextCandidate plainOsl "file:///tmp/lu4242".toList [] (Tokens.unique UniqueTokens.new) []
      (ConstructTempDir_Impl plainOsl none false (World.initial noLockFS)).2
      = "file:///tmp/lu4242rs.tmp".toList ∧
    (nextFileOpen plainOsl "file:///tmp/lu4242".toList [] false
      (Tokens.unique UniqueTokens.new) []
      (ConstructTempDir_Impl plainOsl none false (World.initial noLockFS)).2).1
      = RC.E_NOLCK ∧
    (CreateTempName_Impl plainOsl none true false (World.initial noLockFS)).drawn
      = ["rs".toList] ∧
    (CreateTempName_Impl plainOsl none true false (World.initial noLockFS)).name = [] ∧
    (TempFileFast.GetStream plainOsl TempFileFast.new (World.initial noLockFS)).1.mxStream
      = some (SvStream.file []) := by
  decide

/-- C13. File mode, other failures: when `next` yields a token and the open of
its candidate fails with an error that is neither counted as success (no
`E_NONE`, no `E_NOLCK` under `bLock`) nor `E_EXIST`, the loop goes on with the
next pass exactly when `DirectoryItem::get` finds the candidate, its status
can be read and its type is `Directory`; if the item is not found, or the
status cannot be read, or the type is another one, the loop returns the empty
string at once, having drawn no further token. -/
theorem lcl_createName_file_failed {σ : Type} (osl : Osl σ)
    (aName pExtension : OUString) (bKeep bLock : Bool) (fuel : Nat) (tokens : Tokens)
    (token : OUString) (drawn : List OUString) (w : World σ)
    (hnext : (tokens.next osl token w).1 = true)
    (hnone : (nextFileOpen osl aName pExtension bLock tokens token w).1 ≠ RC.E_None)
    (hlock : ¬ (bLock = true ∧
      (nextFileOpen osl aName pExtension bLock tokens token w).1 = RC.E_NOLCK))
    (hexist : (nextFileOpen osl aName pExtension bLock tokens token w).1 ≠ RC.E_EXIST) :
    (((nextItemGet osl aName pExtension bLock tokens token w).1 = RC.E_None ∧
      (nextFileStatus osl aName pExtension bLock tokens token w).1.1 = RC.E_None ∧
      (nextFileStatus osl aName pExtension bLock tokens token w).1.2 = FileType.Directory) →
      lcl_createName_loop osl aName pExtension false bKeep bLock
        (fuel + 1) tokens token drawn w
        = lcl_createName_loop osl aName pExtension false bKeep bLock fuel
            (tokens.next osl token w).2.1 (tokens.next osl token w).2.2.1
            (drawn ++ [(tokens.next osl token w).2.2.1])
            { (tokens.next osl token w).2.2.2 with
              sys := (nextFileStatus osl aName pExtension bLock tokens token w).2 }) ∧
    ((nextItemGet osl aName pExtension bLock tokens token w).1 ≠ RC.E_None →
      lcl_createName_loop osl aName pExtension false bKeep bLock
        (fuel + 1) tokens token drawn w
        = { name := [],
            drawn := drawn ++ [(tokens.next osl token w).2.2.1],
            tokens := (tokens.next osl token w).2.1,
            world :=
              { (tokens.next osl token w).2.2.2 with
                sys := (nextItemGet osl aName pExtension bLock tokens token w).2 } }) ∧
    (((nextItemGet osl aName pExtension bLock tokens token w).1 = RC.E_None ∧
      ((nextFileStatus osl aName pExtension bLock tokens token w).1.1 ≠ RC.E_None ∨
        (nextFileStatus osl aName pExtension bLock tokens token w).1.2
          ≠ FileType.Directory)) →
      lcl_createName_loop osl aName pExtension false bKeep bLock
        (fuel + 1) tokens token drawn w
        = { name := [],
            drawn := drawn ++ [(tokens.next osl token w).2.2.1],
            tokens := (tokens.next osl token w).2.1,
            world :=
              { (tokens.next osl token w).2.2.2 with
                sys := (nextFileStatus osl aName pExtension bLock tokens token w).2 } }) := by
  unfold nextFileStatus nextItemGet nextFileOpen nextCandidate at *
  have hc : (decide ((osl.File_open
      (aName ++ (tokens.next osl token w).2.2.1 ++ extensionOrTmp pExtension)
      ([OpenFlag.Create, OpenFlag.Private] ++ (if bLock then [] else [OpenFlag.NoLock]))
      (tokens.next osl token w).2.2.2.sys).1 = RC.E_None) ||
      (bLock && decide ((osl.File_open
        (aName ++ (tokens.next osl token w).2.2.1 ++ extensionOrTmp pExtension)
        ([OpenFlag.Create, OpenFlag.Private] ++ (if bLock then [] else [OpenFlag.NoLock]))
        (tokens.next osl token w).2.2.2.sys).1 = RC.E_NOLCK))) = false := by
    rw [Bool.or_eq_false_iff]
    refine ⟨decide_eq_false hnone, ?_⟩
    cases bLock with
    | false => rfl
    | true => exact decide_eq_false (fun h => hlock ⟨rfl, h⟩)
  refine ⟨?_, ?_, ?_⟩
  · intro ⟨hg, hs, ht⟩
    simp only [lcl_createName_loop, lcl_createName_body, hnext, hc, hexist, hg, hs, ht,
      ↓reduceIte, Bool.true_eq_false, Bool.false_eq_true, ne_eq, not_false_eq_true,
      not_true_eq_false, decide_False, Bool.or_self]
  · intro hg
    simp only [lcl_createName_loop, lcl_createName_body, hnext, hc, hexist, hg,
      ↓reduceIte, Bool.true_eq_false, Bool.false_eq_true, ne_eq, not_false_eq_true]
  · intro ⟨hg, hst⟩
    have hd : (decide ((osl.DirectoryItem_getFileStatus
        (aName ++ (tokens.next osl token w).2.2.1 ++ extensionOrTmp pExtension)
        (osl.DirectoryItem_get
          (aName ++ (tokens.next osl token w).2.2.1 ++ extensionOrTmp pExtension)
          (osl.File_open
            (aName ++ (tokens.next osl token w).2.2.1 ++ extensionOrTmp pExtension)
            ([OpenFlag.Create, OpenFlag.Private] ++ (if bLock then [] else [OpenFlag.NoLock]))
            (tokens.next osl token w).2.2.2.sys).2).2).1.1 ≠ RC.E_None) ||
        decide ((osl.DirectoryItem_getFileStatus
          (aName ++ (tokens.next osl token w).2.2.1 ++ extensionOrTmp pExtension)
          (osl.DirectoryItem_get
            (aName ++ (tokens.next osl token w).2.2.1 ++ extensionOrTmp pExtension)
            (osl.File_open
              (aName ++ (tokens.next osl token w).2.2.1 ++ extensionOrTmp pExtension)
              ([OpenFlag.Create, OpenFlag.Private] ++ (if bLock then [] else [OpenFlag.NoLock]))
              (tokens.next osl token w).2.2.2.sys).2).2).1.2 ≠ FileType.Directory)) = true := by
      rw [Bool.or_eq_true]
      rcases hst with h | h
      · exact Or.inl (decide_eq_true h)
      · exact Or.inr (decide_eq_true h)
    simp only [lcl_createName_loop, lcl_createName_body, hnext, hc, hexist, hg, hd,
      ↓reduceIte, Bool.true_eq_false, Bool.false_eq_true, ne_eq, not_false_eq_true,
      not_true_eq_false]

/-- C13 at a concrete pass: a directory stands where the first candidate
should go, the open fails with `E_ISDIR`, and the loop goes on. -/
theorem lcl_createName_file_failed_witness :
    lcl_createName_loop plainOsl "file:///tmp/myprefix_".toList ".tmp".toList false true true
      (1 + 1) (Tokens.sequential (SequentialTokens.new false)) [] []
      (World.initial directoryInTheWayFS)
      = lcl_createName_loop plainOsl "file:///tmp/myprefix_".toList ".tmp".toList
          false true true 1
          (Tokens.sequential { m_value := 1, m_show := true }) [] [[]]
          (World.initial directoryInTheWayFS) :=
  (lcl_createName_file_failed plainOsl "file:///tmp/myprefix_".toList ".tmp".toList
    true true 1 (Tokens.sequential (SequentialTokens.new false)) [] []
    (World.initial directoryInTheWayFS) (by decide) (by decide) (by decide) (by decide)).1
    (by decide)

/-- One pass of the loop, with its tests written as propositions about the
answers of the environment. -/
theorem lcl_createName_body_eq {σ : Type} (osl : Osl σ)
    (aName pExtension : OUString) (bDirectory bKeep bLock : Bool) (tokens : Tokens)
    (token : OUString) (drawn : List OUString) (w : World σ) :
    lcl_createName_body osl aName pExtension bDirectory bKeep bLock tokens token drawn w
      = if (tokens.next osl token w).1 = false then
          LoopStep.ret { name := [], drawn := drawn, tokens := (tokens.next osl token w).2.1,
                         world := (tokens.next osl token w).2.2.2 }
        else if bDirectory = true then
          if (nextDirectoryCreate osl aName pExtension tokens token w).1 = RC.E_None then
            if bKeep = true then
              LoopStep.ret
                { name := nextCandidate osl aName pExtension tokens token w,
                  drawn := drawn ++ [(tokens.next osl token w).2.2.1],
                  tokens := (tokens.next osl token w).2.1,
                  world :=
                    { (tokens.next osl token w).2.2.2 with
                      sys := (nextDirectoryCreate osl aName pExtension tokens token w).2 } }
            else if (osl.Directory_remove (nextCandidate osl aName pExtension tokens token w)
                (nextDirectoryCreate osl aName pExtension tokens token w).2).1 = RC.E_None then
              LoopStep.ret
                { name := nextCandidate osl aName pExtension tokens token w,
                  drawn := drawn ++ [(tokens.next osl token w).2.2.1],
                  tokens := (tokens.next osl token w).2.1,
                  world :=
                    { (tokens.next osl token w).2.2.2 with
                      sys := (osl.Directory_remove
                        (nextCandidate osl aName pExtension tokens token w)
                        (nextDirectoryCreate osl aName pExtension tokens token w).2).2 } }
            else
              LoopStep.ret
                { name := [],
                  drawn := drawn ++ [(tokens.next osl token w).2.2.1],
                  tokens := (tokens.next osl token w).2.1,
                  world :=
                    { (tokens.next osl token w).2.2.2 with
                      sys := (osl.Directory_remove
                        (nextCandidate osl aName pExtension tokens token w)
                        (nextDirectoryCreate osl aName pExtension tokens token w).2).2 } }
          else if (nextDirectoryCreate osl aName pExtension tokens token w).1 ≠ RC.E_EXIST then
            LoopStep.ret
              { name := [],
                drawn := drawn ++ [(tokens.next osl token w).2.2.1],
                tokens := (tokens.next osl token w).2.1,
                world :=
                  { (tokens.next osl token w).2.2.2 with
                    sys := (nextDirectoryCreate osl aName pExtension tokens token w).2 } }
          else
            LoopStep.again (tokens.next osl token w).2.1 (tokens.next osl token w).2.2.1
              (drawn ++ [(tokens.next osl token w).2.2.1])
              { (tokens.next osl token w).2.2.2 with
                sys := (nextDirectoryCreate osl aName pExtension tokens token w).2 }
        else if (nextFileOpen osl aName pExtension bLock tokens token w).1 = RC.E_None ∨
            (bLock = true ∧
              (nextFileOpen osl aName pExtension bLock tokens token w).1 = RC.E_NOLCK) then
          LoopStep.ret
            { name := nextCandidate osl aName pExtension tokens token w,
              drawn := drawn ++ [(tokens.next osl token w).2.2.1],
              tokens := (tokens.next osl token w).2.1,
              world :=
                { (tokens.next osl token w).2.2.2 with
                  sys := osl.File_close (nextCandidate osl aName pExtension tokens token w)
                    (nextFileOpen osl aName pExtension bLock tokens token w).2 } }
        else if (nextFileOpen osl aName pExtension bLock tokens token w).1 ≠ RC.E_EXIST then
          if (nextItemGet osl aName pExtension bLock tokens token w).1 ≠ RC.E_None then
            LoopStep.ret
              { name := [],
                drawn := drawn ++ [(tokens.next osl token w).2.2.1],
                tokens := (tokens.next osl token w).2.1,
                world :=
                  { (tokens.next osl token w).2.2.2 with
                    sys := (nextItemGet osl aName pExtension bLock tokens token w).2 } }
          else if (nextFileStatus osl aName pExtension bLock tokens token w).1.1 ≠ RC.E_None ∨
              (nextFileStatus osl aName pExtension bLock tokens token w).1.2
                ≠ FileType.Directory then
            LoopStep.ret
              { name := [],
                drawn := drawn ++ [(tokens.next osl token w).2.2.1],
                tokens := (tokens.next osl token w).2.1,
                world :=
                  { (tokens.next osl token w).2.2.2 with
                    sys := (nextFileStatus osl aName pExtension bLock tokens token w).2 } }
          else
            LoopStep.again (tokens.next osl token w).2.1 (tokens.next osl token w).2.2.1
              (drawn ++ [(tokens.next osl token w).2.2.1])
              { (tokens.next osl token w).2.2.2 with
                sys := (nextFileStatus osl aName pExtension bLock tokens token w).2 }
        else
          LoopStep.again (tokens.next osl token w).2.1 (tokens.next osl token w).2.2.1
            (drawn ++ [(tokens.next osl token w).2.2.1])
            { (tokens.next osl token w).2.2.2 with
              sys := (nextFileOpen osl aName pExtension bLock tokens token w).2 } := by
  unfold lcl_createName_body nextFileStatus nextItemGet nextFileOpen nextDirectoryCreate
    nextCandidate
  simp only [Bool.or_eq_true, Bool.and_eq_true, decide_eq_true_eq]

/-- C14 (amended). Retry discipline.  A pass of the loop goes on to the next
token exactly in these cases: in directory mode, when the creation fails with
"already exists"; in file mode, when the open fails with "already exists", or
when it fails with another error not counted as success and the candidate
names an existing item whose type can be read and is `Directory`.  A pass
that draws a token, whose creation is neither a success nor one of these
cases, returns the empty result having drawn no further token. -/
theorem lcl_createName_retry_discipline {σ : Type} (osl : Osl σ)
    (aName pExtension : OUString) (bDirectory bKeep bLock : Bool) (tokens : Tokens)
    (token : OUString) (drawn : List OUString) (w : World σ) :
    ((∃ tk t1 d1 w1,
        lcl_createName_body osl aName pExtension bDirectory bKeep bLock tokens token drawn w
          = LoopStep.again tk t1 d1 w1) ↔
      ((tokens.next osl token w).1 = true ∧
        ((bDirectory = true ∧
            (nextDirectoryCreate osl aName pExtension tokens token w).1 = RC.E_EXIST) ∨
          (bDirectory = false ∧
            (nextFileOpen osl aName pExtension bLock tokens token w).1 = RC.E_EXIST) ∨
          (bDirectory = false ∧
            (nextFileOpen osl aName pExtension bLock tokens token w).1 ≠ RC.E_None ∧
            ¬ (bLock = true ∧
              (nextFileOpen osl aName pExtension bLock tokens token w).1 = RC.E_NOLCK) ∧
            (nextItemGet osl aName pExtension bLock tokens token w).1 = RC.E_None ∧
            (nextFileStatus osl aName pExtension bLock tokens token w).1.1 = RC.E_None ∧
            (nextFileStatus osl aName pExtension bLock tokens token w).1.2
              = FileType.Directory)))) ∧
    (∀ r,
      lcl_createName_body osl aName pExtension bDirectory bKeep bLock tokens token drawn w
        = LoopStep.ret r →
      (tokens.next osl token w).1 = true →
      (bDirectory = true →
        (nextDirectoryCreate osl aName pExtension tokens token w).1 ≠ RC.E_None) →
      (bDirectory = false →
        (nextFileOpen osl aName pExtension bLock tokens token w).1 ≠ RC.E_None ∧
        ¬ (bLock = true ∧
          (nextFileOpen osl aName pExtension bLock tokens token w).1 = RC.E_NOLCK)) →
      r.name = [] ∧ r.drawn = drawn ++ [(tokens.next osl token w).2.2.1]) := by
  rw [lcl_createName_body_eq]
  by_cases h1 : (tokens.next osl token w).1 = false
  · rw [if_pos h1]
    exact ⟨⟨fun ⟨_, _, _, _, h⟩ => LoopStep.noConfusion h,
        fun h => absurd h.1 (by rw [h1]; decide)⟩,
      fun r _ hn => absurd hn (by rw [h1]; decide)⟩
  rw [if_neg h1]
  have hn : (tokens.next osl token w).1 = true := by simpa using h1
  cases bDirectory with
  | false =>
    rw [if_neg (by decide)]
    by_cases hs : (nextFileOpen osl aName pExtension bLock tokens token w).1 = RC.E_None ∨
        (bLock = true ∧
          (nextFileOpen osl aName pExtension bLock tokens token w).1 = RC.E_NOLCK)
    · rw [if_pos hs]
      refine ⟨⟨fun ⟨_, _, _, _, h⟩ => LoopStep.noConfusion h, fun h => ?_⟩,
        fun r _ _ _ hf => ?_⟩
      · exfalso
        rcases h.2 with ⟨hb, _⟩ | ⟨_, hex⟩ | ⟨_, hne, hnl, _⟩
        · cases hb
        · rcases hs with hs | ⟨_, hs⟩ <;> rw [hex] at hs <;> cases hs
        · rcases hs with hs | hs
          · exact hne hs
          · exact hnl hs
      · exfalso
        rcases hs with hs | hs
        · exact (hf rfl).1 hs
        · exact (hf rfl).2 hs
    · rw [if_neg hs]
      have hne : (nextFileOpen osl aName pExtension bLock tokens token w).1 ≠ RC.E_None :=
        fun h => hs (Or.inl h)
      have hnl : ¬ (bLock = true ∧
          (nextFileOpen osl aName pExtension bLock tokens token w).1 = RC.E_NOLCK) :=
        fun h => hs (Or.inr h)
      by_cases hex : (nextFileOpen osl aName pExtension bLock tokens token w).1 ≠ RC.E_EXIST
      · rw [if_pos hex]
        by_cases hg : (nextItemGet osl aName pExtension bLock tokens token w).1 ≠ RC.E_None
        · rw [if_pos hg]
          refine ⟨⟨fun ⟨_, _, _, _, h⟩ => LoopStep.noConfusion h, fun h => ?_⟩,
            fun r hr _ _ _ => ?_⟩
          · exfalso
            rcases h.2 with ⟨hb, _⟩ | ⟨_, he⟩ | ⟨_, _, _, hg1, _⟩
            · cases hb
            · exact hex he
            · exact hg hg1
          · cases hr
            exact ⟨rfl, rfl⟩
        · rw [if_neg hg]
          by_cases hst :
              (nextFileStatus osl aName pExtension bLock tokens token w).1.1 ≠ RC.E_None ∨
              (nextFileStatus osl aName pExtension bLock tokens token w).1.2
                ≠ FileType.Directory
          · rw [if_pos hst]
            refine ⟨⟨fun ⟨_, _, _, _, h⟩ => LoopStep.noConfusion h, fun h => ?_⟩,
              fun r hr _ _ _ => ?_⟩
            · exfalso
              rcases h.2 with ⟨hb, _⟩ | ⟨_, he⟩ | ⟨_, _, _, _, hs1, hs2⟩
              · cases hb
              · exact hex he
              · rcases hst with h | h
                · exact h hs1
                · exact h hs2
            · cases hr
              exact ⟨rfl, rfl⟩
          · rw [if_neg hst]
            refine ⟨⟨fun _ => ⟨hn, Or.inr (Or.inr ⟨rfl, hne, hnl, not_not.mp hg,
                not_not.mp (fun h => hst (Or.inl h)),
                not_not.mp (fun h => hst (Or.inr h))⟩)⟩,
              fun _ => ⟨_, _, _, _, rfl⟩⟩, fun r hr => LoopStep.noConfusion hr⟩
      · rw [if_neg hex]
        exact ⟨⟨fun _ => ⟨hn, Or.inr (Or.inl ⟨rfl, not_not.mp hex⟩)⟩,
          fun _ => ⟨_, _, _, _, rfl⟩⟩, fun r hr => LoopStep.noConfusion hr⟩
  | true =>
    rw [if_pos rfl]
    by_cases hok : (nextDirectoryCreate osl aName pExtension tokens token w).1 = RC.E_None
    · rw [if_pos hok]
      refine ⟨⟨fun ⟨_, _, _, _, h⟩ => ?_, fun h => ?_⟩, fun r _ _ hd _ => absurd hok (hd rfl)⟩
      · split_ifs at h
      · exfalso
        rcases h.2 with ⟨_, he⟩ | ⟨hb, _⟩ | ⟨hb, _⟩
        · rw [hok] at he; cases he
        · cases hb
        · cases hb
    · rw [if_neg hok]
      by_cases hex : (nextDirectoryCreate osl aName pExtension tokens token w).1 ≠ RC.E_EXIST
      · rw [if_pos hex]
        refine ⟨⟨fun ⟨_, _, _, _, h⟩ => LoopStep.noConfusion h, fun h => ?_⟩,
          fun r hr _ _ _ => ?_⟩
        · exfalso
          rcases h.2 with ⟨_, he⟩ | ⟨hb, _⟩ | ⟨hb, _⟩
          · exact hex he
          · cases hb
          · cases hb
        · cases hr
          exact ⟨rfl, rfl⟩
      · rw [if_neg hex]
        exact ⟨⟨fun _ => ⟨hn, Or.inl ⟨rfl, not_not.mp hex⟩⟩,
          fun _ => ⟨_, _, _, _, rfl⟩⟩, fun r hr => LoopStep.noConfusion hr⟩

/-- C14 as stated fails: a directory stands where the first candidate should
go, the open of that candidate fails with `E_ISDIR`, not with "already
exists", and the allocation still tries the next token and returns its
candidate. -/
theorem lcl_createName_retry_discipline_counterexample :
    (nextFileOpen plainOsl "file:///tmp/myprefix_".toList ".tmp".toList true
      (Tokens.sequential (SequentialTokens.new false)) []
      (ConstructTempDir_Impl plainOsl none false (World.initial directoryInTheWayFS)).2).1
      = RC.E_ISDIR ∧
    (CreateTempURL plainOsl "myprefix_".toList false ".tmp".toList none false
      (World.initial directoryInTheWayFS)).drawn = [[], "1".toList] ∧
    (CreateTempURL plainOsl "myprefix_".toList false ".tmp".toList none false
      (World.initial directoryInTheWayFS)).name = "file:///tmp/myprefix_1.tmp".toList := by
  decide

/-! ## Base-directory resolution -/

theorem ConstructTempDir_separator_cases (aName : OUString) :
    (aName = [] ∧ ConstructTempDir_separator aName = []) ∨
    (aName ≠ [] ∧ endsWithChar aName '/' = true ∧ ConstructTempDir_separator aName = aName) ∨
    (aName ≠ [] ∧ endsWithChar aName '/' = false ∧
      ConstructTempDir_separator aName = aName ++ "/".toList) := by
  unfold ConstructTempDir_separator
  by_cases h : aName = []
  · subst h; left; exact ⟨rfl, rfl⟩
  · cases he : endsWithChar aName '/'
    · right; right
      exact ⟨h, rfl, by simp [h]⟩
    · right; left
      exact ⟨h, rfl, by simp [h]⟩

theorem endsWithChar_append_singleton (s : OUString) (c : Char) :
    endsWithChar (s ++ [c]) c = true := by
  simp [endsWithChar]

/-- The directory with its separator is empty only if the directory is, and
otherwise ends with the separator. -/
theorem ConstructTempDir_separator_spec (aName : OUString) :
    (ConstructTempDir_separator aName = [] ↔ aName = []) ∧
    (aName ≠ [] → endsWithChar (ConstructTempDir_separator aName) '/' = true) := by
  rcases ConstructTempDir_separator_cases aName with ⟨h, hs⟩ | ⟨h, he, hs⟩ | ⟨h, he, hs⟩
  · exact ⟨⟨fun _ => h, fun _ => hs⟩, fun hn => absurd h hn⟩
  · rw [hs]; exact ⟨Iff.rfl, fun _ => he⟩
  · rw [hs]
    refine ⟨⟨fun hx => absurd (List.append_eq_nil.mp hx).1 h, fun hx => absurd hx h⟩, fun _ => ?_⟩
    exact endsWithChar_append_singleton aName '/'

/-- The process-wide base after the second block: unchanged if it was
resolved, else what the platform temp directory gives. -/
theorem ConstructTempDir_base_spec {σ : Type} (osl : Osl σ) (aName : OUString) (w : World σ) :
    (aName ≠ [] → ConstructTempDir_base osl aName w = (aName, w)) ∧
    (aName = [] → w.gTempNameBase_Impl ≠ [] →
      ConstructTempDir_base osl aName w = (w.gTempNameBase_Impl, w)) ∧
    (aName = [] → w.gTempNameBase_Impl = [] →
      ConstructTempDir_base osl aName w
        = ((if (osl.getTempDirURL w.sys).1.1 = RC.E_None
            then (osl.getTempDirURL w.sys).1.2 else []),
           { gTempNameBase_Impl :=
               (if (osl.getTempDirURL w.sys).1.1 = RC.E_None
                then (osl.getTempDirURL w.sys).1.2 else []),
             globalValue := w.globalValue,
             sys := (osl.getTempDirURL w.sys).2 })) := by
  refine ⟨?_, ?_, ?_⟩
  · intro h; simp [ConstructTempDir_base, h]
  · intro h hb; subst h; simp [ConstructTempDir_base, hb]
  · intro h hb
    subst h
    simp only [ConstructTempDir_base, hb, ↓reduceIte, ensuredir_nil]
    split_ifs <;> simp [hb]

/-- The first block for a given parent, with its tests written as
propositions. -/
theorem ConstructTempDir_parent_some {σ : Type} (osl : Osl σ) (parent : OUString)
    (bCreateParentDirs : Bool) (w : World σ) :
    ConstructTempDir_parent osl (some parent) bCreateParentDirs w
      = if parent = [] then ([], w)
        else if (osl.getSystemPathFromFileURL parent).1 ≠ RC.E_None then ([], w)
        else if (osl.getFileURLFromSystemPath (osl.getSystemPathFromFileURL parent).2).1
            ≠ RC.E_None then ([], w)
        else if (osl.DirectoryItem_get (parentLookupName osl (some parent)) w.sys).1
            = RC.E_None ∨ bCreateParentDirs = true then
          (parentURL osl (some parent),
           { w with sys := (osl.DirectoryItem_get (parentLookupName osl (some parent)) w.sys).2 })
        else
          ([], { w with
                 sys := (osl.DirectoryItem_get (parentLookupName osl (some parent)) w.sys).2 }) := by
  simp only [ConstructTempDir_parent, parentURL, parentLookupName, Bool.or_eq_true,
    decide_eq_true_eq]

/-- The first block leaves the process-wide variables alone, and yields the
normalised URL of the parent exactly when the parent is accepted. -/
theorem ConstructTempDir_parent_spec {σ : Type} (osl : Osl σ) (pParent : Option OUString)
    (bCreateParentDirs : Bool) (w : World σ) :
    (ConstructTempDir_parent osl pParent bCreateParentDirs w).2.gTempNameBase_Impl
      = w.gTempNameBase_Impl ∧
    (ConstructTempDir_parent osl pParent bCreateParentDirs w).2.globalValue = w.globalValue ∧
    (parentAccepted osl pParent bCreateParentDirs w →
      (ConstructTempDir_parent osl pParent bCreateParentDirs w).1 = parentURL osl pParent) ∧
    (¬ parentAccepted osl pParent bCreateParentDirs w →
      (ConstructTempDir_parent osl pParent bCreateParentDirs w).1 = []) ∧
    (pParent = none → ConstructTempDir_parent osl pParent bCreateParentDirs w = ([], w)) := by
  cases pParent with
  | none => exact ⟨rfl, rfl, fun h => h.elim, fun _ => rfl, fun _ => rfl⟩
  | some parent =>
    rw [ConstructTempDir_parent_some]
    by_cases h1 : parent = []
    · rw [if_pos h1]
      exact ⟨rfl, rfl, fun h => absurd h1 h.1, fun _ => rfl, fun h => by cases h⟩
    rw [if_neg h1]
    by_cases h2 : (osl.getSystemPathFromFileURL parent).1 ≠ RC.E_None
    · rw [if_pos h2]
      exact ⟨rfl, rfl, fun h => absurd h.2.1 h2, fun _ => rfl, fun h => by cases h⟩
    rw [if_neg h2]
    by_cases h3 : (osl.getFileURLFromSystemPath (osl.getSystemPathFromFileURL parent).2).1
        ≠ RC.E_None
    · rw [if_pos h3]
      exact ⟨rfl, rfl, fun h => absurd h.2.2.1 h3, fun _ => rfl, fun h => by cases h⟩
    rw [if_neg h3]
    by_cases h4 : (osl.DirectoryItem_get (parentLookupName osl (some parent)) w.sys).1
        = RC.E_None ∨ bCreateParentDirs = true
    · rw [if_pos h4]
      exact ⟨rfl, rfl, fun _ => rfl,
        fun h => absurd ⟨h1, not_not.mp h2, not_not.mp h3, h4⟩ h, fun h => by cases h⟩
    · rw [if_neg h4]
      exact ⟨rfl, rfl, fun h => absurd h.2.2.2 h4, fun _ => rfl, fun h => by cases h⟩

/-- C17 (amended). Trailing separator: every non-empty string that
`ConstructTempDir_Impl` returns ends with `/`; the result is the empty string
exactly when the parent is not used and the process-wide base is empty after
the call, which is the case when no parent is given, the base is unresolved
and the platform temp directory cannot be resolved. -/
theorem ConstructTempDir_Impl_trailing_separator {σ : Type} (osl : Osl σ)
    (pParent : Option OUString) (bCreateParentDirs : Bool) (w : World σ) :
    ((ConstructTempDir_Impl osl pParent bCreateParentDirs w).1 ≠ [] →
      endsWithChar (ConstructTempDir_Impl osl pParent bCreateParentDirs w).1 '/' = true) ∧
    ((ConstructTempDir_Impl osl pParent bCreateParentDirs w).1 = [] ↔
      ((ConstructTempDir_parent osl pParent bCreateParentDirs w).1 = [] ∧
        (ConstructTempDir_Impl osl pParent bCreateParentDirs w).2.gTempNameBase_Impl = [])) ∧
    (pParent = none → w.gTempNameBase_Impl = [] →
      (osl.getTempDirURL w.sys).1.1 ≠ RC.E_None →
      (ConstructTempDir_Impl osl pParent bCreateParentDirs w).1 = []) := by
  have hsep := ConstructTempDir_separator_spec
    (ConstructTempDir_base osl (ConstructTempDir_parent osl pParent bCreateParentDirs w).1
      (ConstructTempDir_parent osl pParent bCreateParentDirs w).2).1
  have hbase := ConstructTempDir_base_spec osl
    (ConstructTempDir_parent osl pParent bCreateParentDirs w).1
    (ConstructTempDir_parent osl pParent bCreateParentDirs w).2
  simp only [ConstructTempDir_Impl]
  refine ⟨?_, ?_, ?_⟩
  · intro hne
    exact hsep.2 (fun h => hne (hsep.1.mpr h))
  · rw [hsep.1]
    by_cases h1 : (ConstructTempDir_parent osl pParent bCreateParentDirs w).1 = []
    · by_cases h2 : (ConstructTempDir_parent osl pParent bCreateParentDirs
          w).2.gTempNameBase_Impl = []
      · rw [hbase.2.2 h1 h2]
        simp [h1]
      · rw [hbase.2.1 h1 h2]
        simp [h1]
    · rw [hbase.1 h1]
      simp [h1]
  · intro hp hb hrc
    subst hp
    rw [hsep.1]
    have hpar := (ConstructTempDir_parent_spec osl none bCreateParentDirs w).2.2.2.2 rfl
    rw [hpar] at hbase ⊢
    rw [hbase.2.2 rfl hb]
    simp [hrc]

/-- C17 as stated fails: when the platform temp directory cannot be resolved
and no parent is given, `ConstructTempDir_Impl` returns the empty string, which
does not end with `/`. -/
theorem ConstructTempDir_Impl_trailing_separator_counterexample :
    (ConstructTempDir_Impl plainOsl none false (World.initial noTempDirFS)).1 = [] ∧
    endsWithChar (ConstructTempDir_Impl plainOsl none false (World.initial noTempDirFS)).1 '/'
      = false := by
  decide

/-- C18. Parent acceptance: `ConstructTempDir_Impl` returns the
round-trip-normalised URL of the caller's parent, with `/` appended if missing,
when the parent is given and not empty, both conversions succeed, and the
directory (looked up without its trailing `/`) exists or `bCreateParentDirs` is
set; in every other case it returns the process-wide base directory as it is
after the call, with `/` appended if missing.  A successful conversion is
taken to yield a non-empty URL. -/
theorem ConstructTempDir_Impl_parent_acceptance {σ : Type} (osl : Osl σ)
    (pParent : Option OUString) (bCreateParentDirs : Bool) (w : World σ)
    (hURL : parentAccepted osl pParent bCreateParentDirs w → parentURL osl pParent ≠ []) :
    (parentAccepted osl pParent bCreateParentDirs w →
      (ConstructTempDir_Impl osl pParent bCreateParentDirs w).1
        = (if endsWithChar (parentURL osl pParent) '/' then parentURL osl pParent
           else parentURL osl pParent ++ "/".toList)) ∧
    (¬ parentAccepted osl pParent bCreateParentDirs w →
      (ConstructTempDir_Impl osl pParent bCreateParentDirs w).1
        = ConstructTempDir_separator
            (ConstructTempDir_Impl osl pParent bCreateParentDirs w).2.gTempNameBase_Impl ∧
      ((ConstructTempDir_Impl osl pParent bCreateParentDirs w).2.gTempNameBase_Impl ≠ [] →
        (ConstructTempDir_Impl osl pParent bCreateParentDirs w).1
          = (if endsWithChar
                (ConstructTempDir_Impl osl pParent bCreateParentDirs w).2.gTempNameBase_Impl '/'
             then (ConstructTempDir_Impl osl pParent bCreateParentDirs w).2.gTempNameBase_Impl
             else (ConstructTempDir_Impl osl pParent bCreateParentDirs w).2.gTempNameBase_Impl
               ++ "/".toList))) := by
  have hpar := ConstructTempDir_parent_spec osl pParent bCreateParentDirs w
  have hbase := ConstructTempDir_base_spec osl
    (ConstructTempDir_parent osl pParent bCreateParentDirs w).1
    (ConstructTempDir_parent osl pParent bCreateParentDirs w).2
  have hsepif : ∀ s : OUString, s ≠ [] →
      ConstructTempDir_separator s = (if endsWithChar s '/' then s else s ++ "/".toList) := by
    intro s hs
    rcases ConstructTempDir_separator_cases s with ⟨h, _⟩ | ⟨_, he, h⟩ | ⟨_, he, h⟩
    · exact absurd h hs
    · rw [h, he]; rfl
    · rw [h, he]; rfl
  simp only [ConstructTempDir_Impl]
  refine ⟨?_, ?_⟩
  · intro hacc
    have hne := hURL hacc
    have h1 := hpar.2.2.1 hacc
    rw [hbase.1 (by rw [h1]; exact hne), h1]
    exact hsepif _ hne
  · intro hacc
    have h1 := hpar.2.2.2.1 hacc
    have key : (ConstructTempDir_base osl
        (ConstructTempDir_parent osl pParent bCreateParentDirs w).1
        (ConstructTempDir_parent osl pParent bCreateParentDirs w).2).1
        = (ConstructTempDir_base osl
            (ConstructTempDir_parent osl pParent bCreateParentDirs w).1
            (ConstructTempDir_parent osl pParent bCreateParentDirs w).2).2.gTempNameBase_Impl := by
      by_cases h2 : (ConstructTempDir_parent osl pParent bCreateParentDirs
          w).2.gTempNameBase_Impl = []
      · rw [hbase.2.2 h1 h2]
      · rw [hbase.2.1 h1 h2]
    refine ⟨by rw [key], fun hne => ?_⟩
    rw [key]
    exact hsepif _ hne

/-- C18 at a concrete call: a parent given with `bCreateParentDirs` set. -/
theorem ConstructTempDir_Impl_parent_acceptance_witness :
    (ConstructTempDir_Impl plainOsl (some "file:///home/user".toList) true
      (World.initial emptyFS)).1 = "file:///home/user/".toList := by
  rw [(ConstructTempDir_Impl_parent_acceptance plainOsl (some "file:///home/user".toList) true
    (World.initial emptyFS) (fun _ => by decide)).1 (by decide)]
  decide

/-! ## The cached base directory -/

theorem lcl_createName_body_withTempDirURL {σ : Type} (osl : Osl σ)
    (g : σ → (RC × OUString) × σ) (aName pExtension : OUString)
    (bDirectory bKeep bLock : Bool) (tokens : Tokens) (token : OUString)
    (drawn : List OUString) (w : World σ) :
    lcl_createName_body (osl.withTempDirURL g) aName pExtension bDirectory bKeep bLock
        tokens token drawn w
      = lcl_createName_body osl aName pExtension bDirectory bKeep bLock tokens token drawn w := by
  cases tokens <;> rfl

/-- The loop never asks for the platform temp directory. -/
theorem lcl_createName_loop_withTempDirURL {σ : Type} (osl : Osl σ)
    (g : σ → (RC × OUString) × σ) (aName pExtension : OUString)
    (bDirectory bKeep bLock : Bool) :
    ∀ (fuel : Nat) (tokens : Tokens) (token : OUString) (drawn : List OUString)
      (w : World σ),
      lcl_createName_loop (osl.withTempDirURL g) aName pExtension bDirectory bKeep bLock
          fuel tokens token drawn w
        = lcl_createName_loop osl aName pExtension bDirectory bKeep bLock fuel tokens token
            drawn w := by
  intro fuel
  induction fuel with
  | zero => intro tokens token drawn w; rfl
  | succ fuel ih =>
    intro tokens token drawn w
    rw [lcl_createName_loop, lcl_createName_loop, lcl_createName_body_withTempDirURL]
    cases lcl_createName_body osl aName pExtension bDirectory bKeep bLock tokens token drawn w with
    | ret r => rfl
    | again tk t1 d1 w1 => exact ih tk t1 d1 w1

/-- With a resolved base, `ConstructTempDir_Impl` keeps the base and does not
ask for the platform temp directory. -/
theorem ConstructTempDir_Impl_resolved {σ : Type} (osl : Osl σ)
    (pParent : Option OUString) (bCreateParentDirs : Bool) (w : World σ)
    (hres : w.gTempNameBase_Impl ≠ []) :
    (ConstructTempDir_Impl osl pParent bCreateParentDirs w).2.gTempNameBase_Impl
      = w.gTempNameBase_Impl ∧
    (∀ g, ConstructTempDir_Impl (osl.withTempDirURL g) pParent bCreateParentDirs w
      = ConstructTempDir_Impl osl pParent bCreateParentDirs w) := by
  have hpar := ConstructTempDir_parent_spec osl pParent bCreateParentDirs w
  have hres1 : (ConstructTempDir_parent osl pParent bCreateParentDirs w).2.gTempNameBase_Impl
      ≠ [] := by rw [hpar.1]; exact hres
  have hbase : ∀ (o : Osl σ), ConstructTempDir_base o
      (ConstructTempDir_parent osl pParent bCreateParentDirs w).1
      (ConstructTempDir_parent osl pParent bCreateParentDirs w).2
      = (if (ConstructTempDir_parent osl pParent bCreateParentDirs w).1 = []
          then (ConstructTempDir_parent osl pParent bCreateParentDirs w).2.gTempNameBase_Impl
          else (ConstructTempDir_parent osl pParent bCreateParentDirs w).1,
         (ConstructTempDir_parent osl pParent bCreateParentDirs w).2) := by
    intro o
    by_cases h1 : (ConstructTempDir_parent osl pParent bCreateParentDirs w).1 = []
    · rw [(ConstructTempDir_base_spec o _ _).2.1 h1 hres1, if_pos h1]
    · rw [(ConstructTempDir_base_spec o _ _).1 h1, if_neg h1]
  have hparg : ∀ g, ConstructTempDir_parent (osl.withTempDirURL g) pParent bCreateParentDirs w
      = ConstructTempDir_parent osl pParent bCreateParentDirs w := by
    intro g
    cases pParent <;> rfl
  refine ⟨?_, ?_⟩
  · simp only [ConstructTempDir_Impl, hbase osl]
    exact hpar.1
  · intro g
    simp only [ConstructTempDir_Impl, hparg g, hbase]

/-- C19. The cached base directory is stable: once `gTempNameBase_Impl` is
resolved (not empty), a call of `ConstructTempDir_Impl` leaves it as it is and
has the same result whatever the platform temp directory would answer, so it
does not query it; the same holds for every allocation through
`lcl_createName`, and `GetTempNameBaseDirectory` leaves the whole world as it
is.  The token streams do not write the base either. -/
theorem gTempNameBase_stable {σ : Type} (osl : Osl σ) (w : World σ)
    (hres : w.gTempNameBase_Impl ≠ []) :
    (∀ (pParent : Option OUString) (bCreateParentDirs : Bool),
      (ConstructTempDir_Impl osl pParent bCreateParentDirs w).2.gTempNameBase_Impl
        = w.gTempNameBase_Impl ∧
      (∀ g, ConstructTempDir_Impl (osl.withTempDirURL g) pParent bCreateParentDirs w
        = ConstructTempDir_Impl osl pParent bCreateParentDirs w)) ∧
    (∀ (rLeadingChars : OUString) (tokens : Tokens) (pExtension : OUString)
        (pParent : Option OUString) (bDirectory bKeep bLock bCreateParentDirs : Bool),
      (lcl_createName osl rLeadingChars tokens pExtension pParent bDirectory bKeep bLock
        bCreateParentDirs w).world.gTempNameBase_Impl = w.gTempNameBase_Impl ∧
      (∀ g, lcl_createName (osl.withTempDirURL g) rLeadingChars tokens pExtension pParent
          bDirectory bKeep bLock bCreateParentDirs w
        = lcl_createName osl rLeadingChars tokens pExtension pParent bDirectory bKeep bLock
            bCreateParentDirs w)) ∧
    GetTempNameBaseDirectory osl w = (ConstructTempDir_separator w.gTempNameBase_Impl, w) ∧
    (∀ g, GetTempNameBaseDirectory (osl.withTempDirURL g) w = GetTempNameBaseDirectory osl w) ∧
    (∀ (tokens : Tokens) (token : OUString),
      (tokens.next osl token w).2.2.2.gTempNameBase_Impl = w.gTempNameBase_Impl) := by
  refine ⟨fun p b => ConstructTempDir_Impl_resolved osl p b w hres, ?_, ?_,
    fun g => (ConstructTempDir_Impl_resolved osl none false w hres).2 g,
    fun tokens token => Tokens.next_base osl tokens token w⟩
  · intro L tokens E p bD bK bL cpd
    have hctd := ConstructTempDir_Impl_resolved osl p cpd w hres
    refine ⟨?_, ?_⟩
    · unfold lcl_createName
      simp only []
      split_ifs
      · exact hctd.1
      · rw [lcl_createName_loop_base]; exact hctd.1
      · rw [lcl_createName_loop_base]; exact hctd.1
    · intro g
      unfold lcl_createName
      simp only [hctd.2 g, lcl_createName_loop_withTempDirURL]
      rfl
  · unfold GetTempNameBaseDirectory
    simp only [ConstructTempDir_Impl, ConstructTempDir_parent]
    rw [(ConstructTempDir_base_spec osl [] w).2.1 rfl hres]

/-- C19 at a concrete world: after a first allocation has resolved the base,
a second allocation leaves it as it is. -/
theorem gTempNameBase_stable_witness :
    (lcl_createName plainOsl "doc".toList (Tokens.unique UniqueTokens.new) [] none
      false true false false
      (CreateTempName plainOsl (World.initial emptyFS)).2).world.gTempNameBase_Impl
      = (CreateTempName plainOsl (World.initial emptyFS)).2.gTempNameBase_Impl :=
  ((gTempNameBase_stable plainOsl (CreateTempName plainOsl (World.initial emptyFS)).2
    (by decide)).2.1 "doc".toList (Tokens.unique UniqueTokens.new) [] none
    false true false false).1

/-- C20 (amended). `GetTempNameBaseDirectory` reads the base when it is
resolved: the world is left as it is and the base is returned with its
separator.  When the base is unresolved it forces the resolution: it asks for
the platform temp directory, stores the answer in `gTempNameBase_Impl` if the
query succeeds, and returns the base so obtained with its separator. -/
theorem GetTempNameBaseDirectory_effect {σ : Type} (osl : Osl σ) (w : World σ) :
    (w.gTempNameBase_Impl ≠ [] →
      GetTempNameBaseDirectory osl w = (ConstructTempDir_separator w.gTempNameBase_Impl, w)) ∧
    (w.gTempNameBase_Impl = [] →
      (GetTempNameBaseDirectory osl w).2
        = { gTempNameBase_Impl :=
              (if (osl.getTempDirURL w.sys).1.1 = RC.E_None
               then (osl.getTempDirURL w.sys).1.2 else []),
            globalValue := w.globalValue,
            sys := (osl.getTempDirURL w.sys).2 } ∧
      (GetTempNameBaseDirectory osl w).1
        = ConstructTempDir_separator
            (if (osl.getTempDirURL w.sys).1.1 = RC.E_None
             then (osl.getTempDirURL w.sys).1.2 else [])) := by
  refine ⟨?_, ?_⟩
  · intro hres
    unfold GetTempNameBaseDirectory
    simp only [ConstructTempDir_Impl, ConstructTempDir_parent]
    rw [(ConstructTempDir_base_spec osl [] w).2.1 rfl hres]
  · intro hres
    unfold GetTempNameBaseDirectory
    simp only [ConstructTempDir_Impl, ConstructTempDir_parent]
    rw [(ConstructTempDir_base_spec osl [] w).2.2 rfl hres]
    exact ⟨rfl, rfl⟩

/-- C20 as stated fails: at process start the base is unresolved (empty), and
after `GetTempNameBaseDirectory` it holds the platform temp directory. -/
theorem GetTempNameBaseDirectory_effect_counterexample :
    (World.initial emptyFS).gTempNameBase_Impl = [] ∧
    (GetTempNameBaseDirectory plainOsl (World.initial emptyFS)).2.gTempNameBase_Impl
      = "file:///tmp".toList ∧
    (GetTempNameBaseDirectory plainOsl (World.initial emptyFS)).1 = "file:///tmp/".toList := by
  decide

/-! ## The effect of an allocation on the modelled filesystem, any mode -/

/-- Drawing a token changes neither the entries, nor the refusals, nor the
platform temp directory. -/
theorem model_next_frame (a b : OUString → RC × OUString) (pid : Nat) (tokens : Tokens)
    (token : OUString) (w : World ModelFS) :
    (tokens.next (modelOsl a b pid) token w).2.2.2.sys.entries = w.sys.entries ∧
    (tokens.next (modelOsl a b pid) token w).2.2.2.sys.fault = w.sys.fault ∧
    (tokens.next (modelOsl a b pid) token w).2.2.2.sys.tempDirURL = w.sys.tempDirURL := by
  cases tokens with
  | sequential t => exact ⟨rfl, rfl, rfl⟩
  | unique t =>
    simp only [Tokens.next, UniqueTokens.next]
    split_ifs <;> exact ⟨rfl, rfl, rfl⟩

theorem ModelFS.createExclusive_cases (call : OsCall) (t : FileType) (path : OUString)
    (fs : ModelFS) :
    ((ModelFS.createExclusive call t path fs).1 = RC.E_None ∧ fs.fault call path = none ∧
      fs.entries path = none ∧ (ModelFS.createExclusive call t path fs).2 = fs.insert path t) ∨
    ((ModelFS.createExclusive call t path fs).1 = RC.E_NOLCK ∧ call = OsCall.File_open ∧
      (fs.fault call path).map Fault.rc = some RC.E_NOLCK ∧
      fs.entries path = none ∧ (ModelFS.createExclusive call t path fs).2 = fs.insert path t) ∨
    ((ModelFS.createExclusive call t path fs).1 ≠ RC.E_None ∧
      (call = OsCall.File_open → (ModelFS.createExclusive call t path fs).1 ≠ RC.E_NOLCK) ∧
      (ModelFS.createExclusive call t path fs).2 = fs) := by
  by_cases h : (ModelFS.createExclusive call t path fs).1 = RC.E_None
  · have hfe := (ModelFS.createExclusive_ok_iff call t path fs).mp h
    left
    exact ⟨h, hfe.1, hfe.2, by rw [ModelFS.createExclusive_ok call t path fs hfe.1 hfe.2]⟩
  · right
    by_cases hl : (ModelFS.createExclusive call t path fs).1 = RC.E_NOLCK
    · by_cases hcall : call = OsCall.File_open
      · left
        subst hcall
        have hlc := ModelFS.createExclusive_lock_contention t path fs hl
        exact ⟨hl, rfl, ModelFS.createExclusive_nolck _ t path fs hl, hlc.1, hlc.2⟩
      · right
        exact ⟨h, fun hx => absurd hx hcall,
          ModelFS.createExclusive_directory_failed call t path fs hcall h⟩
    · right
      exact ⟨h, fun _ => hl, ModelFS.createExclusive_failed call t path fs h hl⟩

/-- The status of a name that is answered without an error is the type of its
entry. -/
theorem ModelFS.getStatus_type (path : OUString) (fs : ModelFS)
    (h : (ModelFS.getStatus path fs).1.1 = RC.E_None) :
    fs.entries path = some (ModelFS.getStatus path fs).1.2 := by
  unfold ModelFS.getStatus at h ⊢
  cases hf : fs.fault OsCall.getFileStatus path with
  | some e =>
    rw [hf] at h
    exact absurd h e.isError
  | none =>
    cases he : fs.entries path with
    | some x => rfl
    | none =>
      rw [hf, he] at h
      exact RC.noConfusion h

theorem ModelFS.removeDirectory_cases (path : OUString) (fs : ModelFS) :
    ((ModelFS.removeDirectory path fs).1 = RC.E_None ∧
      (ModelFS.removeDirectory path fs).2 = fs.erase path) ∨
    ((ModelFS.removeDirectory path fs).1 ≠ RC.E_None ∧
      (ModelFS.removeDirectory path fs).2 = fs ∧
      (fs.fault OsCall.Directory_remove path ≠ none ∨
        fs.entries path ≠ some FileType.Directory)) := by
  unfold ModelFS.removeDirectory
  cases hf : fs.fault OsCall.Directory_remove path with
  | some e => right; exact ⟨e.isError, rfl, Or.inl (by simp)⟩
  | none =>
    cases he : fs.entries path with
    | none => right; exact ⟨fun h => RC.noConfusion h, rfl, Or.inr (by simp)⟩
    | some x =>
      cases x <;>
        first
          | (left; exact ⟨rfl, rfl⟩)
          | (right; exact ⟨fun h => RC.noConfusion h, rfl, Or.inr (by simp)⟩)

theorem ModelFS.erase_insert_entries (fs : ModelFS) (path : OUString) (t : FileType)
    (h : fs.entries path = none) : ((fs.insert path t).erase path).entries = fs.entries := by
  funext q
  simp only [ModelFS.erase, ModelFS.insert]
  split_ifs with hq
  · rw [hq, h]
  · rfl

theorem ModelFS.allocationEffect_congr (bDirectory bKeep bLock : Bool) (fs fs0 : ModelFS)
    (name : OUString) (fs1 : ModelFS) (he : fs0.entries = fs.entries)
    (hf : fs0.fault = fs.fault) (ht : fs0.tempDirURL = fs.tempDirURL)
    (h : ModelFS.allocationEffect bDirectory bKeep bLock fs0 name fs1) :
    ModelFS.allocationEffect bDirectory bKeep bLock fs name fs1 := by
  have hins : ∀ p t, (fs0.insert p t).entries = (fs.insert p t).entries := by
    intro p t
    simp only [ModelFS.insert, he]
  unfold ModelFS.allocationEffect at h ⊢
  simp only [he, hf, hins, ht] at h
  exact h

/-- An allocation that returns the empty string and leaves the entries as they
were, or leaves behind a file created under lock contention without locking,
has one of the allocation effects. -/
theorem ModelFS.allocationEffect_failed (bDirectory bKeep bLock : Bool) (fs fs1 : ModelFS)
    (hf : fs1.fault = fs.fault) (ht : fs1.tempDirURL = fs.tempDirURL)
    (h : fs1.entries = fs.entries ∨
      (bDirectory = false ∧ bLock = false ∧ ∃ p, fs.entries p = none ∧
        (fs.fault OsCall.File_open p).map Fault.rc = some RC.E_NOLCK ∧
        fs1.entries = (fs.insert p FileType.Regular).entries)) :
    ModelFS.allocationEffect bDirectory bKeep bLock fs [] fs1 := by
  unfold ModelFS.allocationEffect
  rcases h with h | ⟨h1, h2, h3⟩
  · exact ⟨hf, Or.inl ⟨h, Or.inl rfl⟩, ht⟩
  · exact ⟨hf, Or.inr (Or.inr (Or.inr ⟨rfl, h1, h2, h3⟩)), ht⟩

theorem nextCandidate_ne_nil {σ : Type} (osl : Osl σ) (aName pExtension : OUString)
    (tokens : Tokens) (token : OUString) (w : World σ) :
    nextCandidate osl aName pExtension tokens token w ≠ [] := by
  unfold nextCandidate
  intro h
  exact extensionOrTmp_ne_nil pExtension (List.append_eq_nil.mp h).2

/-- One pass of the loop over the modelled filesystem, any mode: a pass that
goes on changes neither entries, refusals nor the platform temp directory, and
a pass that returns has one of the allocation effects. -/
theorem model_body_effect (a b : OUString → RC × OUString) (pid : Nat)
    (aName pExtension : OUString) (bDirectory bKeep bLock : Bool) (tokens : Tokens)
    (token : OUString) (drawn : List OUString) (w : World ModelFS) :
    (∀ tk t1 d1 w1,
      lcl_createName_body (modelOsl a b pid) aName pExtension bDirectory bKeep bLock
        tokens token drawn w = LoopStep.again tk t1 d1 w1 →
      w1.sys.entries = w.sys.entries ∧ w1.sys.fault = w.sys.fault ∧
        w1.sys.tempDirURL = w.sys.tempDirURL) ∧
    (∀ r,
      lcl_createName_body (modelOsl a b pid) aName pExtension bDirectory bKeep bLock
        tokens token drawn w = LoopStep.ret r →
      ModelFS.allocationEffect bDirectory bKeep bLock w.sys r.name r.world.sys) := by
  have hn := model_next_frame a b pid tokens token w
  have hcand := nextCandidate_ne_nil (modelOsl a b pid) aName pExtension tokens token w
  have hD := ModelFS.createExclusive_cases OsCall.Directory_create FileType.Directory
    (nextCandidate (modelOsl a b pid) aName pExtension tokens token w)
    (tokens.next (modelOsl a b pid) token w).2.2.2.sys
  have hDeq : nextDirectoryCreate (modelOsl a b pid) aName pExtension tokens token w
      = ModelFS.createExclusive OsCall.Directory_create FileType.Directory
        (nextCandidate (modelOsl a b pid) aName pExtension tokens token w)
        (tokens.next (modelOsl a b pid) token w).2.2.2.sys := rfl
  rw [← hDeq] at hD
  have hR := ModelFS.removeDirectory_cases
    (nextCandidate (modelOsl a b pid) aName pExtension tokens token w)
    (nextDirectoryCreate (modelOsl a b pid) aName pExtension tokens token w).2
  have hReq : (modelOsl a b pid).Directory_remove
      (nextCandidate (modelOsl a b pid) aName pExtension tokens token w)
      (nextDirectoryCreate (modelOsl a b pid) aName pExtension tokens token w).2
      = ModelFS.removeDirectory
        (nextCandidate (modelOsl a b pid) aName pExtension tokens token w)
        (nextDirectoryCreate (modelOsl a b pid) aName pExtension tokens token w).2 := rfl
  rw [← hReq] at hR
  have hOeq : nextFileOpen (modelOsl a b pid) aName pExtension bLock tokens token w
      = ModelFS.createExclusive OsCall.File_open FileType.Regular
        (nextCandidate (modelOsl a b pid) aName pExtension tokens token w)
        (tokens.next (modelOsl a b pid) token w).2.2.2.sys := by
    unfold nextFileOpen
    exact modelOsl_File_open a b pid _ bLock _
  have hO := ModelFS.createExclusive_cases OsCall.File_open FileType.Regular
    (nextCandidate (modelOsl a b pid) aName pExtension tokens token w)
    (tokens.next (modelOsl a b pid) token w).2.2.2.sys
  have hOl := ModelFS.createExclusive_nolck OsCall.File_open FileType.Regular
    (nextCandidate (modelOsl a b pid) aName pExtension tokens token w)
    (tokens.next (modelOsl a b pid) token w).2.2.2.sys
  rw [← hOeq] at hO hOl
  have hC : ∀ fs, (modelOsl a b pid).File_close
      (nextCandidate (modelOsl a b pid) aName pExtension tokens token w) fs = fs :=
    fun _ => rfl
  have hI : (nextItemGet (modelOsl a b pid) aName pExtension bLock tokens token w).2
      = (nextFileOpen (modelOsl a b pid) aName pExtension bLock tokens token w).2 :=
    ModelFS.getItem_state _ _
  have hS : (nextFileStatus (modelOsl a b pid) aName pExtension bLock tokens token w).2
      = (nextItemGet (modelOsl a b pid) aName pExtension bLock tokens token w).2 :=
    ModelFS.getStatus_state _ _
  have hSt : (nextFileStatus (modelOsl a b pid) aName pExtension bLock tokens token w).1.1
        = RC.E_None →
      (nextItemGet (modelOsl a b pid) aName pExtension bLock tokens token w).2.entries
        (nextCandidate (modelOsl a b pid) aName pExtension tokens token w)
        = some (nextFileStatus (modelOsl a b pid) aName pExtension bLock tokens token w).1.2 :=
    ModelFS.getStatus_type _ _
  rw [lcl_createName_body_eq]
  generalize nextCandidate (modelOsl a b pid) aName pExtension tokens token w = cand
    at hcand hD hR hO hOl hC hSt
  generalize (modelOsl a b pid).Directory_remove cand
    (nextDirectoryCreate (modelOsl a b pid) aName pExtension tokens token w).2 = R at hR
  generalize nextDirectoryCreate (modelOsl a b pid) aName pExtension tokens token w = D
    at hD hR
  generalize nextFileStatus (modelOsl a b pid) aName pExtension bLock tokens token w = S
    at hS hSt
  generalize nextItemGet (modelOsl a b pid) aName pExtension bLock tokens token w = I
    at hI hS hSt
  generalize nextFileOpen (modelOsl a b pid) aName pExtension bLock tokens token w = O
    at hO hOl hI
  generalize tokens.next (modelOsl a b pid) token w = N at hn hD hO hOl
  obtain ⟨hne, hnf, hnt⟩ := hn
  unfold ModelFS.allocationEffect
  by_cases h1 : N.1 = false
  · rw [if_pos h1]
    refine ⟨fun tk t1 d1 w1 h => LoopStep.noConfusion h, ?_⟩
    intro r hb
    cases hb
    exact ⟨hnf, Or.inl ⟨hne, Or.inl rfl⟩, hnt⟩
  rw [if_neg h1]
  by_cases hd : bDirectory = true
  · rw [if_pos hd]
    by_cases hc : D.1 = RC.E_None
    · rw [if_pos hc]
      have hD1 : N.2.2.2.sys.entries cand = none ∧
          D.2 = N.2.2.2.sys.insert cand FileType.Directory := by
        rcases hD with ⟨_, _, hDe, hD2⟩ | ⟨_, hcall, _⟩ | ⟨hx, _⟩
        · exact ⟨hDe, hD2⟩
        · exact OsCall.noConfusion hcall
        · exact absurd hc hx
      obtain ⟨hDe, hD2⟩ := hD1
      rw [hne] at hDe
      by_cases hk : bKeep = true
      · rw [if_pos hk]
        refine ⟨fun tk t1 d1 w1 h => LoopStep.noConfusion h, ?_⟩
        intro r hb
        cases hb
        simp only [hD2]
        refine ⟨hnf, Or.inr (Or.inl ⟨hcand, hDe, Or.inr hk, ?_,
          fun h => absurd (hd.symm.trans h) (by decide)⟩), hnt⟩
        simp only [ModelFS.insert, hne, hd, if_true]
      · rw [if_neg hk]
        have hk0 : bKeep = false := by cases bKeep <;> simp_all
        rcases hR with ⟨hR1, hR2⟩ | ⟨hR1, hR2, hR3⟩
        · rw [if_pos hR1]
          refine ⟨fun tk t1 d1 w1 h => LoopStep.noConfusion h, ?_⟩
          intro r hb
          cases hb
          simp only [hR2, hD2]
          refine ⟨hnf, Or.inl ⟨?_, Or.inr ⟨hd, hk0, hDe⟩⟩, hnt⟩
          rw [ModelFS.erase_insert_entries _ _ _ (by rw [hne]; exact hDe), hne]
        · rw [if_neg hR1]
          refine ⟨fun tk t1 d1 w1 h => LoopStep.noConfusion h, ?_⟩
          intro r hb
          cases hb
          simp only [hR2, hD2]
          refine ⟨hnf, Or.inr (Or.inr (Or.inl ⟨trivial, hd, hk0, cand, hDe, ?_, ?_⟩)), hnt⟩
          · rcases hR3 with h3 | h3
            · rw [hD2] at h3
              simpa [ModelFS.insert, hnf] using h3
            · rw [hD2] at h3
              simp [ModelFS.insert] at h3
          · simp only [ModelFS.insert, hne]
    · rw [if_neg hc]
      rcases hD with ⟨hx, _⟩ | ⟨_, hcall, _⟩ | ⟨_, _, hD2⟩
      · exact absurd hx hc
      · exact OsCall.noConfusion hcall
      by_cases he : D.1 ≠ RC.E_EXIST
      · rw [if_pos he]
        refine ⟨fun tk t1 d1 w1 h => LoopStep.noConfusion h, ?_⟩
        intro r hb
        cases hb
        simp only [hD2]
        exact ⟨hnf, Or.inl ⟨hne, Or.inl trivial⟩, hnt⟩
      · rw [if_neg he]
        refine ⟨?_, fun r h => LoopStep.noConfusion h⟩
        intro tk t1 d1 w1 hb
        cases hb
        simp only [hD2]
        exact ⟨hne, hnf, hnt⟩
  · rw [if_neg hd]
    have hd0 : bDirectory = false := by cases bDirectory <;> simp_all
    by_cases hc : O.1 = RC.E_None ∨ (bLock = true ∧ O.1 = RC.E_NOLCK)
    · rw [if_pos hc]
      refine ⟨fun tk t1 d1 w1 h => LoopStep.noConfusion h, ?_⟩
      intro r hb
      cases hb
      simp only [hC]
      rcases hO with ⟨_, hOf, hOe, hO2⟩ | ⟨hrc, _, hOf, hOe, hO2⟩ | ⟨hx, hnl, hO2⟩
      · rw [hne] at hOe
        rw [hnf] at hOf
        simp only [hO2]
        refine ⟨hnf, Or.inr (Or.inl ⟨hcand, hOe, Or.inl hd0, ?_, fun _ => Or.inl hOf⟩), hnt⟩
        simp only [ModelFS.insert, hne, hd0, Bool.false_eq_true, if_false]
      · rw [hne] at hOe
        rw [hnf] at hOf
        rcases hc with hc | ⟨hl, _⟩
        · rw [hrc] at hc
          exact RC.noConfusion hc
        · simp only [hO2]
          refine ⟨hnf, Or.inr (Or.inl ⟨hcand, hOe, Or.inl hd0, ?_,
            fun _ => Or.inr ⟨hl, hOf⟩⟩), hnt⟩
          simp only [ModelFS.insert, hne, hd0, Bool.false_eq_true, if_false]
      · rcases hc with hc | ⟨hl, hc⟩
        · exact absurd hc hx
        · exact absurd hc (hnl rfl)
    · rw [if_neg hc]
      have hst : O.2.fault = w.sys.fault ∧ O.2.tempDirURL = w.sys.tempDirURL ∧
          (O.2.entries = w.sys.entries ∨
            (bLock = false ∧ O.1 = RC.E_NOLCK ∧ w.sys.entries cand = none ∧
              (w.sys.fault OsCall.File_open cand).map Fault.rc = some RC.E_NOLCK ∧
              O.2.entries = (w.sys.insert cand FileType.Regular).entries)) := by
        rcases hO with ⟨hx, _⟩ | ⟨hrc, _, hOf, hOe, hO2⟩ | ⟨_, _, hO2⟩
        · exact absurd (Or.inl hx) hc
        · have hl0 : bLock = false := by
            cases bLock
            · rfl
            · exact absurd (Or.inr ⟨rfl, hrc⟩) hc
          rw [hne] at hOe
          rw [hnf] at hOf
          rw [hO2]
          refine ⟨hnf, hnt, Or.inr ⟨hl0, hrc, hOe, hOf, ?_⟩⟩
          simp only [ModelFS.insert, hne]
        · rw [hO2]
          exact ⟨hnf, hnt, Or.inl hne⟩
      have hfail : ModelFS.allocationEffect bDirectory bKeep bLock w.sys [] O.2 :=
        ModelFS.allocationEffect_failed bDirectory bKeep bLock w.sys O.2 hst.1 hst.2.1
          (hst.2.2.imp id (fun h => ⟨hd0, h.1, cand, h.2.2.1, h.2.2.2.1, h.2.2.2.2⟩))
      by_cases he : O.1 ≠ RC.E_EXIST
      · rw [if_pos he]
        by_cases hg : I.1 ≠ RC.E_None
        · rw [if_pos hg]
          refine ⟨fun tk t1 d1 w1 h => LoopStep.noConfusion h, ?_⟩
          intro r hb
          cases hb
          rw [← hI] at hfail
          exact hfail
        · rw [if_neg hg]
          by_cases hs : S.1.1 ≠ RC.E_None ∨ S.1.2 ≠ FileType.Directory
          · rw [if_pos hs]
            refine ⟨fun tk t1 d1 w1 h => LoopStep.noConfusion h, ?_⟩
            intro r hb
            cases hb
            rw [← hI, ← hS] at hfail
            exact hfail
          · rw [if_neg hs]
            refine ⟨?_, fun r h => LoopStep.noConfusion h⟩
            intro tk t1 d1 w1 hb
            cases hb
            simp only [hS, hI]
            rcases hst.2.2 with h | ⟨_, _, _, _, h⟩
            · exact ⟨h, hst.1, hst.2.1⟩
            · exfalso
              have hs1 : S.1.1 = RC.E_None ∧ S.1.2 = FileType.Directory := by
                constructor
                · by_contra hx
                  exact hs (Or.inl hx)
                · by_contra hx
                  exact hs (Or.inr hx)
              have hty := hSt hs1.1
              rw [hI, h, hs1.2] at hty
              simp [ModelFS.insert] at hty
      · rw [if_neg he]
        refine ⟨?_, fun r h => LoopStep.noConfusion h⟩
        intro tk t1 d1 w1 hb
        cases hb
        rcases hst.2.2 with h | ⟨_, hrc, _⟩
        · exact ⟨h, hst.1, hst.2.1⟩
        · exfalso
          rw [hrc] at he
          exact he (by decide)

/-- The loop over the modelled filesystem, any mode: its result has one of
the allocation effects on the filesystem it started from. -/
theorem model_loop_effect (a b : OUString → RC × OUString) (pid : Nat)
    (aName pExtension : OUString) (bDirectory bKeep bLock : Bool) :
    ∀ (fuel : Nat) (tokens : Tokens) (token : OUString) (drawn : List OUString)
      (w : World ModelFS),
      ModelFS.allocationEffect bDirectory bKeep bLock w.sys
        (lcl_createName_loop (modelOsl a b pid) aName pExtension bDirectory bKeep bLock
          fuel tokens token drawn w).name
        (lcl_createName_loop (modelOsl a b pid) aName pExtension bDirectory bKeep bLock
          fuel tokens token drawn w).world.sys := by
  intro fuel
  induction fuel with
  | zero =>
    intro tokens token drawn w
    exact ⟨rfl, Or.inl ⟨rfl, Or.inl rfl⟩, rfl⟩
  | succ fuel ih =>
    intro tokens token drawn w
    have hbody := model_body_effect a b pid aName pExtension bDirectory bKeep bLock
      tokens token drawn w
    cases hb : lcl_createName_body (modelOsl a b pid) aName pExtension bDirectory bKeep bLock
        tokens token drawn w with
    | ret r =>
      simp only [lcl_createName_loop, hb]
      exact hbody.2 r hb
    | again tk t1 d1 w1 =>
      simp only [lcl_createName_loop, hb]
      have h1 := hbody.1 tk t1 d1 w1 hb
      exact ModelFS.allocationEffect_congr bDirectory bKeep bLock w.sys w1.sys _ _ h1.1
        h1.2.1 h1.2.2 (ih tk t1 d1 w1)

/-- The effect of `lcl_createName` on the modelled filesystem: the loop starts
from a filesystem `fs0` with the refusals of the starting one and at least
its entries (the same filesystem unless parent directories are created), and
the result has one of the allocation effects on `fs0`. -/
theorem model_lcl_createName_effect (a b : OUString → RC × OUString) (pid : Nat)
    (rLeadingChars : OUString) (tokens : Tokens) (pExtension : OUString)
    (pParent : Option OUString) (bDirectory bKeep bLock bCreateParentDirs : Bool)
    (w : World ModelFS) :
    ∃ fs0 : ModelFS,
      fs0.fault = w.sys.fault ∧
      (∀ q, fs0.entries q = none → w.sys.entries q = none) ∧
      (fs0 = w.sys ∨ bCreateParentDirs = true) ∧
      ModelFS.allocationEffect bDirectory bKeep bLock fs0
        (lcl_createName (modelOsl a b pid) rLeadingChars tokens pExtension pParent
          bDirectory bKeep bLock bCreateParentDirs w).name
        (lcl_createName (modelOsl a b pid) rLeadingChars tokens pExtension pParent
          bDirectory bKeep bLock bCreateParentDirs w).world.sys := by
  have hframe := (model_ConstructTempDir_frame a b pid pParent bCreateParentDirs w).1
  have hst : ∀ (p : OUString) (fs : ModelFS),
      ((modelOsl a b pid).Directory_createPath p fs).2.fault = fs.fault ∧
      ∀ q, ((modelOsl a b pid).Directory_createPath p fs).2.entries q = none →
        fs.entries q = none := by
    intro p fs
    show (ModelFS.createExclusive OsCall.Directory_createPath FileType.Directory p fs).2.fault
        = fs.fault ∧
      ∀ q, (ModelFS.createExclusive OsCall.Directory_createPath FileType.Directory
        p fs).2.entries q = none → fs.entries q = none
    rcases ModelFS.createExclusive_state OsCall.Directory_createPath FileType.Directory p fs
      with h | h
    · rw [h]
      exact ⟨rfl, fun _ => id⟩
    · rw [h]
      refine ⟨rfl, ?_⟩
      intro q
      simp only [ModelFS.insert]
      split_ifs
      · intro hx
        exact hx.elim
      · exact id
  unfold lcl_createName
  simp only []
  by_cases hcpd : bCreateParentDirs = true
  · rw [if_pos hcpd]
    split_ifs with herr
    · refine ⟨((modelOsl a b pid).Directory_createPath _ _).2, ?_, ?_, Or.inr hcpd,
        rfl, Or.inl ⟨rfl, Or.inl rfl⟩, rfl⟩
      · rw [(hst _ _).1, hframe]
      · intro q hq
        have := (hst _ _).2 q hq
        rwa [hframe] at this
    · refine ⟨_, ?_, ?_, Or.inr hcpd,
        model_loop_effect a b pid _ pExtension bDirectory bKeep bLock tokenFuel tokens [] [] _⟩
      · show ((modelOsl a b pid).Directory_createPath _ _).2.fault = _
        rw [(hst _ _).1, hframe]
      · intro q hq
        have := (hst _ _).2 q hq
        rwa [hframe] at this
  · rw [if_neg hcpd]
    refine ⟨_, ?_, ?_, Or.inl ?_,
      model_loop_effect a b pid _ pExtension bDirectory bKeep bLock tokenFuel tokens [] [] _⟩
    · rw [hframe]
    · intro q
      rw [hframe]
      exact id
    · exact hframe

/-- C15. Collision-freedom over the modelled filesystem with exclusive
create, for every mode, token stream and starting state: when `lcl_createName`
returns a non-empty name, either the name was returned under lock contention
(file mode with locking, the environment refusing to open that name with
`E_NOLCK`, so its creation did not report success), or the name was not
present in the filesystem before the call; and in the second case, in file
mode or with keep, the name is present after the call, as a directory in
directory mode and as a regular file in file mode. -/
theorem lcl_createName_collision_free (a b : OUString → RC × OUString) (pid : Nat)
    (rLeadingChars : OUString) (tokens : Tokens) (pExtension : OUString)
    (pParent : Option OUString) (bDirectory bKeep bLock bCreateParentDirs : Bool)
    (w : World ModelFS)
    (hname : (lcl_createName (modelOsl a b pid) rLeadingChars tokens pExtension pParent
      bDirectory bKeep bLock bCreateParentDirs w).name ≠ []) :
    (bDirectory = false ∧ bLock = true ∧
      (w.sys.fault OsCall.File_open
        (lcl_createName (modelOsl a b pid) rLeadingChars tokens pExtension pParent
          bDirectory bKeep bLock bCreateParentDirs w).name).map Fault.rc
        = some RC.E_NOLCK) ∨
    (w.sys.entries
        (lcl_createName (modelOsl a b pid) rLeadingChars tokens pExtension pParent
          bDirectory bKeep bLock bCreateParentDirs w).name = none ∧
      ((bDirectory = false ∨ bKeep = true) →
        (lcl_createName (modelOsl a b pid) rLeadingChars tokens pExtension pParent
          bDirectory bKeep bLock bCreateParentDirs w).world.sys.entries
          (lcl_createName (modelOsl a b pid) rLeadingChars tokens pExtension pParent
            bDirectory bKeep bLock bCreateParentDirs w).name
          = some (if bDirectory then FileType.Directory else FileType.Regular))) := by
  obtain ⟨fs0, hf, hmono, _, heff⟩ := model_lcl_createName_effect a b pid rLeadingChars
    tokens pExtension pParent bDirectory bKeep bLock bCreateParentDirs w
  generalize lcl_createName (modelOsl a b pid) rLeadingChars tokens pExtension pParent
    bDirectory bKeep bLock bCreateParentDirs w = r at hname heff
  unfold ModelFS.allocationEffect at heff
  rcases heff.2.1 with ⟨_, h | h⟩ | ⟨_, habs, _, hent, _⟩ | ⟨h, _⟩ | ⟨h, _⟩
  · exact absurd h hname
  · right
    refine ⟨hmono _ h.2.2, ?_⟩
    intro hk
    rcases hk with hk | hk
    · rw [h.1] at hk
      exact Bool.noConfusion hk
    · rw [h.2.1] at hk
      exact Bool.noConfusion hk
  · right
    refine ⟨hmono _ habs, fun _ => ?_⟩
    rw [hent]
    simp only [ModelFS.insert, if_true]
  · exact absurd h hname
  · exact absurd h hname

/-- C15 at a concrete input: the first sequential allocation with prefix
`myprefix_` in the empty filesystem returns `file:///tmp/myprefix_.tmp`, a name
that was free and is a regular file afterwards. -/
theorem lcl_createName_collision_free_witness :
    (lcl_createName plainOsl "myprefix_".toList
      (Tokens.sequential (SequentialTokens.new false)) [] none false true true false
      (World.initial emptyFS)).name = "file:///tmp/myprefix_.tmp".toList ∧
    ((false = false ∧ true = true ∧
      ((World.initial emptyFS).sys.fault OsCall.File_open
        (lcl_createName plainOsl "myprefix_".toList
          (Tokens.sequential (SequentialTokens.new false)) [] none false true true false
          (World.initial emptyFS)).name).map Fault.rc = some RC.E_NOLCK) ∨
    ((World.initial emptyFS).sys.entries
        (lcl_createName plainOsl "myprefix_".toList
          (Tokens.sequential (SequentialTokens.new false)) [] none false true true false
          (World.initial emptyFS)).name = none ∧
      ((false = false ∨ true = true) →
        (lcl_createName plainOsl "myprefix_".toList
          (Tokens.sequential (SequentialTokens.new false)) [] none false true true false
          (World.initial emptyFS)).world.sys.entries
          (lcl_createName plainOsl "myprefix_".toList
            (Tokens.sequential (SequentialTokens.new false)) [] none false true true false
            (World.initial emptyFS)).name
          = some (if false then FileType.Directory else FileType.Regular)))) :=
  ⟨by decide,
   lcl_createName_collision_free (fun p => (RC.E_None, p)) (fun p => (RC.E_None, p)) 4242
    "myprefix_".toList (Tokens.sequential (SequentialTokens.new false)) [] none
    false true true false (World.initial emptyFS) (by decide)⟩

/-- C16 (amended). Name-only allocation in directory mode without keep
(`CreateTempName`) over the modelled filesystem never changes the refusals,
and either leaves the entries as they were, or returns the empty string and
leaves behind one directory, created for a name that was free and whose
removal the environment refuses.  In an environment that refuses no removal
of a directory, the entries after the call are the entries before it. -/
theorem CreateTempName_residue (a b : OUString → RC × OUString) (pid : Nat)
    (w : World ModelFS) :
    (CreateTempName (modelOsl a b pid) w).2.sys.fault = w.sys.fault ∧
    ((CreateTempName (modelOsl a b pid) w).2.sys.entries = w.sys.entries ∨
      ((CreateTempName (modelOsl a b pid) w).1 = [] ∧
        ∃ p, w.sys.entries p = none ∧ w.sys.fault OsCall.Directory_remove p ≠ none ∧
          (CreateTempName (modelOsl a b pid) w).2.sys.entries
            = (w.sys.insert p FileType.Directory).entries)) ∧
    ((∀ p, w.sys.fault OsCall.Directory_remove p = none) →
      (CreateTempName (modelOsl a b pid) w).2.sys.entries = w.sys.entries) := by
  obtain ⟨fs0, _, _, hfs0, heff⟩ := model_lcl_createName_effect a b pid
    ("lu".toList ++ OUString.number (modelOsl a b pid).getpid 10)
    (Tokens.unique UniqueTokens.new) [] none true false false false w
  have hfs : fs0 = w.sys := by
    rcases hfs0 with h | h
    · exact h
    · exact Bool.noConfusion h
  subst hfs
  have hname : (CreateTempName (modelOsl a b pid) w).1 = [] ∨
      (CreateTempName_Impl (modelOsl a b pid) none false true w).name ≠ [] := by
    unfold CreateTempName
    simp only []
    by_cases h : (CreateTempName_Impl (modelOsl a b pid) none false true w).name = []
    · left
      rw [if_neg (not_not.mpr h)]
    · exact Or.inr h
  have hworld : (CreateTempName (modelOsl a b pid) w).2
      = (CreateTempName_Impl (modelOsl a b pid) none false true w).world := rfl
  have himpl : CreateTempName_Impl (modelOsl a b pid) none false true w
      = lcl_createName (modelOsl a b pid)
        ("lu".toList ++ OUString.number (modelOsl a b pid).getpid 10)
        (Tokens.unique UniqueTokens.new) [] none true false false false w := rfl
  rw [hworld, himpl]
  rw [himpl] at hname
  generalize lcl_createName (modelOsl a b pid)
    ("lu".toList ++ OUString.number (modelOsl a b pid).getpid 10)
    (Tokens.unique UniqueTokens.new) [] none true false false false w = r at hname heff
  unfold ModelFS.allocationEffect at heff
  refine ⟨heff.1, ?_, ?_⟩
  · rcases heff.2.1 with ⟨h, _⟩ | ⟨_, _, hk, _⟩ | ⟨hn, _, _, p, hp, hr, he⟩ | ⟨_, hd, _⟩
    · exact Or.inl h
    · rcases hk with hk | hk <;> exact Bool.noConfusion hk
    · rcases hname with h | h
      · exact Or.inr ⟨h, p, hp, hr, he⟩
      · exact absurd hn h
    · exact Bool.noConfusion hd
  · intro hrm
    rcases heff.2.1 with ⟨h, _⟩ | ⟨_, _, hk, _⟩ | ⟨_, _, _, p, _, hr, _⟩ | ⟨_, hd, _⟩
    · exact h
    · rcases hk with hk | hk <;> exact Bool.noConfusion hk
    · exact absurd (hrm p) hr
    · exact Bool.noConfusion hd

/-- C16 as stated fails: over a filesystem that refuses to remove
directories, `CreateTempName` returns the empty string and the directory
`file:///tmp/lu4242rs.tmp`, which was not there before the call, is there
after it. -/
theorem CreateTempName_residue_counterexample :
    (CreateTempName plainOsl (World.initial removeDeniedFS)).1 = [] ∧
    (World.initial removeDeniedFS).sys.entries "file:///tmp/lu4242rs.tmp".toList = none ∧
    (CreateTempName plainOsl (World.initial removeDeniedFS)).2.sys.entries
      "file:///tmp/lu4242rs.tmp".toList = some FileType.Directory ∧
    (CreateTempName plainOsl (World.initial removeDeniedFS)).2.sys.entries
      ≠ (World.initial removeDeniedFS).sys.entries := by
  have h3 : (CreateTempName plainOsl (World.initial removeDeniedFS)).2.sys.entries
      "file:///tmp/lu4242rs.tmp".toList = some FileType.Directory := by decide
  refine ⟨by decide, by decide, h3, ?_⟩
  intro h
  rw [h] at h3
  exact Option.noConfusion h3

/-! ## Two successive named allocations -/

/-- A successful named allocation over the modelled filesystem: the name has
the shape of a candidate, was free, and its opening was not refused or met
lock contention; afterwards the name is a regular file and nothing else has
changed in the filesystem, and the cached base is the one the directory
resolution left. -/
theorem model_named_success (a b : OUString → RC × OUString) (pid : Nat)
    (rLeadingChars pExtension : OUString) (showZero : Bool) (w : World ModelFS)
    (hne : (lcl_createName (modelOsl a b pid) rLeadingChars
        (Tokens.sequential (SequentialTokens.new showZero)) pExtension none
        false true true false w).name ≠ []) :
    (∃ t, (lcl_createName (modelOsl a b pid) rLeadingChars
        (Tokens.sequential (SequentialTokens.new showZero)) pExtension none
        false true true false w).name
        = (ConstructTempDir_Impl (modelOsl a b pid) none false w).1 ++ rLeadingChars ++ t
          ++ extensionOrTmp pExtension) ∧
    w.sys.entries (lcl_createName (modelOsl a b pid) rLeadingChars
        (Tokens.sequential (SequentialTokens.new showZero)) pExtension none
        false true true false w).name = none ∧
    (w.sys.fault OsCall.File_open (lcl_createName (modelOsl a b pid) rLeadingChars
        (Tokens.sequential (SequentialTokens.new showZero)) pExtension none
        false true true false w).name = none ∨
      (w.sys.fault OsCall.File_open (lcl_createName (modelOsl a b pid) rLeadingChars
        (Tokens.sequential (SequentialTokens.new showZero)) pExtension none
        false true true false w).name).map Fault.rc = some RC.E_NOLCK) ∧
    (lcl_createName (modelOsl a b pid) rLeadingChars
        (Tokens.sequential (SequentialTokens.new showZero)) pExtension none
        false true true false w).world.sys.entries
      = (ModelFS.insert w.sys (lcl_createName (modelOsl a b pid) rLeadingChars
        (Tokens.sequential (SequentialTokens.new showZero)) pExtension none
        false true true false w).name FileType.Regular).entries ∧
    (lcl_createName (modelOsl a b pid) rLeadingChars
        (Tokens.sequential (SequentialTokens.new showZero)) pExtension none
        false true true false w).world.sys.fault = w.sys.fault ∧
    (lcl_createName (modelOsl a b pid) rLeadingChars
        (Tokens.sequential (SequentialTokens.new showZero)) pExtension none
        false true true false w).world.sys.tempDirURL = w.sys.tempDirURL ∧
    (lcl_createName (modelOsl a b pid) rLeadingChars
        (Tokens.sequential (SequentialTokens.new showZero)) pExtension none
        false true true false w).world.gTempNameBase_Impl
      = (ConstructTempDir_Impl (modelOsl a b pid) none false w).2.gTempNameBase_Impl := by
  obtain ⟨fs0, _, _, hfs0, heff⟩ := model_lcl_createName_effect a b pid rLeadingChars
    (Tokens.sequential (SequentialTokens.new showZero)) pExtension none
    false true true false w
  have hfs : fs0 = w.sys := by
    rcases hfs0 with h | h
    · exact h
    · exact Bool.noConfusion h
  subst hfs
  have hshape : ∃ t, (lcl_createName (modelOsl a b pid) rLeadingChars
      (Tokens.sequential (SequentialTokens.new showZero)) pExtension none
      false true true false w).name
      = (ConstructTempDir_Impl (modelOsl a b pid) none false w).1 ++ rLeadingChars ++ t
        ++ extensionOrTmp pExtension := by
    have hne1 := hne
    rw [model_CreateTempURL_eq_loop] at hne1 ⊢
    obtain ⟨t, _, _, hshape⟩ := lcl_createName_loop_shape _ _ _ _ _ _ _ _ _ _ _ hne1
    exact ⟨t, hshape⟩
  have hbase : (lcl_createName (modelOsl a b pid) rLeadingChars
      (Tokens.sequential (SequentialTokens.new showZero)) pExtension none
      false true true false w).world.gTempNameBase_Impl
      = (ConstructTempDir_Impl (modelOsl a b pid) none false w).2.gTempNameBase_Impl := by
    rw [model_CreateTempURL_eq_loop]
    exact lcl_createName_loop_base _ _ _ _ _ _ _ _ _ _ _
  unfold ModelFS.allocationEffect at heff
  obtain ⟨hflt, hcases, htmp⟩ := heff
  rcases hcases with ⟨_, hn | hn⟩ | ⟨_, habs, _, hent, hfl⟩ | ⟨hn, _⟩ | ⟨hn, _⟩
  · exact absurd hn hne
  · exact Bool.noConfusion hn.1
  · exact ⟨hshape, habs, (hfl rfl).imp id (fun h => h.2), hent, hflt, htmp, hbase⟩
  · exact absurd hn hne
  · exact absurd hn hne

/-- C9 (amended). Two successive successful named allocations with leading
characters `myprefix_`, `startWithZero = false`, extension `.tmp`, no parent
and `createParentDirs = false`, over any state of the modelled filesystem:
the two paths are `D ++ "myprefix_" ++ t1 ++ ".tmp"` and
`D ++ "myprefix_" ++ t2 ++ ".tmp"` for the resolved base directory `D`, the
paths differ, the tokens differ, and the second token is not empty; the first
token is empty exactly when `D ++ "myprefix_.tmp"` was free and its opening
was not refused, or refused only for lock contention. -/
theorem TempFileNamed_two_allocations (a b : OUString → RC × OUString) (pid : Nat)
    (w : World ModelFS)
    (h1 : (TempFileNamed.newNamed (modelOsl a b pid) "myprefix_".toList false ".tmp".toList
      none false w).1.aName ≠ [])
    (h2 : (TempFileNamed.newNamed (modelOsl a b pid) "myprefix_".toList false ".tmp".toList
      none false
      (TempFileNamed.newNamed (modelOsl a b pid) "myprefix_".toList false ".tmp".toList
        none false w).2).1.aName ≠ []) :
    ∃ t1 t2,
      (TempFileNamed.newNamed (modelOsl a b pid) "myprefix_".toList false ".tmp".toList
        none false w).1.aName
        = (ConstructTempDir_Impl (modelOsl a b pid) none false w).1 ++ "myprefix_".toList
          ++ t1 ++ ".tmp".toList ∧
      (TempFileNamed.newNamed (modelOsl a b pid) "myprefix_".toList false ".tmp".toList
        none false
        (TempFileNamed.newNamed (modelOsl a b pid) "myprefix_".toList false ".tmp".toList
          none false w).2).1.aName
        = (ConstructTempDir_Impl (modelOsl a b pid) none false w).1 ++ "myprefix_".toList
          ++ t2 ++ ".tmp".toList ∧
      (TempFileNamed.newNamed (modelOsl a b pid) "myprefix_".toList false ".tmp".toList
        none false w).1.aName
        ≠ (TempFileNamed.newNamed (modelOsl a b pid) "myprefix_".toList false ".tmp".toList
          none false
          (TempFileNamed.newNamed (modelOsl a b pid) "myprefix_".toList false ".tmp".toList
            none false w).2).1.aName ∧
      t1 ≠ t2 ∧ t2 ≠ [] ∧
      (t1 = [] ↔
        (w.sys.entries ((ConstructTempDir_Impl (modelOsl a b pid) none false w).1
          ++ "myprefix_".toList ++ [] ++ ".tmp".toList) = none ∧
        (w.sys.fault OsCall.File_open
            ((ConstructTempDir_Impl (modelOsl a b pid) none false w).1
              ++ "myprefix_".toList ++ [] ++ ".tmp".toList) = none ∨
          (w.sys.fault OsCall.File_open
            ((ConstructTempDir_Impl (modelOsl a b pid) none false w).1
              ++ "myprefix_".toList ++ [] ++ ".tmp".toList)).map Fault.rc
            = some RC.E_NOLCK))) := by
  have hext : extensionOrTmp ".tmp".toList = ".tmp".toList := by decide
  simp only [(TempFileNamed.newNamed_eq _ _ _ _ _ _ _).1,
    (TempFileNamed.newNamed_eq _ _ _ _ _ _ _).2] at h1 h2 ⊢
  obtain ⟨⟨t1, hs1⟩, hfree1, hfault1, hent1, hflt1, htmp1, hbase1⟩ :=
    model_named_success a b pid "myprefix_".toList ".tmp".toList false w h1
  obtain ⟨⟨t2, hs2⟩, hfree2, hfault2, _, _, _, _⟩ :=
    model_named_success a b pid "myprefix_".toList ".tmp".toList false _ h2
  have hD := model_ConstructTempDir_stable a b pid false w
    (lcl_createName (modelOsl a b pid) "myprefix_".toList
      (Tokens.sequential (SequentialTokens.new false)) ".tmp".toList none
      false true true false w).world hbase1 htmp1
  rw [hD] at hs2
  rw [hext] at hs1 hs2
  -- the first name is present when the second call starts
  have hpresent : (lcl_createName (modelOsl a b pid) "myprefix_".toList
      (Tokens.sequential (SequentialTokens.new false)) ".tmp".toList none
      false true true false w).world.sys.entries
      (lcl_createName (modelOsl a b pid) "myprefix_".toList
      (Tokens.sequential (SequentialTokens.new false)) ".tmp".toList none
      false true true false w).name = some FileType.Regular := by
    rw [hent1]; simp [ModelFS.insert]
  have hne : (lcl_createName (modelOsl a b pid) "myprefix_".toList
      (Tokens.sequential (SequentialTokens.new false)) ".tmp".toList none
      false true true false w).name
      ≠ (lcl_createName (modelOsl a b pid) "myprefix_".toList
        (Tokens.sequential (SequentialTokens.new false)) ".tmp".toList none
        false true true false
        (lcl_createName (modelOsl a b pid) "myprefix_".toList
      (Tokens.sequential (SequentialTokens.new false)) ".tmp".toList none
      false true true false w).world).name := by
    intro heq
    rw [← heq, hpresent] at hfree2
    exact absurd hfree2 (by simp)
  -- what the first call does when the candidate of the empty token is free
  have hfirst : w.sys.entries ((ConstructTempDir_Impl (modelOsl a b pid) none false w).1
        ++ "myprefix_".toList ++ [] ++ ".tmp".toList) = none →
      (w.sys.fault OsCall.File_open
          ((ConstructTempDir_Impl (modelOsl a b pid) none false w).1
            ++ "myprefix_".toList ++ [] ++ ".tmp".toList) = none ∨
        (w.sys.fault OsCall.File_open
          ((ConstructTempDir_Impl (modelOsl a b pid) none false w).1
            ++ "myprefix_".toList ++ [] ++ ".tmp".toList)).map Fault.rc
          = some RC.E_NOLCK) →
      (lcl_createName (modelOsl a b pid) "myprefix_".toList
      (Tokens.sequential (SequentialTokens.new false)) ".tmp".toList none
      false true true false w).name
        = (ConstructTempDir_Impl (modelOsl a b pid) none false w).1
          ++ "myprefix_".toList ++ [] ++ ".tmp".toList := by
    intro hfree hfault
    have hsys := (model_ConstructTempDir_frame a b pid none false w).1
    rw [model_CreateTempURL_eq_loop]
    rcases hfault with hfault | hfault
    · have hfound := model_loop_found a b pid
        ((ConstructTempDir_Impl (modelOsl a b pid) none false w).1 ++ "myprefix_".toList)
        ".tmp".toList true true false
        (ConstructTempDir_Impl (modelOsl a b pid) none false w).2 0 (by decide)
        (fun i hi => absurd hi (Nat.not_lt_zero i))
        (by rw [hsys, hext]; exact hfault) (by rw [hsys, hext]; exact hfree)
      rw [hfound, hext]
      rfl
    · have hfound := model_loop_locked a b pid
        ((ConstructTempDir_Impl (modelOsl a b pid) none false w).1 ++ "myprefix_".toList)
        ".tmp".toList true true false
        (ConstructTempDir_Impl (modelOsl a b pid) none false w).2 0 (by decide) rfl
        (fun i hi => absurd hi (Nat.not_lt_zero i))
        (by rw [hsys, hext]; exact hfault) (by rw [hsys, hext]; exact hfree)
      rw [hfound, hext]
      rfl
  refine ⟨t1, t2, hs1, hs2, hne, ?_, ?_, ?_⟩
  · intro heq
    rw [heq, ← hs2] at hs1
    exact hne hs1
  · intro ht2
    rw [ht2] at hs2
    rw [hs2] at hfree2 hfault2
    rw [hflt1] at hfault2
    rw [hent1] at hfree2
    have hfree0 : w.sys.entries ((ConstructTempDir_Impl (modelOsl a b pid) none false w).1
          ++ "myprefix_".toList ++ [] ++ ".tmp".toList) = none := by
      simp only [ModelFS.insert] at hfree2
      split_ifs at hfree2 with hc
      exact hfree2
    exact hne ((hfirst hfree0 hfault2).trans hs2.symm)
  · constructor
    · intro ht1
      rw [ht1] at hs1
      rw [hs1] at hfree1 hfault1
      exact ⟨hfree1, hfault1⟩
    · intro ⟨hfree, hfault⟩
      have := hfirst hfree hfault
      rw [hs1] at this
      have h3 := List.append_cancel_right this
      exact List.append_cancel_left h3

/-- C9 (amended) at a concrete input: two named allocations at process start
over the empty modelled filesystem. -/
theorem TempFileNamed_two_allocations_witness :
    ∃ t1 t2,
      (TempFileNamed.newNamed plainOsl "myprefix_".toList false ".tmp".toList
        none false (World.initial emptyFS)).1.aName
        = (ConstructTempDir_Impl plainOsl none false (World.initial emptyFS)).1
          ++ "myprefix_".toList ++ t1 ++ ".tmp".toList ∧
      (TempFileNamed.newNamed plainOsl "myprefix_".toList false ".tmp".toList
        none false
        (TempFileNamed.newNamed plainOsl "myprefix_".toList false ".tmp".toList
          none false (World.initial emptyFS)).2).1.aName
        = (ConstructTempDir_Impl plainOsl none false (World.initial emptyFS)).1
          ++ "myprefix_".toList ++ t2 ++ ".tmp".toList ∧
      t1 ≠ t2 ∧ t2 ≠ [] := by
  obtain ⟨t1, t2, hs1, hs2, _, h12, h2, _⟩ :=
    TempFileNamed_two_allocations (fun p => (RC.E_None, p)) (fun p => (RC.E_None, p)) 4242
      (World.initial emptyFS) (by decide) (by decide)
  exact ⟨t1, t2, hs1, hs2, h12, h2⟩

/-- C9 as stated fails.  Over the empty filesystem two successive allocations
both succeed, and the first returns `D ++ "myprefix_" ++ "" ++ ".tmp"`: its
token is empty (the only token drawn is the empty one); the second returns
`file:///tmp/myprefix_1.tmp`. -/
theorem TempFileNamed_two_allocations_counterexample :
    (TempFileNamed.newNamed plainOsl "myprefix_".toList false ".tmp".toList
        none false (World.initial emptyFS)).1.aName ≠ [] ∧
    (TempFileNamed.newNamed plainOsl "myprefix_".toList false ".tmp".toList
        none false (World.initial emptyFS)).1.aName
      = (ConstructTempDir_Impl plainOsl none false (World.initial emptyFS)).1
          ++ "myprefix_".toList ++ [] ++ ".tmp".toList ∧
    (CreateTempURL plainOsl "myprefix_".toList false ".tmp".toList none false
        (World.initial emptyFS)).drawn = [[]] ∧
    (TempFileNamed.newNamed plainOsl "myprefix_".toList false ".tmp".toList
        none false
        (TempFileNamed.newNamed plainOsl "myprefix_".toList false ".tmp".toList
          none false (World.initial emptyFS)).2).1.aName
      = "file:///tmp/myprefix_1.tmp".toList := by
  decide

/-- Under lock contention the named allocation returns the locked candidate
and leaves it behind as a file, so the next allocation moves on: over a
filesystem in which the opening of `file:///tmp/myprefix_.tmp` meets lock
contention, the first allocation returns that name and the second returns
`file:///tmp/myprefix_1.tmp`. -/
theorem model_named_lock_contention_twice :
    (TempFileNamed.newNamed plainOsl "myprefix_".toList false ".tmp".toList
        none false (World.initial lockedFS)).1.aName
      = "file:///tmp/myprefix_.tmp".toList ∧
    (TempFileNamed.newNamed plainOsl "myprefix_".toList false ".tmp".toList
        none false (World.initial lockedFS)).2.sys.entries "file:///tmp/myprefix_.tmp".toList
      = some FileType.Regular ∧
    (TempFileNamed.newNamed plainOsl "myprefix_".toList false ".tmp".toList
        none false
        (TempFileNamed.newNamed plainOsl "myprefix_".toList false ".tmp".toList
          none false (World.initial lockedFS)).2).1.aName
      = "file:///tmp/myprefix_1.tmp".toList := by
  decide

/-! ## The override of the base directory -/

/-- C21. Override failure is atomic: given an empty path,
`SetTempNameBaseDirectory` returns the empty string and leaves the world as it
was; given a path whose directory can neither be created (the creation
answers neither success nor "already exists") nor ensured through its parents
(`ensuredir` fails), it returns the empty string and `gTempNameBase_Impl` is
what it was before the call. -/
theorem SetTempNameBaseDirectory_failure_atomic {σ : Type} (osl : Osl σ)
    (rBaseName : OUString) (w : World σ) :
    (rBaseName = [] → SetTempNameBaseDirectory osl rBaseName w = ([], w)) ∧
    (rBaseName ≠ [] →
      (osl.Directory_create (removeTrailingSlash rBaseName) defaultCreateFlags w.sys).1
        ≠ RC.E_None →
      (osl.Directory_create (removeTrailingSlash rBaseName) defaultCreateFlags w.sys).1
        ≠ RC.E_EXIST →
      (ensuredir osl (removeTrailingSlash rBaseName)
        (osl.Directory_create (removeTrailingSlash rBaseName) defaultCreateFlags w.sys).2).1
        = false →
      (SetTempNameBaseDirectory osl rBaseName w).1 = [] ∧
      (SetTempNameBaseDirectory osl rBaseName w).2.gTempNameBase_Impl
        = w.gTempNameBase_Impl ∧
      (SetTempNameBaseDirectory osl rBaseName w).2.globalValue = w.globalValue) := by
  refine ⟨?_, ?_⟩
  · intro h
    simp only [SetTempNameBaseDirectory, h, if_true]
  · intro hne h1 h2 h3
    have hcreate : SetTempNameBaseDirectory_create osl rBaseName w.sys
        = ensuredir osl (removeTrailingSlash rBaseName)
            (osl.Directory_create (removeTrailingSlash rBaseName) defaultCreateFlags
              w.sys).2 := by
      unfold removeTrailingSlash at h1 h2 ⊢
      unfold SetTempNameBaseDirectory_create
      simp only []
      rw [if_pos (by simp only [Bool.and_eq_true, decide_eq_true_eq]; exact ⟨h1, h2⟩)]
    have hfalse : (SetTempNameBaseDirectory_create osl rBaseName w.sys).1 = false := by
      rw [hcreate]
      exact h3
    simp only [SetTempNameBaseDirectory, if_neg hne, hfalse, Bool.false_eq_true, if_false,
      and_self]

/-! ## Creation of parent directories -/

theorem lcl_createName_body_withCreatePath {σ : Type} (osl : Osl σ)
    (g : OUString → σ → RC × σ) (aName pExtension : OUString)
    (bDirectory bKeep bLock : Bool) (tokens : Tokens) (token : OUString)
    (drawn : List OUString) (w : World σ) :
    lcl_createName_body (osl.withCreatePath g) aName pExtension bDirectory bKeep bLock
        tokens token drawn w
      = lcl_createName_body osl aName pExtension bDirectory bKeep bLock tokens token drawn w := by
  cases tokens <;> rfl

/-- The loop never calls `Directory::createPath`. -/
theorem lcl_createName_loop_withCreatePath {σ : Type} (osl : Osl σ)
    (g : OUString → σ → RC × σ) (aName pExtension : OUString)
    (bDirectory bKeep bLock : Bool) :
    ∀ (fuel : Nat) (tokens : Tokens) (token : OUString) (drawn : List OUString)
      (w : World σ),
      lcl_createName_loop (osl.withCreatePath g) aName pExtension bDirectory bKeep bLock
          fuel tokens token drawn w
        = lcl_createName_loop osl aName pExtension bDirectory bKeep bLock fuel tokens token
            drawn w := by
  intro fuel
  induction fuel with
  | zero => intro tokens token drawn w; rfl
  | succ fuel ih =>
    intro tokens token drawn w
    rw [lcl_createName_loop, lcl_createName_loop, lcl_createName_body_withCreatePath]
    cases lcl_createName_body osl aName pExtension bDirectory bKeep bLock tokens token drawn w with
    | ret r => rfl
    | again tk t1 d1 w1 => exact ih tk t1 d1 w1

/-- The resolution of the directory never calls `Directory::createPath`. -/
theorem ConstructTempDir_Impl_withCreatePath {σ : Type} (osl : Osl σ)
    (g : OUString → σ → RC × σ) (pParent : Option OUString) (bCreateParentDirs : Bool)
    (w : World σ) :
    ConstructTempDir_Impl (osl.withCreatePath g) pParent bCreateParentDirs w
      = ConstructTempDir_Impl osl pParent bCreateParentDirs w := by
  have hparg : ConstructTempDir_parent (osl.withCreatePath g) pParent bCreateParentDirs w
      = ConstructTempDir_parent osl pParent bCreateParentDirs w := by
    cases pParent <;> rfl
  have hbase : ∀ (aName : OUString) (w1 : World σ),
      ConstructTempDir_base (osl.withCreatePath g) aName w1
        = ConstructTempDir_base osl aName w1 := by
    intro aName w1
    unfold ConstructTempDir_base
    by_cases h : aName = []
    · subst h
      simp only [if_true, ensuredir_nil]
      rfl
    · simp only [if_neg h]
  simp only [ConstructTempDir_Impl, hparg, hbase]

/-- C25. Parent-directory auto-creation.  With `bCreateParentDirs` set,
`lcl_createName` first calls `Directory::createPath` for the resolved directory
followed by the leading characters up to (excluding) their last `/`, or for
the resolved directory alone if they have no `/`; if the answer is neither
success nor "already exists", the result is the empty string, no token is
drawn and nothing is done after that call; otherwise the loop starts, with no
token drawn yet, from the environment that call leaves.  With
`bCreateParentDirs` not set the loop starts from the environment the
resolution of the directory leaves, and `Directory::createPath` is not called:
the result is the same whatever that call would answer. -/
theorem lcl_createName_parent_directories {σ : Type} (osl : Osl σ)
    (rLeadingChars : OUString) (tokens : Tokens) (pExtension : OUString)
    (pParent : Option OUString) (bDirectory bKeep bLock : Bool) (w : World σ) :
    ((osl.Directory_createPath
        (lcl_createName_aDirName (ConstructTempDir_Impl osl pParent true w).1 rLeadingChars)
        (ConstructTempDir_Impl osl pParent true w).2.sys).1 ≠ RC.E_None →
      (osl.Directory_createPath
        (lcl_createName_aDirName (ConstructTempDir_Impl osl pParent true w).1 rLeadingChars)
        (ConstructTempDir_Impl osl pParent true w).2.sys).1 ≠ RC.E_EXIST →
      lcl_createName osl rLeadingChars tokens pExtension pParent bDirectory bKeep bLock true w
        = { name := [], drawn := [], tokens := tokens,
            world :=
              { (ConstructTempDir_Impl osl pParent true w).2 with
                sys := (osl.Directory_createPath
                  (lcl_createName_aDirName (ConstructTempDir_Impl osl pParent true w).1
                    rLeadingChars)
                  (ConstructTempDir_Impl osl pParent true w).2.sys).2 } }) ∧
    ((osl.Directory_createPath
        (lcl_createName_aDirName (ConstructTempDir_Impl osl pParent true w).1 rLeadingChars)
        (ConstructTempDir_Impl osl pParent true w).2.sys).1 = RC.E_None ∨
      (osl.Directory_createPath
        (lcl_createName_aDirName (ConstructTempDir_Impl osl pParent true w).1 rLeadingChars)
        (ConstructTempDir_Impl osl pParent true w).2.sys).1 = RC.E_EXIST →
      lcl_createName osl rLeadingChars tokens pExtension pParent bDirectory bKeep bLock true w
        = lcl_createName_loop osl
            ((ConstructTempDir_Impl osl pParent true w).1 ++ rLeadingChars) pExtension
            bDirectory bKeep bLock tokenFuel tokens [] []
            { (ConstructTempDir_Impl osl pParent true w).2 with
              sys := (osl.Directory_createPath
                (lcl_createName_aDirName (ConstructTempDir_Impl osl pParent true w).1
                  rLeadingChars)
                (ConstructTempDir_Impl osl pParent true w).2.sys).2 }) ∧
    lcl_createName osl rLeadingChars tokens pExtension pParent bDirectory bKeep bLock false w
      = lcl_createName_loop osl
          ((ConstructTempDir_Impl osl pParent false w).1 ++ rLeadingChars) pExtension
          bDirectory bKeep bLock tokenFuel tokens [] []
          (ConstructTempDir_Impl osl pParent false w).2 ∧
    (∀ g : OUString → σ → RC × σ,
      lcl_createName (osl.withCreatePath g) rLeadingChars tokens pExtension pParent
          bDirectory bKeep bLock false w
        = lcl_createName osl rLeadingChars tokens pExtension pParent
            bDirectory bKeep bLock false w) := by
  unfold lcl_createName_aDirName
  refine ⟨?_, ?_, ?_, ?_⟩
  · intro h1 h2
    simp only [lcl_createName, if_true]
    rw [if_pos (by simp only [Bool.and_eq_true, decide_eq_true_eq]; exact ⟨h1, h2⟩)]
  · intro h
    simp only [lcl_createName, if_true]
    rw [if_neg (by
      simp only [Bool.and_eq_true, decide_eq_true_eq]
      intro hc
      rcases h with h | h
      · exact hc.1 h
      · exact hc.2 h)]
  · simp only [lcl_createName, Bool.false_eq_true, if_false]
  · intro g
    simp only [lcl_createName, Bool.false_eq_true, if_false,
      ConstructTempDir_Impl_withCreatePath, lcl_createName_loop_withCreatePath]

/-! ## Destruction and move of a named handle -/

/-- The destructor of a handle with deletion disabled does nothing. -/
theorem TempFileNamed.destroy_disabled {σ : Type} (osl : Osl σ) (self : TempFileNamed) (s : σ)
    (h : self.bKillingFileEnabled = false) : self.destroy osl s = ([], s) := by
  simp only [TempFileNamed.destroy, h, Bool.not_false, if_true]

/-- The destructor of a handle with deletion enabled: the stream, if any, is
released first, then the removal for the kind of the handle is made. -/
theorem TempFileNamed.destroy_enabled {σ : Type} (osl : Osl σ) (self : TempFileNamed) (s : σ)
    (h : self.bKillingFileEnabled = true) :
    self.destroy osl s
      = ((match self.pStream with
          | some stream => [DestructorCall.streamReset stream]
          | none => []) ++
          [if self.bIsDirectory then DestructorCall.deleteDirRecursively self.aName
           else DestructorCall.File_remove self.aName],
         if self.bIsDirectory then (osl.deleteDirRecursively self.aName s).2
         else (osl.File_remove self.aName s).2) := by
  unfold TempFileNamed.destroy
  rw [h]
  cases self.bIsDirectory <;> cases self.pStream <;> rfl

/-- C23. Deletion-on-destruction.  A handle built by either constructor has
deletion disabled.  The destructor of a handle with deletion disabled makes no
call and leaves the environment as it is.  The destructor of a handle with
deletion enabled first releases the stream the handle holds, if any, and
then makes exactly one removal as its last call: `deleteDirRecursively` of
the name for a directory handle, `File::remove` of the name for a file
handle; so a removal is among the calls exactly when deletion is enabled.
Over the modelled filesystem, when the removal is not refused, a directory
handle's directory and everything below it, or a file handle's file, is gone
afterwards. -/
theorem TempFileNamed_deletion_on_destruction {σ : Type} (osl : Osl σ)
    (self : TempFileNamed) (s : σ) :
    (∀ (pParent : Option OUString) (bDirectory : Bool) (w : World σ),
      (TempFileNamed.new osl pParent bDirectory w).1.bKillingFileEnabled = false) ∧
    (∀ (rLeadingChars : OUString) (showZero : Bool) (pExtension : OUString)
        (pParent : Option OUString) (bCreateParentDirs : Bool) (w : World σ),
      (TempFileNamed.newNamed osl rLeadingChars showZero pExtension pParent
        bCreateParentDirs w).1.bKillingFileEnabled = false) ∧
    (self.bKillingFileEnabled = false → self.destroy osl s = ([], s)) ∧
    (self.bKillingFileEnabled = true →
      (self.destroy osl s).1
        = (match self.pStream with
            | some stream => [DestructorCall.streamReset stream]
            | none => []) ++
          [if self.bIsDirectory then DestructorCall.deleteDirRecursively self.aName
           else DestructorCall.File_remove self.aName] ∧
      (self.destroy osl s).2
        = (if self.bIsDirectory then (osl.deleteDirRecursively self.aName s).2
           else (osl.File_remove self.aName s).2)) ∧
    ((∃ c ∈ (self.destroy osl s).1,
        c = DestructorCall.deleteDirRecursively self.aName ∨
        c = DestructorCall.File_remove self.aName) ↔ self.bKillingFileEnabled = true) ∧
    (∀ (a b : OUString → RC × OUString) (pid : Nat) (fs : ModelFS),
      self.bKillingFileEnabled = true →
      (self.bIsDirectory = true →
        fs.fault OsCall.deleteDirRecursively self.aName = none →
        fs.entries self.aName = some FileType.Directory →
        (self.destroy (modelOsl a b pid) fs).2.entries self.aName = none ∧
        ∀ q, (self.aName ++ "/".toList).isPrefixOf q = true →
          (self.destroy (modelOsl a b pid) fs).2.entries q = none) ∧
      (self.bIsDirectory = false →
        fs.fault OsCall.File_remove self.aName = none →
        fs.entries self.aName = some FileType.Regular →
        (self.destroy (modelOsl a b pid) fs).2.entries self.aName = none)) := by
  refine ⟨fun _ _ _ => rfl, fun _ _ _ _ _ _ => rfl,
    TempFileNamed.destroy_disabled osl self s, ?_, ?_, ?_⟩
  · intro h
    rw [TempFileNamed.destroy_enabled osl self s h]
    exact ⟨rfl, rfl⟩
  · constructor
    · rintro ⟨c, hc, _⟩
      by_cases h : self.bKillingFileEnabled = true
      · exact h
      · have h0 : self.bKillingFileEnabled = false := by
          cases hb : self.bKillingFileEnabled
          · rfl
          · exact absurd hb h
        rw [TempFileNamed.destroy_disabled osl self s h0] at hc
        exact absurd hc (List.not_mem_nil c)
    · intro h
      rw [TempFileNamed.destroy_enabled osl self s h]
      cases hd : self.bIsDirectory
      · exact ⟨DestructorCall.File_remove self.aName, by simp, Or.inr rfl⟩
      · exact ⟨DestructorCall.deleteDirRecursively self.aName, by simp, Or.inl rfl⟩
  · intro a b pid fs h
    rw [TempFileNamed.destroy_enabled (modelOsl a b pid) self fs h]
    refine ⟨?_, ?_⟩
    · intro hd hf he
      have hrm : (modelOsl a b pid).deleteDirRecursively self.aName fs
          = ModelFS.removeRecursively self.aName fs := rfl
      simp only [hd, if_true, hrm, ModelFS.removeRecursively, hf, he]
      refine ⟨by simp, ?_⟩
      intro q hq
      have hq1 := hq
      simp at hq1
      simp [hq1]
    · intro hd hf he
      have hrm : (modelOsl a b pid).File_remove self.aName fs
          = ModelFS.removeFile self.aName fs := rfl
      simp only [hd, Bool.false_eq_true, if_false, hrm, ModelFS.removeFile, hf, he]
      simp [ModelFS.erase]

/-- C28. Single owner of deletion: the move constructor gives the new handle
the source's name, stream, directory flag and deletion flag and clears the
deletion flag of the source; so after a move the two handles do not both have
deletion enabled, and the destructor of the moved-from handle makes no call
and leaves the environment as it is. -/
theorem TempFileNamed_move_single_owner {σ : Type} (osl : Osl σ) (other : TempFileNamed)
    (s : σ) :
    other.move.1.aName = other.aName ∧
    other.move.1.pStream = other.pStream ∧
    other.move.1.bIsDirectory = other.bIsDirectory ∧
    other.move.1.bKillingFileEnabled = other.bKillingFileEnabled ∧
    other.move.2.bKillingFileEnabled = false ∧
    ¬ (other.move.1.bKillingFileEnabled = true ∧ other.move.2.bKillingFileEnabled = true) ∧
    other.move.2.destroy osl s = ([], s) := by
  refine ⟨rfl, rfl, rfl, rfl, rfl, ?_, TempFileNamed.destroy_disabled osl _ s rfl⟩
  rintro ⟨_, h⟩
  exact Bool.noConfusion h

/-! ## The fast handle -/

theorem ModelFS.grows_refl (fs : ModelFS) : ModelFS.grows fs fs := ⟨rfl, fun _ => id⟩

theorem ModelFS.grows_trans (fs fs1 fs2 : ModelFS) (h1 : ModelFS.grows fs fs1)
    (h2 : ModelFS.grows fs1 fs2) : ModelFS.grows fs fs2 :=
  ⟨h2.1.trans h1.1, fun q hq => h1.2 q (h2.2 q hq)⟩

theorem ModelFS.grows_createExclusive (call : OsCall) (t : FileType) (path : OUString)
    (fs : ModelFS) : ModelFS.grows fs (ModelFS.createExclusive call t path fs).2 := by
  rcases ModelFS.createExclusive_state call t path fs with h | h
  · rw [h]
    exact ModelFS.grows_refl fs
  · rw [h]
    refine ⟨rfl, ?_⟩
    intro q
    simp only [ModelFS.insert]
    split_ifs
    · intro hx
      exact hx.elim
    · exact id

theorem ModelFS.openDirectory_state (path : OUString) (fs : ModelFS) :
    (ModelFS.openDirectory path fs).2 = fs := by
  unfold ModelFS.openDirectory
  cases fs.fault OsCall.Directory_open path with
  | some e => rfl
  | none =>
    cases fs.entries path with
    | none => rfl
    | some x => cases x <;> rfl

/-- The function `ensuredir` over the modelled filesystem only adds entries. -/
theorem model_ensuredirAux_grows (a b : OUString → RC × OUString) (pid : Nat) :
    ∀ (fuel : Nat) (rUnqPath : OUString) (fs : ModelFS),
      ModelFS.grows fs (ensuredirAux (modelOsl a b pid) fuel rUnqPath fs).2 := by
  intro fuel
  induction fuel with
  | zero => intro rUnqPath fs; exact ModelFS.grows_refl fs
  | succ fuel ih =>
    intro rUnqPath fs
    have hopen : ∀ p s, ((modelOsl a b pid).Directory_close p
        ((modelOsl a b pid).Directory_open p s).2) = s :=
      fun p s => ModelFS.openDirectory_state p s
    have hcreate : ∀ p fl s, ModelFS.grows s ((modelOsl a b pid).Directory_create p fl s).2 :=
      fun p _ s => ModelFS.grows_createExclusive OsCall.Directory_create FileType.Directory p s
    simp only [ensuredirAux, hopen]
    split_ifs <;>
      first
        | exact ModelFS.grows_refl fs
        | exact hcreate _ _ _
        | exact ModelFS.grows_trans _ _ _ (hcreate _ _ _) (ih _ _)
        | exact ModelFS.grows_trans _ _ _ (ModelFS.grows_trans _ _ _ (hcreate _ _ _) (ih _ _))
            (hcreate _ _ _)

/-- Without a parent and with a resolved base, the directory is the base with
its separator and nothing changes. -/
theorem ConstructTempDir_Impl_none_resolved {σ : Type} (osl : Osl σ)
    (bCreateParentDirs : Bool) (w : World σ) (hres : w.gTempNameBase_Impl ≠ []) :
    ConstructTempDir_Impl osl none bCreateParentDirs w
      = (ConstructTempDir_separator w.gTempNameBase_Impl, w) := by
  simp only [ConstructTempDir_Impl, ConstructTempDir_parent]
  rw [(ConstructTempDir_base_spec osl [] w).2.1 rfl hres]

/-- The block that allocates the internal directory: the world it leaves is
the world the allocation leaves, with the name of the internal directory as
base if the allocation succeeded. -/
theorem SetTempNameBaseDirectory_internal_eq {σ : Type} (osl : Osl σ) (rBaseName : OUString)
    (w : World σ) :
    SetTempNameBaseDirectory_internal osl rBaseName w
      = (if (CreateTempName_Impl osl none true true
                { w with gTempNameBase_Impl := rBaseName ++ "/".toList }).name ≠ []
           then
             { (CreateTempName_Impl osl none true true
                 { w with gTempNameBase_Impl := rBaseName ++ "/".toList }).world with
               gTempNameBase_Impl := (CreateTempName_Impl osl none true true
                 { w with gTempNameBase_Impl := rBaseName ++ "/".toList }).name }
           else
             (CreateTempName_Impl osl none true true
               { w with gTempNameBase_Impl := rBaseName ++ "/".toList }).world) := by
  simp only [SetTempNameBaseDirectory_internal, TempFileNamed.new, TempFileNamed.IsValid,
    TempFileNamed.destroy, Bool.not_false, if_true]
  by_cases hn : (CreateTempName_Impl osl none true true
      { w with gTempNameBase_Impl := rBaseName ++ "/".toList }).name = []
  · simp [hn]
  · simp [hn]

/-- The block that creates the directory of the override only adds entries to
the modelled filesystem. -/
theorem model_SetTempNameBaseDirectory_create_grows (a b : OUString → RC × OUString)
    (pid : Nat) (rBaseName : OUString) (fs : ModelFS) :
    ModelFS.grows fs (SetTempNameBaseDirectory_create (modelOsl a b pid) rBaseName fs).2 := by
  have hcreate : ∀ p fl s, ModelFS.grows s ((modelOsl a b pid).Directory_create p fl s).2 :=
    fun p _ s => ModelFS.grows_createExclusive OsCall.Directory_create FileType.Directory p s
  unfold SetTempNameBaseDirectory_create ensuredir
  simp only []
  split_ifs <;>
    first
      | exact hcreate _ _ _
      | exact ModelFS.grows_trans _ _ _ (hcreate _ _ _) (model_ensuredirAux_grows a b pid _ _ _)

/-- The allocation of a kept directory without parent from a resolved base
that ends with `/`, over the modelled filesystem: the base stays, the
filesystem only grows, and a non-empty result is the base followed by the eye
catcher, a token and `.tmp`, was free before and is a directory afterwards. -/
theorem model_CreateTempName_Impl_directory (a b : OUString → RC × OUString) (pid : Nat)
    (w : World ModelFS) (hres : w.gTempNameBase_Impl ≠ [])
    (hsep : endsWithChar w.gTempNameBase_Impl '/' = true) :
    (CreateTempName_Impl (modelOsl a b pid) none true true w).world.gTempNameBase_Impl
      = w.gTempNameBase_Impl ∧
    ModelFS.grows w.sys (CreateTempName_Impl (modelOsl a b pid) none true true w).world.sys ∧
    ((CreateTempName_Impl (modelOsl a b pid) none true true w).name ≠ [] →
      (∃ t, (CreateTempName_Impl (modelOsl a b pid) none true true w).name
        = w.gTempNameBase_Impl ++ ("lu".toList ++ OUString.number pid 10) ++ t
            ++ ".tmp".toList) ∧
      w.sys.entries (CreateTempName_Impl (modelOsl a b pid) none true true w).name = none ∧
      (CreateTempName_Impl (modelOsl a b pid) none true true w).world.sys.entries
        (CreateTempName_Impl (modelOsl a b pid) none true true w).name
        = some FileType.Directory) := by
  have hdir : ConstructTempDir_Impl (modelOsl a b pid) none false w
      = (w.gTempNameBase_Impl, w) := by
    rw [ConstructTempDir_Impl_none_resolved (modelOsl a b pid) false w hres]
    rcases ConstructTempDir_separator_cases w.gTempNameBase_Impl with
      ⟨h, _⟩ | ⟨_, _, h⟩ | ⟨_, he, _⟩
    · exact absurd h hres
    · rw [h]
    · rw [hsep] at he
      exact Bool.noConfusion he
  have himpl : CreateTempName_Impl (modelOsl a b pid) none true true w
      = lcl_createName_loop (modelOsl a b pid)
          (w.gTempNameBase_Impl ++ ("lu".toList ++ OUString.number pid 10)) [] true true false
          tokenFuel (Tokens.unique UniqueTokens.new) [] [] w := by
    simp only [CreateTempName_Impl, lcl_createName, Bool.false_eq_true, if_false, hdir]
    rfl
  rw [himpl]
  have hbase := lcl_createName_loop_base (modelOsl a b pid)
    (w.gTempNameBase_Impl ++ ("lu".toList ++ OUString.number pid 10)) [] true true false
    tokenFuel (Tokens.unique UniqueTokens.new) [] [] w
  have hshape := lcl_createName_loop_shape (modelOsl a b pid)
    (w.gTempNameBase_Impl ++ ("lu".toList ++ OUString.number pid 10)) [] true true false
    tokenFuel (Tokens.unique UniqueTokens.new) [] [] w
  have heff := model_loop_effect a b pid
    (w.gTempNameBase_Impl ++ ("lu".toList ++ OUString.number pid 10)) [] true true false
    tokenFuel (Tokens.unique UniqueTokens.new) [] [] w
  generalize lcl_createName_loop (modelOsl a b pid)
    (w.gTempNameBase_Impl ++ ("lu".toList ++ OUString.number pid 10)) [] true true false
    tokenFuel (Tokens.unique UniqueTokens.new) [] [] w = r at hbase hshape heff
  unfold ModelFS.allocationEffect at heff
  refine ⟨hbase, ⟨heff.1, ?_⟩, ?_⟩
  · intro q hq
    rcases heff.2.1 with ⟨h, _⟩ | ⟨_, _, _, hent, _⟩ | ⟨_, _, hk, _⟩ | ⟨_, hd, _⟩
    · rw [h] at hq
      exact hq
    · rw [hent] at hq
      simp only [ModelFS.insert] at hq
      split_ifs at hq
      exact hq
    · exact Bool.noConfusion hk
    · exact Bool.noConfusion hd
  · intro hne
    obtain ⟨t, _, _, hname⟩ := hshape hne
    refine ⟨⟨t, by rw [hname]; rfl⟩, ?_⟩
    rcases heff.2.1 with ⟨_, hn | hn⟩ | ⟨_, habs, _, hent, _⟩ | ⟨hn, _⟩ | ⟨hn, _⟩
    · exact absurd hn hne
    · exact Bool.noConfusion hn.2.1
    · refine ⟨habs, ?_⟩
      rw [hent]
      simp only [ModelFS.insert, if_true]
    · exact absurd hn hne
    · exact absurd hn hne

/-- C22 (amended). Override round trip over the modelled filesystem: when
`SetTempNameBaseDirectory(X)` succeeds (returns a non-empty path), a following
`GetTempNameBaseDirectory()` changes nothing and returns the process-wide base
with its separator, and the base is one of two.  Either the internal
directory was allocated: the base is `X ++ "/"` followed by the eye catcher
`lu<pid>`, a token and `.tmp`, a name that was free before the call and is a
directory afterwards.  Or its allocation failed: the base is `X ++ "/"`, and
`GetTempNameBaseDirectory()` returns `X ++ "/"`. -/
theorem SetTempNameBaseDirectory_round_trip (a b : OUString → RC × OUString) (pid : Nat)
    (rBaseName : OUString) (w : World ModelFS)
    (hok : (SetTempNameBaseDirectory (modelOsl a b pid) rBaseName w).1 ≠ []) :
    (GetTempNameBaseDirectory (modelOsl a b pid)
        (SetTempNameBaseDirectory (modelOsl a b pid) rBaseName w).2).2
      = (SetTempNameBaseDirectory (modelOsl a b pid) rBaseName w).2 ∧
    (((∃ t, (SetTempNameBaseDirectory (modelOsl a b pid) rBaseName w).2.gTempNameBase_Impl
          = rBaseName ++ "/".toList ++ ("lu".toList ++ OUString.number pid 10) ++ t
              ++ ".tmp".toList) ∧
        (GetTempNameBaseDirectory (modelOsl a b pid)
            (SetTempNameBaseDirectory (modelOsl a b pid) rBaseName w).2).1
          = (SetTempNameBaseDirectory (modelOsl a b pid) rBaseName w).2.gTempNameBase_Impl
              ++ "/".toList ∧
        w.sys.entries
            (SetTempNameBaseDirectory (modelOsl a b pid) rBaseName w).2.gTempNameBase_Impl
          = none ∧
        (SetTempNameBaseDirectory (modelOsl a b pid) rBaseName w).2.sys.entries
            (SetTempNameBaseDirectory (modelOsl a b pid) rBaseName w).2.gTempNameBase_Impl
          = some FileType.Directory) ∨
      ((CreateTempName_Impl (modelOsl a b pid) none true true
            { w with
              gTempNameBase_Impl := rBaseName ++ "/".toList
              sys := (SetTempNameBaseDirectory_create (modelOsl a b pid) rBaseName
                w.sys).2 }).name = [] ∧
        (SetTempNameBaseDirectory (modelOsl a b pid) rBaseName w).2.gTempNameBase_Impl
          = rBaseName ++ "/".toList ∧
        (GetTempNameBaseDirectory (modelOsl a b pid)
            (SetTempNameBaseDirectory (modelOsl a b pid) rBaseName w).2).1
          = rBaseName ++ "/".toList)) := by
  have hne : rBaseName ≠ [] := by
    intro h
    apply hok
    simp only [SetTempNameBaseDirectory, h, if_true]
  have hret : (SetTempNameBaseDirectory_create (modelOsl a b pid) rBaseName w.sys).1 = true := by
    cases hb : (SetTempNameBaseDirectory_create (modelOsl a b pid) rBaseName w.sys).1
    · exfalso
      apply hok
      simp only [SetTempNameBaseDirectory, if_neg hne, hb, Bool.false_eq_true, if_false]
    · rfl
  have hset : (SetTempNameBaseDirectory (modelOsl a b pid) rBaseName w).2
      = SetTempNameBaseDirectory_internal (modelOsl a b pid) rBaseName
          { w with sys := (SetTempNameBaseDirectory_create (modelOsl a b pid) rBaseName
            w.sys).2 } := by
    simp only [SetTempNameBaseDirectory, if_neg hne, hret, if_true]
  have hgrow := model_SetTempNameBaseDirectory_create_grows a b pid rBaseName w.sys
  have hw1res : rBaseName ++ "/".toList ≠ [] := by
    intro h
    exact hne (List.append_eq_nil.mp h).1
  have hdirfacts := model_CreateTempName_Impl_directory a b pid
    { w with
      gTempNameBase_Impl := rBaseName ++ "/".toList
      sys := (SetTempNameBaseDirectory_create (modelOsl a b pid) rBaseName w.sys).2 }
    hw1res (endsWithChar_append_singleton rBaseName '/')
  rw [hset, SetTempNameBaseDirectory_internal_eq]
  generalize SetTempNameBaseDirectory_create (modelOsl a b pid) rBaseName w.sys = e
    at hgrow hdirfacts
  simp only [] at hdirfacts ⊢
  generalize CreateTempName_Impl (modelOsl a b pid) none true true
    { gTempNameBase_Impl := rBaseName ++ "/".toList, globalValue := w.globalValue,
      sys := e.2 } = c at hdirfacts
  obtain ⟨hcbase, _, hcname⟩ := hdirfacts
  by_cases hn : c.name = []
  · rw [if_neg (not_not.mpr hn)]
    have hres : c.world.gTempNameBase_Impl ≠ [] := by
      rw [hcbase]
      exact hw1res
    have hget : GetTempNameBaseDirectory (modelOsl a b pid) c.world
        = (rBaseName ++ "/".toList, c.world) := by
      unfold GetTempNameBaseDirectory
      rw [ConstructTempDir_Impl_none_resolved (modelOsl a b pid) false c.world hres, hcbase]
      rcases ConstructTempDir_separator_cases (rBaseName ++ "/".toList) with
        ⟨h, _⟩ | ⟨_, _, h⟩ | ⟨_, he, _⟩
      · exact absurd h hw1res
      · rw [h]
      · exact Bool.noConfusion ((endsWithChar_append_singleton rBaseName '/').symm.trans he)
    rw [hget]
    exact ⟨rfl, Or.inr ⟨hn, hcbase, rfl⟩⟩
  · rw [if_pos hn]
    obtain ⟨⟨t, ht⟩, habs, hent⟩ := hcname hn
    have hnotsep : endsWithChar c.name '/' = false := by
      rw [ht]
      unfold endsWithChar
      rw [List.getLast?_append]
      rfl
    have hget : GetTempNameBaseDirectory (modelOsl a b pid)
        { c.world with gTempNameBase_Impl := c.name }
        = (c.name ++ "/".toList, { c.world with gTempNameBase_Impl := c.name }) := by
      unfold GetTempNameBaseDirectory
      rw [ConstructTempDir_Impl_none_resolved (modelOsl a b pid) false
        { c.world with gTempNameBase_Impl := c.name } hn]
      rcases ConstructTempDir_separator_cases c.name with ⟨h, _⟩ | ⟨_, he, _⟩ | ⟨_, _, h⟩
      · exact absurd h hn
      · rw [hnotsep] at he
        exact Bool.noConfusion he
      · simp only [h]
    rw [hget]
    refine ⟨rfl, Or.inl ⟨⟨t, ht⟩, rfl, ?_, hent⟩⟩
    exact hgrow.2 _ habs

/-- C22 (amended) at a concrete input: on an empty filesystem the override
with `file:///base` succeeds and the base becomes the internal directory. -/
theorem SetTempNameBaseDirectory_round_trip_witness :
    (SetTempNameBaseDirectory plainOsl "file:///base".toList (World.initial emptyFS)).1
      = "file:///base/lu4242rs.tmp".toList ∧
    (GetTempNameBaseDirectory plainOsl
        (SetTempNameBaseDirectory plainOsl "file:///base".toList (World.initial emptyFS)).2).1
      = "file:///base/lu4242rs.tmp/".toList ∧
    (GetTempNameBaseDirectory plainOsl
        (SetTempNameBaseDirectory plainOsl "file:///base".toList (World.initial emptyFS)).2).2
      = (SetTempNameBaseDirectory plainOsl "file:///base".toList (World.initial emptyFS)).2 :=
  ⟨by decide, by decide,
   (SetTempNameBaseDirectory_round_trip (fun p => (RC.E_None, p)) (fun p => (RC.E_None, p))
      4242 "file:///base".toList (World.initial emptyFS) (by decide)).1⟩

/-- C22 as stated fails: over a filesystem in which `file:///base` exists and
no directory can be created, the override with `file:///base` succeeds, it
creates nothing, and the following `GetTempNameBaseDirectory()` returns
`file:///base/`, the directory of the override itself and not a directory
generated under it. -/
theorem SetTempNameBaseDirectory_round_trip_counterexample :
    (SetTempNameBaseDirectory plainOsl "file:///base".toList
      (World.initial readOnlyBaseFS)).1 = "file:///base/".toList ∧
    (SetTempNameBaseDirectory plainOsl "file:///base".toList
      (World.initial readOnlyBaseFS)).2.gTempNameBase_Impl = "file:///base/".toList ∧
    (GetTempNameBaseDirectory plainOsl
        (SetTempNameBaseDirectory plainOsl "file:///base".toList
          (World.initial readOnlyBaseFS)).2).1 = "file:///base/".toList ∧
    (SetTempNameBaseDirectory plainOsl "file:///base".toList
      (World.initial readOnlyBaseFS)).2.sys.entries "file:///base/lu4242rs.tmp".toList
      = none := by
  decide

/-! ## Termination of `ensuredir` -/

theorem rfind_lt (c : Char) : ∀ (p : OUString) (i : Nat), rfind c p = some i → i < p.length := by
  intro p
  induction p with
  | nil => intro i h; exact Option.noConfusion h
  | cons x xs ih =>
    intro i h
    simp only [rfind] at h
    cases hr : rfind c xs with
    | some j =>
      rw [hr] at h
      simp only [Option.some.injEq] at h
      have := ih j hr
      simp only [List.length_cons]
      omega
    | none =>
      rw [hr] at h
      simp only [] at h
      split_ifs at h
      simp only [Option.some.injEq] at h
      simp only [List.length_cons]
      omega

theorem rfind_append_singleton (c : Char) :
    ∀ s : OUString, rfind c (s ++ [c]) = some s.length := by
  intro s
  induction s with
  | nil => simp [rfind]
  | cons x xs ih =>
    show rfind c (x :: (xs ++ [c])) = _
    rw [rfind, ih]
    rfl

theorem removeTrailingSlash_length_le (p : OUString) :
    (removeTrailingSlash p).length ≤ p.length := by
  unfold removeTrailingSlash
  split_ifs
  · simp only [List.length_take]
    omega
  · exact Nat.le_refl _

theorem removeTrailingSlash_append_slash (s : OUString) :
    removeTrailingSlash (s ++ "/".toList) = s := by
  unfold removeTrailingSlash
  rw [show s ++ "/".toList = s ++ ['/'] from rfl, endsWithChar_append_singleton, if_pos rfl]
  simp

theorem equalsIgnoreAsciiCase_length (x y : OUString) (h : equalsIgnoreAsciiCase x y = true) :
    x.length = y.length := by
  simp only [equalsIgnoreAsciiCase, beq_iff_eq] at h
  have := congrArg List.length h
  simpa using this

/-- A string that ends with a colon, followed by a slash, is not `file://` in
any letter case. -/
theorem scheme_slash_not_file (s : OUString) (hcolon : endsWithChar s ':' = true) :
    equalsIgnoreAsciiCase (s ++ "/".toList) "file://".toList = false := by
  cases h : equalsIgnoreAsciiCase (s ++ "/".toList) "file://".toList
  · rfl
  · exfalso
    have hlen := equalsIgnoreAsciiCase_length _ _ h
    have hlen6 : s.length = 6 := by
      simp only [List.length_append] at hlen
      have h7 : "file://".toList.length = 7 := by decide
      have h1 : "/".toList.length = 1 := by decide
      omega
    match s, hlen6, hcolon, h with
    | [c0, c1, c2, c3, c4, c5], _, hcolon, h =>
      have h5 : c5 = ':' := by
        simpa [endsWithChar] using hcolon
      subst h5
      simp only [equalsIgnoreAsciiCase, beq_iff_eq] at h
      have h6 : some (Char.toLower ':') = some (Char.toLower '/') :=
        congrArg (fun l => l.get? 5) h
      exact absurd h6 (by decide)

theorem utf16Units_pos (c : Char) : 1 ≤ utf16Units c := by
  unfold utf16Units
  split_ifs <;> omega

theorem OUString.getLength_nil : OUString.getLength [] = 0 := rfl

theorem OUString.getLength_cons (c : Char) (s : OUString) :
    OUString.getLength (c :: s) = utf16Units c + OUString.getLength s := by
  simp [OUString.getLength]

theorem OUString.getLength_append (x y : OUString) :
    OUString.getLength (x ++ y) = OUString.getLength x + OUString.getLength y := by
  simp [OUString.getLength]

/-- A string has at least as many UTF-16 code units as characters. -/
theorem OUString.length_le_getLength (s : OUString) : s.length ≤ OUString.getLength s := by
  induction s with
  | nil => exact Nat.le_refl _
  | cons c s ih =>
    rw [OUString.getLength_cons, List.length_cons]
    have := utf16Units_pos c
    omega

theorem OUString.getLength_take_le (s : OUString) (i : Nat) :
    OUString.getLength (s.take i) ≤ OUString.getLength s := by
  have h := OUString.getLength_append (s.take i) (s.drop i)
  rw [List.take_append_drop] at h
  omega

theorem OUString.getLength_take_lt (s : OUString) (i : Nat) (hi : i < s.length) :
    OUString.getLength (s.take i) < OUString.getLength s := by
  have h := OUString.getLength_append (s.take i) (s.drop i)
  rw [List.take_append_drop] at h
  have hd := OUString.length_le_getLength (s.drop i)
  simp only [List.length_drop] at hd
  omega

theorem removeTrailingSlash_getLength_le (p : OUString) :
    OUString.getLength (removeTrailingSlash p) ≤ OUString.getLength p := by
  unfold removeTrailingSlash
  split_ifs
  · exact OUString.getLength_take_le p _
  · exact Nat.le_refl _

/-- The three ways `getParentName` forms its result when the name has a
slash, and the empty result when it has none. -/
theorem getParentName_cases (p : OUString) :
    (rfind '/' p = none ∧ getParentName p = []) ∨
    (∃ i, rfind '/' p = some i ∧ i < p.length ∧
      ((endsWithChar (p.take i) ':' = true ∧ OUString.getLength (p.take i) = 6 ∧
          getParentName p = p.take i ++ "/".toList) ∨
        (i = 7 ∧ equalsIgnoreAsciiCase (p.take 7) "file://".toList = true ∧
          getParentName p = "file:///".toList) ∨
        (¬ (endsWithChar (p.take i) ':' = true ∧ OUString.getLength (p.take i) = 6) ∧
          equalsIgnoreAsciiCase (p.take i) "file://".toList = false ∧
          getParentName p = p.take i))) := by
  unfold getParentName
  cases hr : rfind '/' p with
  | none => exact Or.inl ⟨rfl, rfl⟩
  | some i =>
    right
    have hi := rfind_lt '/' p i hr
    have hlen : (p.take i).length = i := by
      simp only [List.length_take]
      omega
    refine ⟨i, rfl, hi, ?_⟩
    simp only []
    by_cases h1 : endsWithChar (p.take i) ':' = true ∧ OUString.getLength (p.take i) = 6
    · have hc : (endsWithChar (p.take i) ':' && OUString.getLength (p.take i) == 6) = true := by
        simp only [Bool.and_eq_true, beq_iff_eq]
        exact h1
      rw [if_pos hc]
      have hnf := scheme_slash_not_file (p.take i) h1.1
      rw [if_neg (by rw [hnf]; exact Bool.false_ne_true)]
      exact Or.inl ⟨h1.1, h1.2, rfl⟩
    · have hc : ¬ ((endsWithChar (p.take i) ':' && OUString.getLength (p.take i) == 6)
          = true) := by
        simp only [Bool.and_eq_true, beq_iff_eq]
        exact h1
      rw [if_neg hc]
      cases h2 : equalsIgnoreAsciiCase (p.take i) "file://".toList
      · rw [if_neg Bool.false_ne_true]
        exact Or.inr (Or.inr ⟨h1, rfl, rfl⟩)
      · rw [if_pos rfl]
        have hi7 : i = 7 := by
          have := equalsIgnoreAsciiCase_length _ _ h2
          rw [hlen] at this
          exact this
        subst hi7
        exact Or.inr (Or.inl ⟨rfl, h2, rfl⟩)

/-- Every result of `getParentName` other than its argument is strictly
shorter than the argument once its trailing slash is removed, in characters. -/
theorem getParentName_shorter (p : OUString) (hne : getParentName p ≠ p) :
    (removeTrailingSlash (getParentName p)).length < p.length := by
  rcases getParentName_cases p with ⟨_, h⟩ | ⟨i, _, hi, h | h | h⟩
  · rw [h]
    rw [h] at hne
    cases p with
    | nil => exact absurd rfl hne
    | cons x xs => simp [removeTrailingSlash, endsWithChar]
  · obtain ⟨_, _, h⟩ := h
    rw [h, removeTrailingSlash_append_slash]
    simp only [List.length_take]
    omega
  · obtain ⟨hi7, _, h⟩ := h
    rw [h]
    have : (removeTrailingSlash "file:///".toList).length = 7 := by decide
    omega
  · obtain ⟨_, _, h⟩ := h
    rw [h]
    have := removeTrailingSlash_length_le (p.take i)
    simp only [List.length_take] at this
    omega

/-- Every result of `getParentName` other than its argument is strictly
shorter than the argument once its trailing slash is removed, in UTF-16 code
units, the measure of `getLength`. -/
theorem getParentName_shorter_units (p : OUString) (hne : getParentName p ≠ p) :
    OUString.getLength (removeTrailingSlash (getParentName p)) < OUString.getLength p := by
  rcases getParentName_cases p with ⟨_, h⟩ | ⟨i, _, hi, h | h | h⟩
  · rw [h]
    rw [h] at hne
    cases p with
    | nil => exact absurd rfl hne
    | cons x xs =>
      have h0 : OUString.getLength (removeTrailingSlash []) = 0 := rfl
      rw [h0, OUString.getLength_cons]
      have := utf16Units_pos x
      omega
  · obtain ⟨_, _, h⟩ := h
    rw [h, removeTrailingSlash_append_slash]
    exact OUString.getLength_take_lt p i hi
  · obtain ⟨hi7, _, h⟩ := h
    rw [h]
    have h7 : OUString.getLength (removeTrailingSlash "file:///".toList) = 7 := by decide
    have := OUString.length_le_getLength p
    omega
  · obtain ⟨_, _, h⟩ := h
    rw [h]
    have h1 := removeTrailingSlash_getLength_le (p.take i)
    have h2 := OUString.getLength_take_lt p i hi
    omega

/-- The fixed points of `getParentName`: the empty string, a string of six
UTF-16 code units ending in `:` followed by `/`, and `file:///`. -/
theorem getParentName_fixed_iff (p : OUString) :
    getParentName p = p ↔
      (p = [] ∨
        (∃ s : OUString, OUString.getLength s = 6 ∧ endsWithChar s ':' = true ∧
          p = s ++ "/".toList) ∨
        p = "file:///".toList) := by
  constructor
  · intro hfix
    rcases getParentName_cases p with ⟨_, h⟩ | ⟨i, _, hi, h | h | h⟩
    · left
      rw [← hfix, h]
    · obtain ⟨hc, hlen, h⟩ := h
      right; left
      exact ⟨p.take i, hlen, hc, by rw [← h, hfix]⟩
    · obtain ⟨_, _, h⟩ := h
      right; right
      rw [← hfix, h]
    · obtain ⟨_, _, h⟩ := h
      exfalso
      have := congrArg List.length (h.symm.trans hfix)
      simp only [List.length_take] at this
      omega
  · rintro (h | ⟨s, hlen, hc, h⟩ | h)
    · subst h
      rfl
    · subst h
      unfold getParentName
      rw [show s ++ "/".toList = s ++ ['/'] from rfl, rfind_append_singleton]
      have htake : (s ++ ['/']).take s.length = s := by simp
      simp only [htake]
      have hc1 : (endsWithChar s ':' && OUString.getLength s == 6) = true := by
        simp only [Bool.and_eq_true, beq_iff_eq]
        exact ⟨hc, hlen⟩
      rw [if_pos hc1]
      have hnf := scheme_slash_not_file s hc
      rw [if_neg (by rw [hnf]; exact Bool.false_ne_true)]
      rfl
    · subst h
      decide

/-- A pass of `ensuredir` whose path, without its trailing slash, is a fixed
point of `getParentName` makes no recursive call. -/
theorem ensuredirAux_fixed {σ : Type} (osl : Osl σ) (fuel1 fuel2 : Nat) (rUnqPath : OUString)
    (s : σ)
    (hfix : getParentName (removeTrailingSlash rUnqPath) = removeTrailingSlash rUnqPath) :
    ensuredirAux osl (fuel1 + 1) rUnqPath s = ensuredirAux osl (fuel2 + 1) rUnqPath s := by
  unfold removeTrailingSlash at hfix
  rw [ensuredirAux, ensuredirAux]
  simp only [hfix, ne_eq, not_true_eq_false, if_false]

/-- The result of `ensuredir` does not depend on the bound on the depth, as
soon as the bound exceeds the length of the path without its trailing slash:
the bound is never the reason for stopping. -/
theorem ensuredirAux_fuel {σ : Type} (osl : Osl σ) :
    ∀ (fuel1 fuel2 : Nat) (rUnqPath : OUString) (s : σ),
      (removeTrailingSlash rUnqPath).length + 1 ≤ fuel1 →
      (removeTrailingSlash rUnqPath).length + 1 ≤ fuel2 →
      ensuredirAux osl fuel1 rUnqPath s = ensuredirAux osl fuel2 rUnqPath s := by
  intro fuel1
  induction fuel1 with
  | zero => intro fuel2 rUnqPath s h1; omega
  | succ n ih =>
    intro fuel2 rUnqPath s h1 h2
    cases fuel2 with
    | zero => omega
    | succ m =>
      by_cases hfix : getParentName (removeTrailingSlash rUnqPath)
          = removeTrailingSlash rUnqPath
      · exact ensuredirAux_fixed osl n m rUnqPath s hfix
      · have hshort := getParentName_shorter (removeTrailingSlash rUnqPath) hfix
        have hrec : ∀ x : σ,
            ensuredirAux osl n (getParentName (removeTrailingSlash rUnqPath)) x
              = ensuredirAux osl m (getParentName (removeTrailingSlash rUnqPath)) x :=
          fun x => ih m _ x (by omega) (by omega)
        unfold removeTrailingSlash at hrec
        rw [ensuredirAux, ensuredirAux]
        simp only [hrec]

/-- C27. Termination of `ensuredir`, for every path and every environment
(whatever the filesystem answers, and when).  The result is the same for
every bound on the depth of the recursion above the length of the path, so
the recursion ends by itself within that depth.  Every recursive call, made
when the parent differs from the path without its trailing slash, is on a
parent that is strictly shorter than that path once its own trailing slash is
removed, both in characters and in UTF-16 code units (the measure of
`getLength`).  The fixed points of `getParentName` are a string of six UTF-16
code units ending in `:` followed by `/`, the string `file:///`, and the empty
string; at a fixed point the guard `aParentDir != aPath` lets no recursive
call be made.  For the empty string `ensuredir` returns false at once,
leaving the environment as it is. -/
theorem ensuredir_terminates {σ : Type} (osl : Osl σ) (rUnqPath : OUString) (s : σ) :
    (∀ fuel, rUnqPath.length + 1 ≤ fuel →
      ensuredirAux osl fuel rUnqPath s = ensuredir osl rUnqPath s) ∧
    (getParentName (removeTrailingSlash rUnqPath) ≠ removeTrailingSlash rUnqPath →
      (removeTrailingSlash (getParentName (removeTrailingSlash rUnqPath))).length
        < (removeTrailingSlash rUnqPath).length ∧
      OUString.getLength (removeTrailingSlash (getParentName (removeTrailingSlash rUnqPath)))
        < OUString.getLength (removeTrailingSlash rUnqPath)) ∧
    (getParentName (removeTrailingSlash rUnqPath) = removeTrailingSlash rUnqPath ↔
      (removeTrailingSlash rUnqPath = [] ∨
        (∃ scheme : OUString, OUString.getLength scheme = 6 ∧
          endsWithChar scheme ':' = true ∧
          removeTrailingSlash rUnqPath = scheme ++ "/".toList) ∨
        removeTrailingSlash rUnqPath = "file:///".toList)) ∧
    (getParentName (removeTrailingSlash rUnqPath) = removeTrailingSlash rUnqPath →
      ∀ fuel, ensuredirAux osl (fuel + 1) rUnqPath s = ensuredirAux osl 1 rUnqPath s) ∧
    (∀ fuel, ensuredirAux osl fuel [] s = (false, s)) ∧
    ensuredir osl [] s = (false, s) := by
  refine ⟨?_, fun h => ⟨getParentName_shorter _ h, getParentName_shorter_units _ h⟩,
    getParentName_fixed_iff _, ?_, ?_, ensuredir_nil osl s⟩
  · intro fuel hfuel
    have hle := removeTrailingSlash_length_le rUnqPath
    exact ensuredirAux_fuel osl fuel (rUnqPath.length + 1) rUnqPath s (by omega) (by omega)
  · intro hfix fuel
    exact ensuredirAux_fixed osl fuel 0 rUnqPath s hfix
  · intro fuel
    cases fuel with
    | zero => rfl
    | succ n => simp only [ensuredirAux, if_true]

/-- A name with a character outside the Basic Multilingual Plane: the musical
symbol G clef (two UTF-16 code units) followed by `abc:` has six code units
and five characters, so `getParentName` gives its name followed by `/` back
unchanged. -/
theorem getParentName_fixed_surrogate :
    OUString.getLength [Char.ofNat 119070, 'a', 'b', 'c', ':'] = 6 ∧
    getParentName [Char.ofNat 119070, 'a', 'b', 'c', ':', '/']
      = [Char.ofNat 119070, 'a', 'b', 'c', ':', '/'] ∧
    getParentName "abcde:/x".toList = "abcde:/".toList ∧
    getParentName "abcde:/".toList = "abcde:/".toList := by
  decide

/-- On an empty filesystem the fast handle allocates `lu4242rs.tmp` for its
first stream and, after `CloseStream`, `lu4242rt.tmp` for the next. -/
theorem model_fast_handle_two_names :
    (TempFileFast.GetStream plainOsl TempFileFast.new (World.initial emptyFS)).1.mxStream
      = some (SvStream.file "file:///tmp/lu4242rs.tmp".toList) ∧
    (TempFileFast.GetStream plainOsl
      (TempFileFast.GetStream plainOsl TempFileFast.new (World.initial emptyFS)).1.CloseStream
      (TempFileFast.GetStream plainOsl TempFileFast.new (World.initial emptyFS)).2).1.mxStream
      = some (SvStream.file "file:///tmp/lu4242rt.tmp".toList) := by
  decide

end utl

namespace oox.drawingml

/-! ## The guide list of a custom shape -/

theorem toSalInt32_of_lt (n : Nat) (h : n < 2147483648) : toSalInt32 n = (n : Int) := by
  unfold toSalInt32
  have hm : n % 4294967296 = n := Nat.mod_eq_of_lt (by omega)
  rw [hm, if_pos h]

/-- The loop of `SetCustomShapeGuideValue` stops at the first guide from
`nIndex` on that has the name, or at the size of the list. -/
theorem CustomShapeProperties.SetCustomShapeGuideValue_loop_spec
    (rGuideList : List CustomShapeGuide) (rGuide : CustomShapeGuide) :
    ∀ (fuel nIndex : Nat), nIndex ≤ rGuideList.length → rGuideList.length - nIndex ≤ fuel →
      nIndex ≤ SetCustomShapeGuideValue_loop rGuideList rGuide fuel nIndex ∧
      SetCustomShapeGuideValue_loop rGuideList rGuide fuel nIndex ≤ rGuideList.length ∧
      (∀ j x, nIndex ≤ j → j < SetCustomShapeGuideValue_loop rGuideList rGuide fuel nIndex →
        rGuideList[j]? = some x → x.maName ≠ rGuide.maName) ∧
      (SetCustomShapeGuideValue_loop rGuideList rGuide fuel nIndex < rGuideList.length →
        ∃ x, rGuideList[SetCustomShapeGuideValue_loop rGuideList rGuide fuel nIndex]? = some x ∧
          x.maName = rGuide.maName) := by
  intro fuel
  induction fuel with
  | zero =>
    intro nIndex hle hfuel
    simp only [SetCustomShapeGuideValue_loop]
    refine ⟨Nat.le_refl _, hle, ?_, ?_⟩
    · intro j x h1 h2
      omega
    · intro h
      omega
  | succ fuel ih =>
    intro nIndex hle hfuel
    rw [SetCustomShapeGuideValue_loop]
    by_cases h : nIndex < rGuideList.length
    · rw [dif_pos h]
      by_cases hname : rGuideList[nIndex].maName = rGuide.maName
      · rw [if_pos hname]
        refine ⟨Nat.le_refl _, hle, ?_, ?_⟩
        · intro j x h1 h2
          omega
        · intro _
          exact ⟨rGuideList[nIndex], List.getElem?_eq_getElem h, hname⟩
      · rw [if_neg hname]
        obtain ⟨h1, h2, h3, h4⟩ := ih (nIndex + 1) (by omega) (by omega)
        refine ⟨by omega, h2, ?_, h4⟩
        intro j x hj1 hj2 hjx
        by_cases hj : j = nIndex
        · subst hj
          rw [List.getElem?_eq_getElem h] at hjx
          simp only [Option.some.injEq] at hjx
          rw [← hjx]
          exact hname
        · exact h3 j x (by omega) hj2 hjx
    · rw [dif_neg h]
      refine ⟨Nat.le_refl _, hle, ?_, ?_⟩
      · intro j x h1 h2
        omega
      · intro h'
        omega

/-- The loop of `GetCustomShapeGuideValue`, entered at a valid index, stops at
the last guide up to that index that has the name, or at -1. -/
theorem CustomShapeProperties.GetCustomShapeGuideValue_loop_spec
    (rGuideList : List CustomShapeGuide) (rFormulaName : utl.OUString) :
    ∀ (nIndex : Nat), nIndex < rGuideList.length →
      ∃ r : Int,
        GetCustomShapeGuideValue_loop rGuideList rFormulaName nIndex = some r ∧
        -1 ≤ r ∧ r ≤ (nIndex : Int) ∧
        (0 ≤ r → ∃ x, rGuideList[r.toNat]? = some x ∧ x.maName = rFormulaName) ∧
        (∀ (j : Nat) x, r < (j : Int) → j ≤ nIndex → rGuideList[j]? = some x →
          x.maName ≠ rFormulaName) := by
  intro nIndex
  induction nIndex with
  | zero =>
    intro h
    rw [GetCustomShapeGuideValue_loop, List.getElem?_eq_getElem h]
    simp only []
    by_cases hname : rGuideList[0].maName = rFormulaName
    · rw [if_pos hname]
      refine ⟨0, rfl, by omega, by omega, ?_, ?_⟩
      · intro _
        exact ⟨rGuideList[0], List.getElem?_eq_getElem h, hname⟩
      · intro j x h1 h2
        omega
    · rw [if_neg hname]
      refine ⟨-1, rfl, by omega, by omega, ?_, ?_⟩
      · intro h0
        omega
      · intro j x h1 h2 hjx
        have hj : j = 0 := by omega
        subst hj
        rw [List.getElem?_eq_getElem h] at hjx
        simp only [Option.some.injEq] at hjx
        rw [← hjx]
        exact hname
  | succ n ih =>
    intro h
    rw [GetCustomShapeGuideValue_loop, List.getElem?_eq_getElem h]
    simp only []
    by_cases hname : rGuideList[n + 1].maName = rFormulaName
    · rw [if_pos hname]
      refine ⟨((n + 1 : Nat) : Int), rfl, by omega, by omega, ?_, ?_⟩
      · intro _
        refine ⟨rGuideList[n + 1], ?_, hname⟩
        rw [Int.toNat_ofNat]
        exact List.getElem?_eq_getElem h
      · intro j x h1 h2
        omega
    · rw [if_neg hname]
      obtain ⟨r, hr, h1, h2, h3, h4⟩ := ih (by omega)
      refine ⟨r, hr, h1, by omega, h3, ?_⟩
      intro j x hj1 hj2 hjx
      by_cases hj : j = n + 1
      · subst hj
        rw [List.getElem?_eq_getElem h] at hjx
        simp only [Option.some.injEq] at hjx
        rw [← hjx]
        exact hname
      · exact h4 j x hj1 (by omega) hjx

theorem toSalInt32_le (n : Nat) : toSalInt32 n ≤ (n : Int) := by
  unfold toSalInt32
  split_ifs <;> omega

theorem getElem?_lt_of_eq_some {α : Type} (l : List α) (j : Nat) (x : α)
    (h : l[j]? = some x) : j < l.length := by
  by_contra hj
  rw [List.getElem?_eq_none (by omega)] at h
  exact Option.noConfusion h

/-- The result of `GetCustomShapeGuideValue` on a list whose size `sal_Int32`
holds: the last index with the name, or -1 when no guide has it. -/
theorem CustomShapeProperties.GetCustomShapeGuideValue_spec
    (rGuideList : List CustomShapeGuide) (rFormulaName : utl.OUString)
    (hsize : rGuideList.length ≤ 2147483647) :
    ∃ r : Int,
      CustomShapeProperties.GetCustomShapeGuideValue rGuideList rFormulaName = some r ∧
      (r < 0 ↔ ∀ x ∈ rGuideList, x.maName ≠ rFormulaName) ∧
      (r < 0 → r = -1) ∧
      (0 ≤ r →
        r.toNat < rGuideList.length ∧
        (∃ x, rGuideList[r.toNat]? = some x ∧ x.maName = rFormulaName) ∧
        ∀ (j : Nat) x, r.toNat < j → rGuideList[j]? = some x → x.maName ≠ rFormulaName) := by
  have hcast := toSalInt32_of_lt rGuideList.length (by omega)
  unfold CustomShapeProperties.GetCustomShapeGuideValue
  rw [hcast, if_neg (by omega)]
  simp only []
  by_cases hlen : rGuideList.length = 0
  · have hnil : rGuideList = [] := List.length_eq_zero.mp hlen
    subst hnil
    refine ⟨-1, by simp, ?_, fun _ => rfl, fun h => by omega⟩
    constructor
    · intro _ x hx
      exact absurd hx (List.not_mem_nil x)
    · intro _
      omega
  · have hge : ((rGuideList.length : Int) - 1) ≥ 0 := by omega
    rw [if_pos hge]
    have htn : ((rGuideList.length : Int) - 1).toNat = rGuideList.length - 1 := by omega
    rw [htn]
    obtain ⟨r, hr, h1, h2, h3, h4⟩ :=
      CustomShapeProperties.GetCustomShapeGuideValue_loop_spec rGuideList rFormulaName
        (rGuideList.length - 1) (by omega)
    refine ⟨r, hr, ?_, fun h => by omega, ?_⟩
    · constructor
      · intro hneg x hx
        obtain ⟨j, hj⟩ := List.getElem?_of_mem hx
        have hjlt := getElem?_lt_of_eq_some rGuideList j x hj
        exact h4 j x (by omega) (by omega) hj
      · intro hall
        by_contra hnn
        obtain ⟨x, hx, hname⟩ := h3 (by omega)
        exact hall x (List.getElem?_mem hx) hname
    · intro h0
      refine ⟨by omega, h3 h0, ?_⟩
      intro j x hj hjx
      have hjlt := getElem?_lt_of_eq_some rGuideList j x hjx
      exact h4 j x (by omega) (by omega) hjx

/-- C26 (amended). The function `GetCustomShapeGuideValue` on a guide list of
at most 2^31 - 1 elements (a size that `sal_Int32` holds): the result is
defined; it is negative exactly when no guide of the list has the name, and
is then -1; a non-negative result is a valid index, the guide there has the
name, and no guide after it has the name, so it is the largest index with
that name.  On every guide list, a non-negative result is a valid index. -/
theorem GetCustomShapeGuideValue_last_occurrence (rGuideList : List CustomShapeGuide)
    (rFormulaName : utl.OUString) :
    (rGuideList.length ≤ 2147483647 →
      ∃ r : Int,
        CustomShapeProperties.GetCustomShapeGuideValue rGuideList rFormulaName = some r ∧
        (r < 0 ↔ ∀ x ∈ rGuideList, x.maName ≠ rFormulaName) ∧
        (r < 0 → r = -1) ∧
        (0 ≤ r →
          r.toNat < rGuideList.length ∧
          (∃ x, rGuideList[r.toNat]? = some x ∧ x.maName = rFormulaName) ∧
          ∀ (j : Nat) x, r.toNat < j → rGuideList[j]? = some x → x.maName ≠ rFormulaName)) ∧
    (∀ r : Int,
      CustomShapeProperties.GetCustomShapeGuideValue rGuideList rFormulaName = some r →
      0 ≤ r → r.toNat < rGuideList.length) := by
  refine ⟨CustomShapeProperties.GetCustomShapeGuideValue_spec rGuideList rFormulaName, ?_⟩
  · intro r hr h0
    unfold CustomShapeProperties.GetCustomShapeGuideValue at hr
    have hle := toSalInt32_le rGuideList.length
    by_cases h1 : toSalInt32 rGuideList.length = -2147483648
    · rw [if_pos h1] at hr
      exact Option.noConfusion hr
    · rw [if_neg h1] at hr
      simp only [] at hr
      by_cases h2 : toSalInt32 rGuideList.length - 1 ≥ 0
      · rw [if_pos h2] at hr
        obtain ⟨r1, hr1, _, h3, _, _⟩ :=
          CustomShapeProperties.GetCustomShapeGuideValue_loop_spec rGuideList rFormulaName
            (toSalInt32 rGuideList.length - 1).toNat (by omega)
        rw [hr1] at hr
        simp only [Option.some.injEq] at hr
        omega
      · rw [if_neg h2] at hr
        simp only [Option.some.injEq] at hr
        omega

/-- C26 as stated fails: a list of 2^32 guides named `a` has size 0 when
converted to `sal_Int32`, so the search for `a` starts at -1 and
`GetCustomShapeGuideValue` returns -1, although every guide of the list has
that name. -/
theorem GetCustomShapeGuideValue_last_occurrence_counterexample :
    CustomShapeProperties.GetCustomShapeGuideValue
      (List.replicate 4294967296 (CustomShapeGuide.mk "a".toList [])) "a".toList
      = some (-1) ∧
    CustomShapeGuide.mk "a".toList [] ∈
      List.replicate 4294967296 (CustomShapeGuide.mk "a".toList []) ∧
    (CustomShapeGuide.mk "a".toList []).maName = "a".toList := by
  refine ⟨?_, ?_, rfl⟩
  · unfold CustomShapeProperties.GetCustomShapeGuideValue
    rw [List.length_replicate]
    have h : toSalInt32 4294967296 = 0 := by decide
    rw [h]
    decide
  · rw [List.mem_replicate]
    exact ⟨by decide, rfl⟩

/-- The two outcomes of `SetCustomShapeGuideValue`: a guide with the name is
found at a first index and the list is left as it is, or no guide has the
name and the guide is appended. -/
theorem CustomShapeProperties.SetCustomShapeGuideValue_cases
    (rGuideList : List CustomShapeGuide) (rGuide : CustomShapeGuide) :
    (∃ r : Nat, r < rGuideList.length ∧
      CustomShapeProperties.SetCustomShapeGuideValue rGuideList rGuide
        = (toSalInt32 r, rGuideList) ∧
      (∃ x, rGuideList[r]? = some x ∧ x.maName = rGuide.maName) ∧
      ∀ (j : Nat) x, j < r → rGuideList[j]? = some x → x.maName ≠ rGuide.maName) ∨
    ((∀ x ∈ rGuideList, x.maName ≠ rGuide.maName) ∧
      CustomShapeProperties.SetCustomShapeGuideValue rGuideList rGuide
        = (toSalInt32 rGuideList.length, rGuideList ++ [rGuide])) := by
  obtain ⟨_, h2, h3, h4⟩ :=
    CustomShapeProperties.SetCustomShapeGuideValue_loop_spec rGuideList rGuide
      rGuideList.length 0 (Nat.zero_le _) (by omega)
  unfold CustomShapeProperties.SetCustomShapeGuideValue
  simp only []
  generalize CustomShapeProperties.SetCustomShapeGuideValue_loop rGuideList rGuide
    rGuideList.length 0 = r at h2 h3 h4
  by_cases hr : r = rGuideList.length
  · right
    rw [if_pos hr, hr]
    refine ⟨?_, rfl⟩
    intro x hx
    obtain ⟨j, hj⟩ := List.getElem?_of_mem hx
    have hjlt := getElem?_lt_of_eq_some rGuideList j x hj
    exact h3 j x (Nat.zero_le _) (by omega) hj
  · left
    rw [if_neg hr]
    exact ⟨r, by omega, rfl, h4 (by omega), fun j x hj hjx => h3 j x (Nat.zero_le _) hj hjx⟩

/-- C29 (amended). The function `SetCustomShapeGuideValue`, for every guide
list and guide: if some element of the list has the name of the guide, the
list is left completely unchanged, else the guide is appended at the end; the
list grows by at most one element.  On a list of at most 2^31 - 1 elements (a
size that `sal_Int32` holds) the result is, in the first case, the index of
the first element with that name, and in the second the old length; in both
cases it is a valid index of the resulting list and the element there has the
name of the guide. -/
theorem SetCustomShapeGuideValue_first_occurrence (rGuideList : List CustomShapeGuide)
    (rGuide : CustomShapeGuide) :
    ((∃ x ∈ rGuideList, x.maName = rGuide.maName) →
      (CustomShapeProperties.SetCustomShapeGuideValue rGuideList rGuide).2 = rGuideList) ∧
    ((∀ x ∈ rGuideList, x.maName ≠ rGuide.maName) →
      (CustomShapeProperties.SetCustomShapeGuideValue rGuideList rGuide).2
        = rGuideList ++ [rGuide]) ∧
    (CustomShapeProperties.SetCustomShapeGuideValue rGuideList rGuide).2.length
      ≤ rGuideList.length + 1 ∧
    (rGuideList.length ≤ 2147483647 →
      ((∃ x ∈ rGuideList, x.maName = rGuide.maName) →
        ∃ i : Nat,
          (CustomShapeProperties.SetCustomShapeGuideValue rGuideList rGuide).1 = (i : Int) ∧
          (∃ x, rGuideList[i]? = some x ∧ x.maName = rGuide.maName) ∧
          ∀ (j : Nat) x, j < i → rGuideList[j]? = some x → x.maName ≠ rGuide.maName) ∧
      ((∀ x ∈ rGuideList, x.maName ≠ rGuide.maName) →
        (CustomShapeProperties.SetCustomShapeGuideValue rGuideList rGuide).1
          = (rGuideList.length : Int)) ∧
      0 ≤ (CustomShapeProperties.SetCustomShapeGuideValue rGuideList rGuide).1 ∧
      (CustomShapeProperties.SetCustomShapeGuideValue rGuideList rGuide).1.toNat
        < (CustomShapeProperties.SetCustomShapeGuideValue rGuideList rGuide).2.length ∧
      ∃ x,
        (CustomShapeProperties.SetCustomShapeGuideValue rGuideList rGuide).2[
          (CustomShapeProperties.SetCustomShapeGuideValue rGuideList rGuide).1.toNat]?
          = some x ∧
        x.maName = rGuide.maName) := by
  rcases CustomShapeProperties.SetCustomShapeGuideValue_cases rGuideList rGuide with
    ⟨r, hr, hset, ⟨x, hx, hname⟩, hbefore⟩ | ⟨hnone, hset⟩
  · have hmem : ∃ x ∈ rGuideList, x.maName = rGuide.maName :=
      ⟨x, List.getElem?_mem hx, hname⟩
    rw [hset]
    refine ⟨fun _ => rfl, ?_, by simp, ?_⟩
    · intro hall
      exact absurd hname (hall x (List.getElem?_mem hx))
    · intro hsize
      have hcast := toSalInt32_of_lt r (by omega)
      simp only [hcast]
      refine ⟨fun _ => ⟨r, rfl, ⟨x, hx, hname⟩, hbefore⟩, ?_, by omega, by omega, ?_⟩
      · intro hall
        exact absurd hname (hall x (List.getElem?_mem hx))
      · rw [Int.toNat_ofNat]
        exact ⟨x, hx, hname⟩
  · rw [hset]
    refine ⟨?_, fun _ => rfl, by simp, ?_⟩
    · rintro ⟨x, hx, hname⟩
      exact absurd hname (hnone x hx)
    · intro hsize
      have hcast := toSalInt32_of_lt rGuideList.length (by omega)
      simp only [hcast]
      refine ⟨?_, fun _ => trivial, by omega, ?_, ?_⟩
      · rintro ⟨x, hx, hname⟩
        exact absurd hname (hnone x hx)
      · rw [Int.toNat_ofNat]
        simp
      · rw [Int.toNat_ofNat]
        exact ⟨rGuide, by simp, rfl⟩

/-- C29 as stated fails: for a list of 2^32 guides named `a` and a guide named
`b`, the guide is appended and the result is the old length converted to
`sal_Int32`, which is 0 and not 2^32; the element at index 0 of the resulting
list is named `a`, not `b`. -/
theorem SetCustomShapeGuideValue_first_occurrence_counterexample :
    (CustomShapeProperties.SetCustomShapeGuideValue
      (List.replicate 4294967296 (CustomShapeGuide.mk "a".toList []))
      (CustomShapeGuide.mk "b".toList [])).1 = 0 ∧
    (List.replicate 4294967296 (CustomShapeGuide.mk "a".toList [])).length = 4294967296 ∧
    (CustomShapeProperties.SetCustomShapeGuideValue
      (List.replicate 4294967296 (CustomShapeGuide.mk "a".toList []))
      (CustomShapeGuide.mk "b".toList [])).2
      = List.replicate 4294967296 (CustomShapeGuide.mk "a".toList [])
          ++ [CustomShapeGuide.mk "b".toList []] ∧
    (CustomShapeProperties.SetCustomShapeGuideValue
      (List.replicate 4294967296 (CustomShapeGuide.mk "a".toList []))
      (CustomShapeGuide.mk "b".toList [])).2[0]?
      = some (CustomShapeGuide.mk "a".toList []) := by
  have hnone : ∀ x ∈ List.replicate 4294967296 (CustomShapeGuide.mk "a".toList []),
      x.maName ≠ (CustomShapeGuide.mk "b".toList []).maName := by
    intro x hx
    rw [(List.mem_replicate.mp hx).2]
    decide
  rcases CustomShapeProperties.SetCustomShapeGuideValue_cases
      (List.replicate 4294967296 (CustomShapeGuide.mk "a".toList []))
      (CustomShapeGuide.mk "b".toList []) with
    ⟨r, _, _, ⟨x, hx, hname⟩, _⟩ | ⟨_, hset⟩
  · exact absurd hname (hnone x (List.getElem?_mem hx))
  · rw [hset, List.length_replicate]
    refine ⟨by decide, rfl, rfl, ?_⟩
    rw [List.getElem?_append_left (by rw [List.length_replicate]; decide),
      List.getElem?_replicate, if_pos (by decide)]

/-- The function `SetCustomShapeGuideValue` keeps the names of the list
pairwise distinct. -/
theorem CustomShapeProperties.SetCustomShapeGuideValue_nodup
    (rGuideList : List CustomShapeGuide) (rGuide : CustomShapeGuide)
    (h : (rGuideList.map CustomShapeGuide.maName).Nodup) :
    ((CustomShapeProperties.SetCustomShapeGuideValue rGuideList rGuide).2.map
      CustomShapeGuide.maName).Nodup := by
  rcases CustomShapeProperties.SetCustomShapeGuideValue_cases rGuideList rGuide with
    ⟨r, _, hset, _, _⟩ | ⟨hnone, hset⟩
  · rw [hset]
    exact h
  · rw [hset]
    simp only [List.map_append, List.map_cons, List.map_nil]
    rw [List.nodup_append]
    refine ⟨h, List.nodup_singleton _, ?_⟩
    intro name h1 h2
    simp only [List.mem_singleton] at h2
    obtain ⟨x, hx, hxn⟩ := List.mem_map.mp h1
    exact hnone x hx (hxn.trans h2)

theorem guidesSetInTurn_foldl_nodup (guides : List CustomShapeGuide) :
    ∀ acc : List CustomShapeGuide, (acc.map CustomShapeGuide.maName).Nodup →
      ((guides.foldl (fun rGuideList rGuide =>
        (CustomShapeProperties.SetCustomShapeGuideValue rGuideList rGuide).2) acc).map
        CustomShapeGuide.maName).Nodup := by
  induction guides with
  | nil => intro acc h; exact h
  | cons g gs ih =>
    intro acc h
    exact ih _ (CustomShapeProperties.SetCustomShapeGuideValue_nodup acc g h)

/-- Guides with pairwise distinct names, set in turn, give the list of the
guides. -/
theorem guidesSetInTurn_foldl_distinct (guides : List CustomShapeGuide) :
    ∀ acc : List CustomShapeGuide,
      ((acc ++ guides).map CustomShapeGuide.maName).Nodup →
      guides.foldl (fun rGuideList rGuide =>
        (CustomShapeProperties.SetCustomShapeGuideValue rGuideList rGuide).2) acc
        = acc ++ guides := by
  induction guides with
  | nil => intro acc _; simp
  | cons g gs ih =>
    intro acc h
    have hstep : (CustomShapeProperties.SetCustomShapeGuideValue acc g).2 = acc ++ [g] := by
      rcases CustomShapeProperties.SetCustomShapeGuideValue_cases acc g with
        ⟨r, _, _, ⟨x, hx, hname⟩, _⟩ | ⟨_, hset⟩
      · exfalso
        simp only [List.map_append, List.map_cons] at h
        rw [List.nodup_append] at h
        exact h.2.2 (List.mem_map.mpr ⟨x, List.getElem?_mem hx, hname⟩)
          (List.mem_cons_self _ _)
      · rw [hset]
    simp only [List.foldl_cons, hstep]
    rw [ih (acc ++ [g]) (by simpa using h)]
    simp

/-- On a list with pairwise distinct names whose size `sal_Int32` holds,
`GetCustomShapeGuideValue` for the name of a guide, right after
`SetCustomShapeGuideValue` for that guide, returns the index that
`SetCustomShapeGuideValue` returned. -/
theorem CustomShapeProperties.GetCustomShapeGuideValue_after_Set
    (rGuideList : List CustomShapeGuide) (rGuide : CustomShapeGuide)
    (hnodup : (rGuideList.map CustomShapeGuide.maName).Nodup)
    (hsize : (CustomShapeProperties.SetCustomShapeGuideValue rGuideList rGuide).2.length
      ≤ 2147483647) :
    CustomShapeProperties.GetCustomShapeGuideValue
        (CustomShapeProperties.SetCustomShapeGuideValue rGuideList rGuide).2 rGuide.maName
      = some (CustomShapeProperties.SetCustomShapeGuideValue rGuideList rGuide).1 := by
  rcases CustomShapeProperties.SetCustomShapeGuideValue_cases rGuideList rGuide with
    ⟨r, hr, hset, ⟨x, hx, hname⟩, _⟩ | ⟨hnone, hset⟩
  · rw [hset] at hsize ⊢
    simp only [] at hsize ⊢
    rw [toSalInt32_of_lt r (by omega)]
    obtain ⟨r1, hget, hneg, _, hpos⟩ :=
      CustomShapeProperties.GetCustomShapeGuideValue_spec rGuideList rGuide.maName hsize
    rw [hget]
    have h0 : 0 ≤ r1 := by
      by_contra hlt
      exact (hneg.mp (by omega)) x (List.getElem?_mem hx) hname
    obtain ⟨hlt, ⟨x1, hx1, hname1⟩, _⟩ := hpos h0
    have hidx : r = r1.toNat := by
      apply List.getElem?_inj (by rw [List.length_map]; exact hr) hnodup
      rw [List.getElem?_map, List.getElem?_map, hx, hx1]
      simp only [Option.map_some']
      rw [hname, hname1]
    rw [hidx]
    congr 1
    omega
  · rw [hset] at hsize ⊢
    simp only [List.length_append, List.length_singleton] at hsize ⊢
    rw [toSalInt32_of_lt rGuideList.length (by omega)]
    obtain ⟨r1, hget, hneg, _, hpos⟩ :=
      CustomShapeProperties.GetCustomShapeGuideValue_spec (rGuideList ++ [rGuide])
        rGuide.maName (by simp only [List.length_append, List.length_singleton]; omega)
    rw [hget]
    have h0 : 0 ≤ r1 := by
      by_contra hlt
      exact (hneg.mp (by omega)) rGuide (by simp) rfl
    obtain ⟨hlt, ⟨x1, hx1, hname1⟩, _⟩ := hpos h0
    simp only [List.length_append, List.length_singleton] at hlt
    have hlast : r1.toNat = rGuideList.length := by
      by_contra hne
      rw [List.getElem?_append_left (by omega)] at hx1
      exact hnone x1 (List.getElem?_mem hx1) hname1
    congr 1
    omega

/-- C30 (amended). Agreement of the two functions.  The function
`SetCustomShapeGuideValue` keeps the names of a guide list pairwise distinct,
so every list built from the empty list by `SetCustomShapeGuideValue` alone
has pairwise distinct names.  On a list with pairwise distinct names,
`GetCustomShapeGuideValue` for the name of a guide right after
`SetCustomShapeGuideValue` for that guide returns the index the latter
returned, provided the resulting list has at most 2^31 - 1 elements (a size
that `sal_Int32` holds).  On a list with a duplicated name the two can
disagree: on two guides named `a`, `SetCustomShapeGuideValue` reports index 0
and `GetCustomShapeGuideValue` index 1. -/
theorem SetGet_CustomShapeGuideValue_agreement (rGuideList : List CustomShapeGuide)
    (rGuide : CustomShapeGuide) (guides : List CustomShapeGuide) :
    ((rGuideList.map CustomShapeGuide.maName).Nodup →
      ((CustomShapeProperties.SetCustomShapeGuideValue rGuideList rGuide).2.map
        CustomShapeGuide.maName).Nodup) ∧
    ((guidesSetInTurn guides).map CustomShapeGuide.maName).Nodup ∧
    ((rGuideList.map CustomShapeGuide.maName).Nodup →
      (CustomShapeProperties.SetCustomShapeGuideValue rGuideList rGuide).2.length
        ≤ 2147483647 →
      CustomShapeProperties.GetCustomShapeGuideValue
          (CustomShapeProperties.SetCustomShapeGuideValue rGuideList rGuide).2 rGuide.maName
        = some (CustomShapeProperties.SetCustomShapeGuideValue rGuideList rGuide).1) ∧
    ((CustomShapeProperties.SetCustomShapeGuideValue
        [CustomShapeGuide.mk "a".toList "1".toList, CustomShapeGuide.mk "a".toList "2".toList]
        (CustomShapeGuide.mk "a".toList "3".toList))
        = (0, [CustomShapeGuide.mk "a".toList "1".toList,
               CustomShapeGuide.mk "a".toList "2".toList]) ∧
      CustomShapeProperties.GetCustomShapeGuideValue
        [CustomShapeGuide.mk "a".toList "1".toList, CustomShapeGuide.mk "a".toList "2".toList]
        "a".toList = some 1) :=
  ⟨CustomShapeProperties.SetCustomShapeGuideValue_nodup rGuideList rGuide,
   guidesSetInTurn_foldl_nodup guides [] List.nodup_nil,
   CustomShapeProperties.GetCustomShapeGuideValue_after_Set rGuideList rGuide,
   by decide, by decide⟩

theorem guidesNamedByNumber_length : guidesNamedByNumber.length = 4294967296 := by
  unfold guidesNamedByNumber
  rw [List.length_map, List.length_range]

theorem guidesNamedByNumber_nodup :
    (guidesNamedByNumber.map CustomShapeGuide.maName).Nodup := by
  unfold guidesNamedByNumber
  rw [List.map_map]
  refine List.Nodup.map ?_ (List.nodup_range _)
  intro i j h
  exact utl.number_injective 10 (by decide) (by decide) i j h

theorem guidesNamedByNumber_names (x : CustomShapeGuide) (hx : x ∈ guidesNamedByNumber) :
    x.maName ≠ [] := by
  unfold guidesNamedByNumber at hx
  obtain ⟨i, _, hi⟩ := List.mem_map.mp hx
  rw [← hi]
  exact utl.number_ne_nil i 10

theorem guidesNamedByNumber_head :
    guidesNamedByNumber[0]? = some (CustomShapeGuide.mk (utl.OUString.number 0 10) []) := by
  unfold guidesNamedByNumber
  rw [List.getElem?_map, List.getElem?_range (by decide)]
  rfl

/-- C30 as stated fails: the 2^32 guides named by the numbers, set in turn
from the empty list, give a list with pairwise distinct names; setting a guide
with the empty name appends it and returns the old length converted to
`sal_Int32`, which is 0, while `GetCustomShapeGuideValue` for the empty name
on the resulting list, whose converted size is 1, looks at index 0 only and
returns -1. -/
theorem SetGet_CustomShapeGuideValue_agreement_counterexample :
    guidesSetInTurn guidesNamedByNumber = guidesNamedByNumber ∧
    guidesNamedByNumber.length = 4294967296 ∧
    (CustomShapeProperties.SetCustomShapeGuideValue (guidesSetInTurn guidesNamedByNumber)
      (CustomShapeGuide.mk [] [])).1 = 0 ∧
    CustomShapeProperties.GetCustomShapeGuideValue
      (CustomShapeProperties.SetCustomShapeGuideValue (guidesSetInTurn guidesNamedByNumber)
        (CustomShapeGuide.mk [] [])).2 (CustomShapeGuide.mk [] []).maName = some (-1) := by
  have hbuilt : guidesSetInTurn guidesNamedByNumber = guidesNamedByNumber := by
    have h := guidesSetInTurn_foldl_distinct guidesNamedByNumber []
      (by rw [List.nil_append]; exact guidesNamedByNumber_nodup)
    rw [List.nil_append] at h
    exact h
  have hlen := guidesNamedByNumber_length
  refine ⟨hbuilt, hlen, ?_⟩
  rw [hbuilt]
  rcases CustomShapeProperties.SetCustomShapeGuideValue_cases guidesNamedByNumber
      (CustomShapeGuide.mk [] []) with
    ⟨r, _, _, ⟨x, hx, hname⟩, _⟩ | ⟨_, hset⟩
  · exact absurd hname (guidesNamedByNumber_names x (List.getElem?_mem hx))
  · rw [hset, hlen]
    refine ⟨by decide, ?_⟩
    show CustomShapeProperties.GetCustomShapeGuideValue
      (guidesNamedByNumber ++ [CustomShapeGuide.mk [] []]) [] = some (-1)
    have hlen1 : (guidesNamedByNumber ++ [CustomShapeGuide.mk [] []]).length = 4294967297 := by
      rw [List.length_append, hlen]
      rfl
    have hcast : toSalInt32 4294967297 = 1 := by decide
    have hhead : (guidesNamedByNumber ++ [CustomShapeGuide.mk [] []])[0]?
        = some (CustomShapeGuide.mk (utl.OUString.number 0 10) []) := by
      rw [List.getElem?_append_left (by rw [hlen]; decide)]
      exact guidesNamedByNumber_head
    unfold CustomShapeProperties.GetCustomShapeGuideValue
    rw [hlen1, hcast, if_neg (by decide)]
    simp only []
    rw [if_pos (by decide)]
    have h0 : ((1 : Int) - 1).toNat = 0 := by decide
    rw [h0, CustomShapeProperties.GetCustomShapeGuideValue_loop, hhead]
    simp only []
    rw [if_neg (utl.number_ne_nil 0 10)]

end oox.drawingml
